import Mathlib

/-!
# The flux kernel generator: output management and driver

A shallow embedding of `src/generator/generator_utils.h` (namespace
`bytedance::flux::generator`).  `std::string` is `String`, `std::vector` is `List`,
`std::set<std::string>` is a strictly increasing `List String`.

The file system is seen through what the generator touches: the directory that
`options.dir` names, as the list of its entries (name and bytes), and the manifest file
that `options.output_file` names, which may or may not be an entry of that directory.  A
path handed to `write_if_changed` is a plain entry name of the directory.  Whether an
open, a directory change, a look-up, a read, a listing or a removal succeeds, and where
the manifest lies, is answered by a `Sys` record, so that every failure the code reacts
to or is ended by can be exercised.
-/

namespace Generator

/-! ## File system -/

/-- Entries of the current directory, name and content, in `directory_iterator` order.
A real directory has one entry per name; the operations below act on every entry of a
name, so no statement has to assume it. -/
abbrev Dir := List (String × String)

/-- Answers of the operating system during one run. -/
structure Sys where
  /-- Tells whether `std::ofstream ofile(options.output_file)` ends up open; the argument
  is the path `options.output_file`. -/
  open_output_file : String → Bool
  /-- Absolute path of the directory once `current_path(options.dir)` has entered it;
  `none` when the call throws `filesystem_error`.  The argument is the path
  `options.dir`. -/
  current_path : String → Option String
  /-- Tells whether `std::ifstream file(p, std::ios::in)` opens an existing `p` and the
  bytes of `p` are read from it. -/
  can_read : String → Bool
  /-- Tells whether `std::ofstream file(p, std::ios::out)` opens (creating or truncating). -/
  can_write : String → Bool
  /-- Tells whether `fs::remove(p)` succeeds; otherwise it throws `filesystem_error`. -/
  can_remove : String → Bool
  /-- Tells whether `fs::exists(p)` throws `filesystem_error`: the system refuses to look
  the name up, as it does for a name that is too long. -/
  exists_throws : String → Bool
  /-- Asked when `can_read p` is false.  Tells whether the stream on the existing `p` did
  open and the read of its bytes threw `std::ios_base::failure`, as on a name that is a
  directory; otherwise the stream did not open. -/
  read_throws : String → Bool
  /-- Tells whether `fs::directory_iterator(fs::current_path())` lists the directory;
  otherwise it throws `filesystem_error`. -/
  can_list : Bool
  /-- Name under which the file of `options.output_file` (second argument) is an entry
  of the directory of `options.dir` (first argument), both paths taken from the working
  directory at the start; `none` when the file is no entry of that directory. -/
  output_file_entry : String → String → Option String
  /-- The part of the text streamed to `ofile` that is in the file when an exception
  ends the run before `ofile.close()`: all of it when the stack is unwound, and
  otherwise what the stream buffer had passed on. -/
  flushed : String → String

/-- Effects on the directory, in program order.  `removed` and `remove_failed` are also
the two lines `clear_old_files` prints. -/
inductive Event where
  | wrote (path content : String)
  | write_failed (path : String)
  | removed (name : String)
  | remove_failed (name : String)
  deriving DecidableEq, Repr

/-- An event that changes the directory. -/
def Event.is_effect : Event → Bool
  | .wrote _ _ => true
  | .removed _ => true
  | _ => false

/-- An event that records a failed open-for-writing or a failed removal. -/
def Event.is_failure : Event → Bool
  | .write_failed _ => true
  | .remove_failed _ => true
  | _ => false

/-- An event that records a failed open-for-writing. -/
def Event.is_write_failed : Event → Bool
  | .write_failed _ => true
  | _ => false

/-- Models `fs::exists(p)`. -/
def fs_exists (d : Dir) (p : String) : Bool :=
  d.any (fun e => decide (e.1 = p))

/-- Bytes of the file named `p`. -/
def fs_read (d : Dir) (p : String) : Option String :=
  (d.find? (fun e => decide (e.1 = p))).map Prod.snd

/-- Result of `ofstream(p, ios::out) << c`: truncate or create, then store `c`. -/
def fs_write (d : Dir) (p c : String) : Dir :=
  if fs_exists d p then d.map (fun e => if e.1 = p then (p, c) else e)
  else d ++ [(p, c)]

/-- Result of a successful `fs::remove(p)`. -/
def fs_remove (d : Dir) (p : String) : Dir :=
  d.filter (fun e => decide (e.1 ≠ p))

/-- Names of the entries. -/
def Dir.names (d : Dir) : List String := d.map Prod.fst

/-- Source: `write_if_changed` (generator_utils.h:79-100), for a call that returns;
`write_if_changed_throws` tells when the call ends with an exception instead. -/
def write_if_changed (sys : Sys) (file_path new_content : String) (d : Dir) :
    Dir × List Event :=
  let same : Bool :=
    if fs_exists d file_path then
      if sys.can_read file_path then
        match fs_read d file_path with
        | some existing_content => decide (existing_content = new_content)
        | none => false
      else false
    else false
  if same then (d, [])
  else if sys.can_write file_path then
    (fs_write d file_path new_content, [Event.wrote file_path new_content])
  else (d, [Event.write_failed file_path])

/-- One iteration of the loop of `clear_old_files` (generator_utils.h:107-115). -/
def clear_step (sys : Sys) (all_file_paths : List String) (acc : Dir × List Event)
    (entry : String × String) : Dir × List Event :=
  let file_path := entry.1
  if file_path ∉ all_file_paths then
    if sys.can_remove file_path then
      (fs_remove acc.1 file_path, acc.2 ++ [Event.removed file_path])
    else (acc.1, acc.2 ++ [Event.remove_failed file_path])
  else acc

/-- Source: `clear_old_files` (generator_utils.h:102-117).  The loop runs over the entries
the directory had when the iteration started. -/
def clear_old_files (sys : Sys) (all_file_paths : List String) (d : Dir) :
    Dir × List Event :=
  d.foldl (clear_step sys all_file_paths) (d, [])

/-! ## `std::set<std::string>` -/

/-- Byte-wise lexicographic order of `std::string::compare`.  A `Char` stands for its
UTF-8 bytes, whose order is the order of the code points. -/
def chars_lt : List Char → List Char → Bool
  | [], [] => false
  | [], _ :: _ => true
  | _ :: _, [] => false
  | a :: as, b :: bs =>
    if a.toNat < b.toNat then true
    else if b.toNat < a.toNat then false
    else chars_lt as bs

/-- Models `std::less<std::string>`. -/
def string_lt (a b : String) : Bool := chars_lt a.data b.data

/-- Models `std::set<std::string>::emplace`: the set is kept strictly increasing and an
equivalent key is not inserted twice. -/
def set_emplace (x : String) : List String → List String
  | [] => [x]
  | y :: ys =>
    if string_lt x y then x :: y :: ys
    else if string_lt y x then y :: set_emplace x ys
    else y :: ys

/-! ## Option parsing -/

/-- Source: `struct Options` (generator_utils.h:33-39), with the defaults of its
constructor. -/
structure Options where
  help : Bool := false
  dir : String := "./registers"
  archs : String := ""
  output_file : String := "./generated_ops.txt"

/-- Models `str.substr(pos, len)` for `pos ≤ str.size()`. -/
def substr (str : List Char) (pos len : Nat) : List Char := (str.drop pos).take len

/-- The `for` loop of `parse_semicolon_seperated`; the first argument counts the
iterations that are left, `sz + 1 - i`. -/
def parse_loop (str : List Char) (sz : Nat) : Nat → Nat → Int → List String → List String
  | 0, _, _, str_vec => str_vec
  | left + 1, i, prev, str_vec =>
    if i = sz ∨ str.getD i ' ' = ';' then
      let str_vec1 :=
        if prev + 1 < (i : Int) then
          str_vec ++ [String.mk (substr str (prev + 1).toNat ((i : Int) - prev - 1).toNat)]
        else str_vec
      parse_loop str sz left (i + 1) (i : Int) str_vec1
    else parse_loop str sz left (i + 1) prev str_vec

/-- Source: `parse_semicolon_seperated` (generator_utils.h:65-77).  `i` runs from `0` to
`sz` inclusive; `int(str.size())` is taken without overflow. -/
def parse_semicolon_seperated (str : String) : List String :=
  parse_loop str.data str.data.length (str.data.length + 1) 0 (-1) []

/-- Exceptions that leave `main_template` uncaught. -/
inductive Exception where
  | invalid_argument
  | out_of_range
  | filesystem_error
  | ios_failure
  deriving DecidableEq, Repr

deriving instance DecidableEq for Except

/-- Models `isspace` in the "C" locale. -/
def isspace (c : Char) : Bool :=
  c = ' ' ∨ c = '\t' ∨ c = '\n' ∨ c.toNat = 11 ∨ c.toNat = 12 ∨ c = '\r'

/-- Value of a run of decimal digits. -/
def digits_value (ds : List Char) : Nat :=
  ds.foldl (fun acc c => 10 * acc + (c.toNat - 48)) 0

/-- Models `std::stoi(str)` (base 10, no `pos` argument): `strtol` skips white space,
reads an optional sign and the longest run of digits and ignores what follows;
no digit gives `invalid_argument`, a value outside `int` gives `out_of_range`. -/
def stoi (str : String) : Except Exception Int :=
  let s1 := str.data.dropWhile isspace
  let neg : Bool := s1.head? = some '-'
  let s2 := if s1.head? = some '-' ∨ s1.head? = some '+' then s1.tail else s1
  let ds := s2.takeWhile Char.isDigit
  if ds.isEmpty then Except.error Exception.invalid_argument
  else
    let v : Int := if neg then -(digits_value ds : Int) else (digits_value ds : Int)
    if v < -2147483648 ∨ 2147483647 < v then Except.error Exception.out_of_range
    else Except.ok v

/-- Modelled from the spec: `enum ArchEnum`, declared in flux/flux.h, is missing.  The
specification calls its values numeric architecture identifiers; it is taken as an
enumeration over `int`, so that `ArchEnum(arch_num)` keeps the number `stoi` returned. -/
abbrev ArchEnum := Int

/-- The loop `for (auto arch : archs_vec)` of `main_template` (generator_utils.h:265-268).
Of the `std::set<ArchEnum>` only `count` is ever asked. -/
def collect_archs : List String → List ArchEnum → Except Exception (List ArchEnum)
  | [], archs => Except.ok archs
  | arch :: rest, archs =>
    match stoi arch with
    | Except.error e => Except.error e
    | Except.ok arch_num => collect_archs rest (archs.insert arch_num)

/-! ## Code emission -/

/-- Models `match_results::format` of libstdc++ with the default (ECMAScript) rules, for
a regular expression without capture groups: `m` is the match, `pre` the text between
the previous match and this one, `suf` the text after the match. -/
def format_go (m pre suf : List Char) : List Char → List Char
  | [] => []
  | c :: r =>
    if c ≠ '$' then c :: format_go m pre suf r
    else
      match r with
      | [] => ['$']
      | d :: r2 =>
        if d = '$' then '$' :: format_go m pre suf r2
        else if d = '&' then m ++ format_go m pre suf r2
        else if d.toNat = 96 then pre ++ format_go m pre suf r2
        else if d.toNat = 39 then suf ++ format_go m pre suf r2
        else if d.isDigit then
          match r2 with
          | [] => if d = '0' then m else []
          | d2 :: r3 =>
            if d2.isDigit then
              (if d = '0' ∧ d2 = '0' then m else []) ++ format_go m pre suf r3
            else (if d = '0' then m else []) ++ format_go m pre suf (d2 :: r3)
        else '$' :: format_go m pre suf (d :: r2)

/-- The scan of `std::regex_replace` for a pattern that is a non-empty literal: `skip`
counts the characters of the current match still to be passed over, `pre` is the text
copied since the previous match. -/
def replace_go (pat fmt : List Char) : Nat → List Char → List Char → List Char
  | _, _, [] => []
  | skip + 1, pre, _ :: rest => replace_go pat fmt skip pre rest
  | 0, pre, c :: rest =>
    if pat.isPrefixOf (c :: rest) then
      format_go pat pre ((c :: rest).drop pat.length) fmt
        ++ replace_go pat fmt (pat.length - 1) [] rest
    else c :: replace_go pat fmt 0 (pre ++ [c]) rest

/-- Models `std::regex_replace(s, std::regex(pat), fmt)` for the placeholders of the
three templates, which are non-empty and free of regular-expression operators: every
occurrence of `pat`, found left to right without overlap, is replaced by the expansion
of `fmt`. -/
def regex_replace (s pat fmt : String) : String :=
  String.mk (replace_go pat.data fmt.data 0 [] s.data)

/-- Modelled from the spec: `UnifiedGemmMeta`, declared in flux/gemm_meta.h, is missing,
and so are `to_make_constexpr` and `to_kernel_name` (the specification's `encode`).  A
Meta is the record of what the generator asks of it: its architecture tag, the
expression that constructs it and its encoded name. -/
structure UnifiedGemmMeta where
  arch : ArchEnum
  to_make_constexpr : String
  to_kernel_name : String
  deriving DecidableEq, Repr

/-- Modelled from the spec: `UnifiedGemmHParams`, declared in flux/gemm_hparams.h, is
missing, and so are its `to_make_constexpr` and `to_kernel_name`.  An HParams is the
record of the expression that constructs it and of its encoded name. -/
structure UnifiedGemmHParams where
  to_make_constexpr : String
  to_kernel_name : String
  deriving DecidableEq, Repr

/-- Source: the data members of `class CodeGen` (generator_utils.h:119-126). -/
structure CodeGen where
  impl_header : String
  impl_name : String
  meta_kernel_name : String
  make_meta_str : String
  make_hparams_str_list : List String
  hparams_kernel_name_list : List String
  deriving DecidableEq, Repr

/-- Source: the constructor of `CodeGen` (generator_utils.h:195-207). -/
def CodeGen.create (m : UnifiedGemmMeta) (hparams_list : List UnifiedGemmHParams)
    (impl_header impl_name : String) : CodeGen where
  impl_header := impl_header
  impl_name := impl_name
  meta_kernel_name := m.to_kernel_name
  make_meta_str := m.to_make_constexpr
  make_hparams_str_list := hparams_list.map UnifiedGemmHParams.to_make_constexpr
  hparams_kernel_name_list := hparams_list.map UnifiedGemmHParams.to_kernel_name

/-- The template of `gen_header`. -/
def header_tpl : String :=
  "\n// Auto-Generated by generator.cc - Do not edit.\n#include \"@IMPL_HEADER@\"\nusing namespace bytedance::flux;\nusing namespace cute;\n\nusing _GemmMetaT = decltype(@MAKE_META_STR@);\nstruct @GEMM_META_ALIAS@ : public _GemmMetaT \x7b\n  using _GemmMetaT::_GemmMetaT;\n\x7d;\nusing GemmMetaT = @GEMM_META_ALIAS@;\n\n"

/-- The template of `gen_body`. -/
def body_tpl : String :=
  "\nusing _GemmHParamsT_@REG_IDX@ = decltype(@MAKE_HPARAMS_STR@);\nstruct @GEMM_HPARAMS_ALIAS@ : public _GemmHParamsT_@REG_IDX@ \x7b\n  using _GemmHParamsT_@REG_IDX@::_GemmHParamsT_@REG_IDX@;\n\x7d;\nusing GemmHParamsT_@REG_IDX@ = @GEMM_HPARAMS_ALIAS@;\nusing KernelBuilder_@REG_IDX@ = @IMPL_NAME@_Kernel<GemmMetaT, GemmHParamsT_@REG_IDX@>;\nusing GemmKernel_@REG_IDX@ = decltype(KernelBuilder_@REG_IDX@().gemm_kernel());\nstruct @OP_NAME@: public GemmKernel_@REG_IDX@ \x7b\x7d;\nusing GemmDevice_@REG_IDX@ = @IMPL_NAME@_Device<GemmMetaT, GemmHParamsT_@REG_IDX@, @OP_NAME@>;\n\n"

/-- The template of `gen_tail`. -/
def tail_tpl : String :=
  "  OpRegistry::instance().register_creator([]() \x7b return std::make_unique<GemmDevice_@REG_IDX@>(); \x7d, GemmMetaT\x7b\x7d,GemmHParamsT_@REG_IDX@\x7b\x7d,@REG_IDX@)"

/-- Source: `CodeGen::gen_header` (generator_utils.h:129-148). -/
def CodeGen.gen_header (g : CodeGen) : String :=
  let code := regex_replace header_tpl "@IMPL_HEADER@" g.impl_header
  let code := regex_replace code "@MAKE_META_STR@" g.make_meta_str
  let code := regex_replace code "@GEMM_META_ALIAS@" ("_" ++ g.meta_kernel_name)
  code

/-- The body of the loop of `gen_body` for index `i`; `v[i]` on the two lists, which
the constructor fills in step, is `getD`. -/
def CodeGen.body_block (g : CodeGen) (i : Nat) : String :=
  let code := regex_replace body_tpl "@REG_IDX@" (toString i)
  let code := regex_replace code "@MAKE_HPARAMS_STR@" (g.make_hparams_str_list.getD i "")
  let code := regex_replace code "@GEMM_HPARAMS_ALIAS@"
    ("_" ++ g.hparams_kernel_name_list.getD i "")
  let code := regex_replace code "@IMPL_NAME@" g.impl_name
  let code := regex_replace code "@OP_NAME@"
    ("flux_" ++ g.meta_kernel_name ++ "_" ++ g.hparams_kernel_name_list.getD i "")
  code

/-- Source: `CodeGen::gen_body` (generator_utils.h:150-178). -/
def CodeGen.gen_body (g : CodeGen) : String :=
  String.join ((List.range g.make_hparams_str_list.length).map g.body_block)

/-- The body of the loop of `gen_tail` for index `i`. -/
def CodeGen.tail_line (i : Nat) : String :=
  regex_replace tail_tpl "@REG_IDX@" (toString i) ++ ",\n"

/-- Source: `CodeGen::gen_tail` (generator_utils.h:180-192). -/
def CodeGen.gen_tail (g : CodeGen) : String :=
  "static bool _dummy_reg [[maybe_unused]] = (\n"
    ++ String.join ((List.range g.make_hparams_str_list.length).map CodeGen.tail_line)
    ++ "true);"

/-- Source: `CodeGen::gen_code` (generator_utils.h:209-216). -/
def CodeGen.gen_code (g : CodeGen) : String :=
  g.gen_header ++ g.gen_body ++ g.gen_tail

/-- Source: `CodeGen::get_filename` (generator_utils.h:218-221). -/
def CodeGen.get_filename (g : CodeGen) : String :=
  "flux_" ++ g.meta_kernel_name ++ ".cu"

/-! ## Driver -/

/-- One element of `spaces`: the (Meta, HParams list) pairs, `impl_header`, `impl_name`. -/
abbrev Space := List (UnifiedGemmMeta × List UnifiedGemmHParams) × String × String

/-- The manifest file of `options.output_file` (`none`: no such file) and the directory
of `options.dir`.  When the manifest is an entry of the directory, a run keeps the two
views of the file in step. -/
structure Disk where
  output_file : Option String
  dir : Dir
  deriving DecidableEq, Repr

/-- How a call of `main_template` ends: with a return value, or with an exception that
nothing catches. -/
inductive Outcome where
  | returned (code : Int)
  | threw (e : Exception)
  deriving DecidableEq, Repr

/-- What `main_template` leaves behind: how it ended, the disk, what its calls of
`write_if_changed` and `clear_old_files` did to the directory, in program order, and the
last value of the local `all_file_paths`. -/
structure Run where
  outcome : Outcome
  disk : Disk
  trace : List Event
  all_file_paths : List String
  deriving DecidableEq, Repr

/-- The variables the generation loop of `main_template` updates. -/
structure GenState where
  all_file_paths : List String
  dir : Dir
  trace : List Event
  deriving DecidableEq, Repr

/-- Models `fs::absolute(fs::path(p)).string()` for a relative `p`, as every
`get_filename()` is: `current_path() / p`. -/
def fs_absolute (cwd p : String) : String :=
  if cwd.data.getLast? = some '/' then cwd ++ p else cwd ++ "/" ++ p

/-- The exception, if any, with which the call `write_if_changed(file_path, _)` ends
instead of returning (generator_utils.h:82-86): `fs::exists` throws, or the file exists,
its stream opens and the read of its bytes throws. -/
def write_if_changed_throws (sys : Sys) (file_path : String) (d : Dir) : Option Exception :=
  if sys.exists_throws file_path then some Exception.filesystem_error
  else if fs_exists d file_path && !sys.can_read file_path && sys.read_throws file_path then
    some Exception.ios_failure
  else none

/-- The body of the inner loop of `main_template` (generator_utils.h:283-294).  The second
component holds the exception that has left the loop, if one has: nothing runs after it. -/
def gen_item (sys : Sys) (archs : List ArchEnum) (impl_header impl_name : String)
    (acc : GenState × Option Exception)
    (meta_item : UnifiedGemmMeta × List UnifiedGemmHParams) : GenState × Option Exception :=
  match acc.2 with
  | some _ => acc
  | none =>
    let arch := meta_item.1.arch
    if archs.count arch ≤ 0 then acc
    else
      let gen := CodeGen.create meta_item.1 meta_item.2 impl_header impl_name
      let filename := gen.get_filename
      let code := gen.gen_code
      let all_file_paths := set_emplace filename acc.1.all_file_paths
      match write_if_changed_throws sys filename acc.1.dir with
      | some e => (GenState.mk all_file_paths acc.1.dir acc.1.trace, some e)
      | none =>
        let w := write_if_changed sys filename code acc.1.dir
        (GenState.mk all_file_paths w.1 (acc.1.trace ++ w.2), none)

/-- The body of the outer loop of `main_template` (generator_utils.h:280-295). -/
def gen_space (sys : Sys) (archs : List ArchEnum) (acc : GenState × Option Exception)
    (space : Space) : GenState × Option Exception :=
  space.1.foldl (gen_item sys archs space.2.1 space.2.2) acc

/-- What the loop over `all_file_paths` sends to `ofile` (generator_utils.h:297-300). -/
def manifest_text (cwd : String) (all_file_paths : List String) : String :=
  String.join (all_file_paths.map (fun file_path => fs_absolute cwd file_path ++ "\n"))

/-- The disk once `std::ofstream ofile(options.output_file)` is open
(generator_utils.h:270): the manifest exists and is empty.  `entry` is the name of the
manifest in the output directory when it is an entry of it. -/
def open_manifest (entry : Option String) (disk : Disk) : Disk :=
  match entry with
  | none => Disk.mk (some "") disk.dir
  | some m => Disk.mk (some "") (fs_write disk.dir m "")

/-- Bytes of a file that held `old` once `text` has been written over its beginning. -/
def overlay (text old : String) : String :=
  text ++ String.mk (old.data.drop text.length)

/-- The disk once `text` has gone through `ofile` to the manifest, `d` being the
directory by then.  A manifest outside the directory holds `text`.  A manifest that is
an entry of the directory has been open since before the generation: when
`clear_old_files` has removed the entry the text goes to a file that has no name any
more, and otherwise it is written over the beginning of what the entry holds. -/
def close_manifest (entry : Option String) (text : String) (d : Dir) : Disk :=
  match entry with
  | none => Disk.mk (some text) d
  | some m =>
    match fs_read d m with
    | none => Disk.mk none d
    | some old => Disk.mk (some (overlay text old)) (fs_write d m (overlay text old))

/-- Source: `main_template` (generator_utils.h:256-304).  An exception of `stoi`, of
`current_path(options.dir)`, of a call of `write_if_changed` or of the listing in
`clear_old_files` leaves the function: nothing catches it.  The text streamed to `ofile`
reaches the manifest by `ofile.close()` at the latest. -/
def main_template (sys : Sys) (options : Options) (spaces : List Space) (disk : Disk) :
    Run :=
  match collect_archs (parse_semicolon_seperated options.archs) [] with
  | Except.error e => Run.mk (Outcome.threw e) disk [] []
  | Except.ok archs =>
    if !sys.open_output_file options.output_file then Run.mk (Outcome.returned 1) disk [] []
    else
      let entry := sys.output_file_entry options.dir options.output_file
      let opened := open_manifest entry disk
      match sys.current_path options.dir with
      | none => Run.mk (Outcome.threw Exception.filesystem_error) opened [] []
      | some cwd =>
        let g := spaces.foldl (gen_space sys archs) (GenState.mk [] opened.dir [], none)
        match g.2 with
        | some e =>
          Run.mk (Outcome.threw e) (close_manifest entry "" g.1.dir) g.1.trace
            g.1.all_file_paths
        | none =>
          let text := manifest_text cwd g.1.all_file_paths
          if !sys.can_list then
            Run.mk (Outcome.threw Exception.filesystem_error)
              (close_manifest entry (sys.flushed text) g.1.dir) g.1.trace g.1.all_file_paths
          else
            let c := clear_old_files sys g.1.all_file_paths g.1.dir
            Run.mk (Outcome.returned 0) (close_manifest entry text c.1) (g.1.trace ++ c.2)
              g.1.all_file_paths

/-! ## The driver as the specification words it -/

/-- The architectures of the allow-list: the numbers `stoi` reads from its tokens. -/
def allowed_archs (archs : String) : Except Exception (List ArchEnum) :=
  collect_archs (parse_semicolon_seperated archs) []

/-- File name and rendered text of one entry of a group. -/
def render (impl_header impl_name : String)
    (meta_item : UnifiedGemmMeta × List UnifiedGemmHParams) : String × String :=
  ("flux_" ++ meta_item.1.to_kernel_name ++ ".cu",
    (CodeGen.create meta_item.1 meta_item.2 impl_header impl_name).gen_code)

/-- Specification view of the selection: for each group in order, for each entry in order
whose architecture is in the allow-list, the file name and the rendered text. -/
def selected (archs : List ArchEnum) (spaces : List Space) : List (String × String) :=
  spaces.flatMap (fun space =>
    (space.1.filter (fun meta_item => decide (meta_item.1.arch ∈ archs))).map
      (render space.2.1 space.2.2))

/-- Specification view of persisting one selected entry: record the name in the live-file
set and hand the text to `write_if_changed`. -/
def persist (sys : Sys) (st : GenState) (f : String × String) : GenState :=
  let w := write_if_changed sys f.1 f.2 st.dir
  GenState.mk (set_emplace f.1 st.all_file_paths) w.1 (st.trace ++ w.2)

/-- Specification view of persisting one selected entry in a run that an exception can
end: once one has left a call, nothing is persisted any more. -/
def persist_checked (sys : Sys) (acc : GenState × Option Exception) (f : String × String) :
    GenState × Option Exception :=
  match acc.2 with
  | some _ => acc
  | none =>
    match write_if_changed_throws sys f.1 acc.1.dir with
    | some e => (GenState.mk (set_emplace f.1 acc.1.all_file_paths) acc.1.dir acc.1.trace, some e)
    | none => (persist sys acc.1 f, none)

/-- Text that the last rendering of a name leaves in its file. -/
def last_rendering (sel : List (String × String)) (n : String) : Option String :=
  ((sel.reverse).find? (fun f => decide (f.1 = n))).map Prod.snd

/-- Specification view of the generation phase: the selected entries are persisted in
order, starting from an empty live-file set. -/
def generate (sys : Sys) (archs : List ArchEnum) (spaces : List Space) (d : Dir) : GenState :=
  (selected archs spaces).foldl (persist sys) (GenState.mk [] d [])

/-- Specification view of a run that returns 0 with a manifest that lies outside the
output directory: generate, write the manifest, prune, return 0. -/
def run_of (sys : Sys) (cwd : String) (archs : List ArchEnum) (spaces : List Space)
    (disk : Disk) : Run :=
  Run.mk (Outcome.returned 0)
    (Disk.mk (some (manifest_text cwd (generate sys archs spaces disk.dir).all_file_paths))
      (clear_old_files sys (generate sys archs spaces disk.dir).all_file_paths
        (generate sys archs spaces disk.dir).dir).1)
    ((generate sys archs spaces disk.dir).trace ++
      (clear_old_files sys (generate sys archs spaces disk.dir).all_file_paths
        (generate sys archs spaces disk.dir).dir).2)
    (generate sys archs spaces disk.dir).all_file_paths

/-- The line `clear_old_files` prints for an entry it tries to remove. -/
def clear_event (sys : Sys) (n : String) : Event :=
  if sys.can_remove n then Event.removed n else Event.remove_failed n

/-- Specification view of a run that returns 0, the manifest being the entry `entry` of
the output directory when it lies there: open the manifest, run as `run_of` does on the
directory, and let the text reach the manifest. -/
def run_with (sys : Sys) (entry : Option String) (cwd : String) (archs : List ArchEnum)
    (spaces : List Space) (disk : Disk) : Run :=
  Run.mk (Outcome.returned 0)
    (close_manifest entry
      (manifest_text cwd (run_of sys cwd archs spaces (open_manifest entry disk)).all_file_paths)
      (run_of sys cwd archs spaces (open_manifest entry disk)).disk.dir)
    (run_of sys cwd archs spaces (open_manifest entry disk)).trace
    (run_of sys cwd archs spaces (open_manifest entry disk)).all_file_paths

/-! ## Usage text, spaces and operation names -/

/-- Source: `Options::print_usage` (generator_utils.h:52-62), the text sent to `out`. -/
def Options.print_usage : String :=
  "generator\n\n generate all flux ops, one op per file.\n\nOptions:\n\n   --help           If specified, displays this usage statement\n\n   --dir            Store generated op registry files under this dir\n\n   --archs          Comma seperated, only specified SM number will be compiled\n\n   --output_file    The filepaths of generated ops will be stored into this file"

/-- Source: `merge_gen_space` (generator_utils.h:242-253); `emplace_back` appends. -/
def merge_gen_space (spaces : List (List (UnifiedGemmMeta × List UnifiedGemmHParams))) :
    List (UnifiedGemmMeta × List UnifiedGemmHParams) :=
  spaces.foldl (fun merged space => space.foldl (fun merged val => merged ++ [val]) merged) []

/-- Source: the replacement for `@OP_NAME@` in `gen_body` (generator_utils.h:171-174). -/
def CodeGen.op_name (g : CodeGen) (i : Nat) : String :=
  "flux_" ++ g.meta_kernel_name ++ "_" ++ g.hparams_kernel_name_list.getD i ""

/-- Specification view of the operation name of a variant:
`"flux_" + encode(Meta) + "_" + encode(HParams)`. -/
def op_name_of (m : UnifiedGemmMeta) (h : UnifiedGemmHParams) : String :=
  "flux_" ++ m.to_kernel_name ++ "_" ++ h.to_kernel_name

/-- The inner `tuple_for_each` of `build_gen_space` (generator_utils.h:230-236) for one
element of `hparams_space`. -/
def build_hparams_step {M H0 H UH : Type} (materialize_hparams : M → H0 → H)
    (filter_smem : M → H → Bool) (unify_hparams : H → UH) (cmeta : M)
    (hparams_list : List UH) (chparams0 : H0) : List UH :=
  let chparams := materialize_hparams cmeta chparams0
  if !filter_smem cmeta chparams then hparams_list
  else hparams_list ++ [unify_hparams chparams]

/-- Source: `build_gen_space` (generator_utils.h:224-240).  The two `cute::tuple`s are
lists visited in order by `tuple_for_each`; `materialize_hparams`, `detail::filter_smem`
and the two `unify_type` overloads, which are not part of the sources at hand, are
parameters. -/
def build_gen_space {M H0 H UM UH : Type} (materialize_hparams : M → H0 → H)
    (filter_smem : M → H → Bool) (unify_meta : M → UM) (unify_hparams : H → UH)
    (meta_space : List M) (hparams_space : List H0) : List (UM × List UH) :=
  meta_space.foldl (fun gen_space cmeta =>
    gen_space ++ [(unify_meta cmeta,
      hparams_space.foldl
        (build_hparams_step materialize_hparams filter_smem unify_hparams cmeta) [])]) []

/-! ## The FP16 space of `GemmV2ReduceScatter_Space` -/

/-- Modelled from the spec: the element kinds of flux/flux.h, which is missing; only the
tags that gen_gemm_rs.cc names are listed. -/
inductive DataTypeEnum where
  | FP16 | BF16 | Void | E4M3 | E5M2 | S8 | S32
  deriving DecidableEq, Repr

/-- Modelled from the spec: the communication kinds of flux/flux.h, which is missing. -/
inductive CommKindEnum where
  | IntraNode | AcrossNode | IntraNodePcie
  deriving DecidableEq, Repr

/-- Modelled from the spec: the operand layouts of flux/flux.h, which is missing. -/
inductive GemmLayoutEnum where
  | RCR | RRR
  deriving DecidableEq, Repr

/-- Modelled from the spec: `GemmDTypeConfig` of flux/gemm_meta.h, which is missing: the
element kinds of the operands A, B, C and D. -/
structure GemmDTypeConfig where
  a : DataTypeEnum
  b : DataTypeEnum
  c : DataTypeEnum
  d : DataTypeEnum
  deriving DecidableEq, Repr

/-- Modelled from the spec: `ReduceScatterMeta` of flux/gemm_meta.h, which is missing:
whether the reduction is fused, and the communication kind, in the argument order of
`make_reduce_scatter_meta(_False{}, _IntraNodePcie{})` (gen_gemm_rs.cc:78). -/
structure ReduceScatterMeta where
  fuse_reduction : Bool
  comm_kind : CommKindEnum
  deriving DecidableEq, Repr

/-- Modelled from the spec: one element of `make_space_gemm_meta`, which is missing, as
the axes that vary in `AllGemmMeta_FP16`; the axes with a single value there
(`_ReduceScatter`, `_GemmV2`, `None`) are left out. -/
structure GemmMetaTuple where
  dtype : GemmDTypeConfig
  arch : ArchEnum
  gemm_layout : GemmLayoutEnum
  comm_spec : ReduceScatterMeta
  deriving DecidableEq, Repr

/-- Modelled from the spec: `make_gemm_dtype_config(a)` of flux/gemm_meta.h, which is
missing, with one argument: every operand has the kind `a`.  Of a configuration the
filter reads `a()` only. -/
def make_gemm_dtype_config1 (a : DataTypeEnum) : GemmDTypeConfig := GemmDTypeConfig.mk a a a a

/-- Source: the four dtype configurations of `AllGemmMeta_FP16` (gen_gemm_rs.cc:28-32). -/
def fp16_dtype_configs : List GemmDTypeConfig :=
  [make_gemm_dtype_config1 DataTypeEnum.FP16,
   make_gemm_dtype_config1 DataTypeEnum.BF16,
   GemmDTypeConfig.mk DataTypeEnum.FP16 DataTypeEnum.FP16 DataTypeEnum.Void DataTypeEnum.FP16,
   GemmDTypeConfig.mk DataTypeEnum.BF16 DataTypeEnum.BF16 DataTypeEnum.Void DataTypeEnum.BF16]

/-- Source: `cute::make_tuple(_Sm80{}, _Sm89{})` (gen_gemm_rs.cc:33). -/
def fp16_archs : List ArchEnum := [80, 89]

/-- Source: `cute::make_tuple(_RCR{}, _RRR{})` (gen_gemm_rs.cc:35). -/
def fp16_layouts : List GemmLayoutEnum := [GemmLayoutEnum.RCR, GemmLayoutEnum.RRR]

/-- Modelled from the spec: `tuple_cartesian_product`, which is missing: every pair of an
element of the first tuple and an element of the second. -/
def tuple_cartesian_product {A B : Type} (xs : List A) (ys : List B) : List (A × B) :=
  xs.flatMap (fun x => ys.map (fun y => (x, y)))

/-- Source: the reduce-scatter metas of `AllGemmMeta_FP16` (gen_gemm_rs.cc:38-42):
`to_reduce_scatter_meta` over the product of `(_True, _False)` and the three
communication kinds. -/
def fp16_rs_metas : List ReduceScatterMeta :=
  (tuple_cartesian_product [true, false]
    [CommKindEnum.IntraNode, CommKindEnum.AcrossNode, CommKindEnum.IntraNodePcie]).map
    (fun tup => ReduceScatterMeta.mk tup.1 tup.2)

/-- Modelled from the spec: `make_space_gemm_meta`, which is missing: the cartesian
product of the axis value sets. -/
def make_space_gemm_meta (dtypes : List GemmDTypeConfig) (archs : List ArchEnum)
    (layouts : List GemmLayoutEnum) (comm_specs : List ReduceScatterMeta) :
    List GemmMetaTuple :=
  dtypes.flatMap (fun dt => archs.flatMap (fun ar => layouts.flatMap (fun lay =>
    comm_specs.map (fun cs => GemmMetaTuple.mk dt ar lay cs))))

/-- Source: the predicate handed to `tuple_filter` (gen_gemm_rs.cc:43-57), with its two
early returns.  `to_gemm_meta`, `to_reduce_scatter_meta`, `to_gemm_dtype_config` and
`make_gemm_dtype_config(meta.dtype())`, which are missing, only change the
representation: `rs_meta` is the comm spec of the element and `dt_conf` its dtype
configuration. -/
def fp16_meta_filter (tup : GemmMetaTuple) : Bool :=
  let rs_meta := tup.comm_spec
  if rs_meta.comm_kind = CommKindEnum.IntraNodePcie ∧ rs_meta.fuse_reduction = true then false
  else
    let dt_conf := tup.dtype
    if dt_conf.a = DataTypeEnum.BF16 ∧ rs_meta.fuse_reduction = true then false
    else true

/-- Modelled from the spec: `tuple_filter`, which is missing: the elements on which the
predicate holds are kept, in order. -/
def tuple_filter {A : Type} (xs : List A) (pred : A → Bool) : List A := xs.filter pred

/-- The raw cartesian product under `AllGemmMeta_FP16`. -/
def fp16_raw_space : List GemmMetaTuple :=
  make_space_gemm_meta fp16_dtype_configs fp16_archs fp16_layouts fp16_rs_metas

/-- Source: `GemmV2ReduceScatter_Space::AllGemmMeta_FP16` (gen_gemm_rs.cc:26-57). -/
def AllGemmMeta_FP16 : List GemmMetaTuple := tuple_filter fp16_raw_space fp16_meta_filter

/-! ## `parse_semicolon_seperated` with its accesses checked -/

/-- The loop of `parse_semicolon_seperated` again, where `str[i]` outside `0 ≤ i < size`
and `substr(pos, len)` with `pos > size` end the run with `none`.  `str[i]` is reached
only when `i == sz` is false. -/
def parse_loop_checked (str : List Char) (sz : Nat) :
    Nat → Nat → Int → List String → Option (List String)
  | 0, _, _, str_vec => some str_vec
  | left + 1, i, prev, str_vec =>
    let hit : Option Bool :=
      if i = sz then some true else (str.get? i).map (fun c => decide (c = ';'))
    match hit with
    | none => none
    | some true =>
      if prev + 1 < (i : Int) then
        if 0 ≤ prev + 1 ∧ (prev + 1).toNat ≤ str.length then
          parse_loop_checked str sz left (i + 1) (i : Int)
            (str_vec ++ [String.mk (substr str (prev + 1).toNat ((i : Int) - prev - 1).toNat)])
        else none
      else parse_loop_checked str sz left (i + 1) (i : Int) str_vec
    | some false => parse_loop_checked str sz left (i + 1) prev str_vec

/-- Specification view of the tokens: the text is read from left to right, `cur` is the
run of characters other than `;` read since the last `;`; a run ends at a `;` or at the
end of the text and is kept when it is not empty. -/
def runs_from : List Char → List Char → List (List Char)
  | cur, [] => if cur = [] then [] else [cur]
  | cur, c :: cs =>
    if c = ';' then (if cur = [] then [] else [cur]) ++ runs_from [] cs
    else runs_from (cur ++ [c]) cs

/-! ## Rendering as literal substitution -/

/-- Specification view of rendering: every occurrence of the placeholder `pat`, found left
to right without overlap, is replaced by the text `fmt` as it stands. -/
def substitute (pat fmt : List Char) : Nat → List Char → List Char
  | _, [] => []
  | skip + 1, _ :: rest => substitute pat fmt skip rest
  | 0, c :: rest =>
    if pat.isPrefixOf (c :: rest) then fmt ++ substitute pat fmt (pat.length - 1) rest
    else c :: substitute pat fmt 0 rest

/-- A template in which texts not yet known are held by marker characters: the text of
the marker `c` is `lookup c env`, every other character stands for itself. -/
def expand (env : List (Char × List Char)) (s : List Char) : List Char :=
  s.flatMap (fun c => (env.lookup c).getD [c])

/-- Tells that `pat` is not a prefix of the text whatever the markers `ms` stand for: the
first difference comes before any marker. -/
def clash (ms : List Char) : List Char → List Char → Bool
  | [], _ => false
  | _ :: _, [] => true
  | p :: ps, t :: ts =>
    if ms.contains t then false else if p = t then clash ms ps ts else true

/-- Tells that the scan for `pat` meets, at every position it tries, a match free of
markers, a marker, or a clash. -/
def safe_go (ms : List Char) (pat : List Char) : Nat → List Char → Bool
  | _, [] => true
  | skip + 1, _ :: rest => safe_go ms pat skip rest
  | 0, c :: rest =>
    if pat.isPrefixOf (c :: rest) then safe_go ms pat (pat.length - 1) rest
    else (ms.contains c || clash ms pat (c :: rest)) && safe_go ms pat 0 rest

/-- The conditions under which the placeholder `pat` can be replaced in a text with the
markers `ms`, the new marker being `mk`: `pat` starts with `@` and holds no marker, `mk`
is new to the text, and the scan is safe. -/
def check (ms : List Char) (pat : List Char) (mk : Char) (s : List Char) : Bool :=
  decide (pat.head? = some '@') && pat.all (fun c => !ms.contains c) && !s.contains mk &&
    safe_go ms pat 0 s

/-- The text with markers after the placeholders of `steps` have been replaced, each by
its marker. -/
def mark_all : List Char → List (List Char × Char) → List Char
  | t, [] => t
  | t, st :: steps => mark_all (substitute st.1 [st.2] 0 t) steps

/-- The conditions of `check` along `steps`. -/
def check_all : List Char → List Char → List (List Char × Char) → Bool
  | _, _, [] => true
  | ms, t, st :: steps =>
    check ms st.1 st.2 t && check_all (st.2 :: ms) (substitute st.1 [st.2] 0 t) steps

/-- The chain of `regex_replace` calls of a renderer: the placeholders of `steps` are
replaced in turn, each by its text. -/
def replace_all : List Char → List (List Char × List Char) → List Char
  | t, [] => t
  | t, st :: steps => replace_all (replace_go st.1 st.2 0 [] t) steps

/-- The environment after `steps`: each marker with its text. -/
def env_all : List (Char × List Char) → List (List Char × Char × List Char) →
    List (Char × List Char)
  | env, [] => env
  | env, st :: steps => env_all ((st.2.1, st.2.2) :: env) steps

/-- The placeholders of `gen_header`, in the order of its `regex_replace` calls, each with
a marker. -/
def header_steps : List (List Char × Char) :=
  [("@IMPL_HEADER@".data, Char.ofNat 1), ("@MAKE_META_STR@".data, Char.ofNat 2),
   ("@GEMM_META_ALIAS@".data, Char.ofNat 3)]

/-- The placeholders of `gen_body`, in the order of its `regex_replace` calls, each with a
marker. -/
def body_steps : List (List Char × Char) :=
  [("@REG_IDX@".data, Char.ofNat 1), ("@MAKE_HPARAMS_STR@".data, Char.ofNat 2),
   ("@GEMM_HPARAMS_ALIAS@".data, Char.ofNat 3), ("@IMPL_NAME@".data, Char.ofNat 4),
   ("@OP_NAME@".data, Char.ofNat 5)]

/-- The placeholder of `gen_tail` with a marker. -/
def tail_steps : List (List Char × Char) := [("@REG_IDX@".data, Char.ofNat 1)]

/-- A text without `@` and without `$`. -/
def clean (s : String) : Prop := '@' ∉ s.data ∧ '$' ∉ s.data

/-- Specification view of the header of a file: the header template with its three
placeholders replaced, from the Meta and the implementation header alone. -/
def header_of (impl_header : String) (m : UnifiedGemmMeta) : String :=
  regex_replace
    (regex_replace (regex_replace header_tpl "@IMPL_HEADER@" impl_header)
      "@MAKE_META_STR@" m.to_make_constexpr)
    "@GEMM_META_ALIAS@" ("_" ++ m.to_kernel_name)

/-- Specification view of the body block of index `i` for the HParams `h`: the body
template with `@REG_IDX@` replaced by `i`, then `@MAKE_HPARAMS_STR@` by the constructor
string of `h`, `@GEMM_HPARAMS_ALIAS@` by `_` and the encoded name of `h`, `@IMPL_NAME@`
by the implementation name and `@OP_NAME@` by the operation name. -/
def body_of (m : UnifiedGemmMeta) (impl_name : String) (i : Nat) (h : UnifiedGemmHParams) :
    String :=
  regex_replace
    (regex_replace
      (regex_replace
        (regex_replace (regex_replace body_tpl "@REG_IDX@" (toString i))
          "@MAKE_HPARAMS_STR@" h.to_make_constexpr)
        "@GEMM_HPARAMS_ALIAS@" ("_" ++ h.to_kernel_name))
      "@IMPL_NAME@" impl_name)
    "@OP_NAME@" (op_name_of m h)

/-- Specification view of the registration statement of index `i`. -/
def tail_of (i : Nat) : String :=
  "  OpRegistry::instance().register_creator([]() \x7b return std::make_unique<GemmDevice_"
    ++ toString i ++ ">(); \x7d, GemmMetaT\x7b\x7d,GemmHParamsT_" ++ toString i
    ++ "\x7b\x7d," ++ toString i ++ ")"

/-! ## Entries in enumeration order -/

/-- One entry as the inner loop of `main_template` sees it: the (Meta, HParams list) pair
with the `impl_header` and the `impl_name` of its group. -/
abbrev Entry := (UnifiedGemmMeta × List UnifiedGemmHParams) × String × String

/-- The `CodeGen gen(meta, hparams_list, impl_header, impl_name)` of an entry
(generator_utils.h:288). -/
def Entry.gen (e : Entry) : CodeGen :=
  CodeGen.create e.1.1 e.1.2 e.2.1 e.2.2

/-- A system in which every open, directory change and removal succeeds. -/
def sys_ok : Sys :=
  Sys.mk (fun _ => true) (fun _ => some "/out") (fun _ => true) (fun _ => true)
    (fun _ => true) (fun _ => false) (fun _ => false) true (fun _ _ => none) (fun text => text)

/-- A directory with one file. -/
def dir_one : Dir := [("flux_A.cu", "old"), ("notes.txt", "n")]

/-- Three structural configurations of architectures 80, 90 and 89. -/
def meta_A : UnifiedGemmMeta := UnifiedGemmMeta.mk 80 "make_gemm_meta(a)" "A"

/-- See `meta_A`. -/
def meta_B : UnifiedGemmMeta := UnifiedGemmMeta.mk 90 "make_gemm_meta(b)" "B"

/-- See `meta_A`. -/
def meta_C : UnifiedGemmMeta := UnifiedGemmMeta.mk 89 "make_gemm_meta(c)" "C"

/-- Two tuning configurations. -/
def hparams_1 : UnifiedGemmHParams := UnifiedGemmHParams.mk "make_gemm_hparams(1)" "H1"

/-- See `hparams_1`. -/
def hparams_2 : UnifiedGemmHParams := UnifiedGemmHParams.mk "make_gemm_hparams(2)" "H2"

/-- Two groups; with the allow-list `80;89` the live-file set is `flux_A.cu`, `flux_C.cu`. -/
def spaces_ABC : List Space :=
  [([(meta_A, [hparams_1]), (meta_B, [hparams_1])],
      "gemm_rs/gemm_v2_reduce_scatter.hpp", "GemmV2ReduceScatter"),
   ([(meta_C, [hparams_1, hparams_2])],
      "gemm_rs/gemm_v3_reduce_scatter.hpp", "GemmV3ReduceScatter")]

/-- Options with the allow-list `80;89`. -/
def options_80_89 : Options := Options.mk false "./registers" "80;89" "./generated_ops.txt"

/-- An output directory holding `flux_A.cu`, `flux_B.cu` and `stale.cu`. -/
def disk_stale : Disk :=
  Disk.mk none [("flux_A.cu", "a"), ("flux_B.cu", "b"), ("stale.cu", "s")]

/-- The scenario of the specification: one structural configuration `M1` of
architecture 9 with two tuning configurations. -/
def meta_M1 : UnifiedGemmMeta := UnifiedGemmMeta.mk 9 "make_gemm_meta(m1)" "M1"

/-- The space of the scenario. -/
def spaces_M1 : List Space :=
  [([(meta_M1, [hparams_1, hparams_2])],
      "gemm_rs/gemm_v2_reduce_scatter.hpp", "GemmV2ReduceScatter")]

/-- Options with the allow-list `8`. -/
def options_8 : Options := Options.mk false "./registers" "8" "./generated_ops.txt"

/-- An output directory holding a `flux_M1.cu` of an earlier run. -/
def disk_M1 : Disk := Disk.mk (some "/out/flux_M1.cu\n") [("flux_M1.cu", "m")]

/-- Options with a token that is not a number. -/
def options_abc : Options := Options.mk false "./registers" "abc" "./generated_ops.txt"

/-- Options with the allow-list `9`. -/
def options_9 : Options := Options.mk false "./registers" "9" "./generated_ops.txt"

/-- A system in which the manifest cannot be opened. -/
def sys_no_manifest : Sys :=
  Sys.mk (fun _ => false) (fun _ => some "/out") (fun _ => true) (fun _ => true)
    (fun _ => true) (fun _ => false) (fun _ => false) true (fun _ _ => none) (fun text => text)

/-- A system in which the output directory cannot be entered. -/
def sys_no_dir : Sys :=
  Sys.mk (fun _ => true) (fun _ => none) (fun _ => true) (fun _ => true)
    (fun _ => true) (fun _ => false) (fun _ => false) true (fun _ _ => none) (fun text => text)

/-- Options with the allow-list `80`. -/
def options_80 : Options := Options.mk false "./registers" "80" "./generated_ops.txt"

/-- Two groups that hold the same structural configuration under two implementations:
both entries are named `flux_A.cu` and their texts differ. -/
def spaces_dup : List Space :=
  [([(meta_A, [hparams_1])], "gemm_rs/gemm_v2_reduce_scatter.hpp", "GemmV2ReduceScatter"),
   ([(meta_A, [hparams_1])], "gemm_rs/gemm_v3_reduce_scatter.hpp", "GemmV3ReduceScatter")]

/-- A system in which files can be written and removed but not opened for reading. -/
def sys_unreadable : Sys :=
  Sys.mk (fun _ => true) (fun _ => some "/out") (fun _ => false) (fun _ => true)
    (fun _ => true) (fun _ => false) (fun _ => false) true (fun _ _ => none) (fun text => text)

/-- Options with the allow-list `9x`. -/
def options_9x : Options := Options.mk false "./registers" "9x" "./generated_ops.txt"

/-- Options with the allow-list `80,89`, written as the usage text says. -/
def options_comma : Options := Options.mk false "./registers" "80,89" "./generated_ops.txt"

/-- A system in which `stale.cu` cannot be removed. -/
def sys_stuck : Sys :=
  Sys.mk (fun _ => true) (fun _ => some "/out") (fun _ => true) (fun _ => true)
    (fun n => decide (n ≠ "stale.cu")) (fun _ => false) (fun _ => false) true
    (fun _ _ => none) (fun text => text)

/-- The scenario of the specification rendered: the header block of `flux_M1.cu`. -/
def scenario_header : String :=
  "\n// Auto-Generated by generator.cc - Do not edit.\n#include \"gemm_rs/gemm_v2_reduce_scatter.hpp\"\nusing namespace bytedance::flux;\nusing namespace cute;\n\nusing _GemmMetaT = decltype(make_gemm_meta(m1));\nstruct _M1 : public _GemmMetaT \x7b\n  using _GemmMetaT::_GemmMetaT;\n\x7d;\nusing GemmMetaT = _M1;\n\n"

/-- The body block of index 0 of the scenario, named with `H1`. -/
def scenario_block_0 : String :=
  "\nusing _GemmHParamsT_0 = decltype(make_gemm_hparams(1));\nstruct _H1 : public _GemmHParamsT_0 \x7b\n  using _GemmHParamsT_0::_GemmHParamsT_0;\n\x7d;\nusing GemmHParamsT_0 = _H1;\nusing KernelBuilder_0 = GemmV2ReduceScatter_Kernel<GemmMetaT, GemmHParamsT_0>;\nusing GemmKernel_0 = decltype(KernelBuilder_0().gemm_kernel());\nstruct flux_M1_H1: public GemmKernel_0 \x7b\x7d;\nusing GemmDevice_0 = GemmV2ReduceScatter_Device<GemmMetaT, GemmHParamsT_0, flux_M1_H1>;\n\n"

/-- The body block of index 1 of the scenario, named with `H2`. -/
def scenario_block_1 : String :=
  "\nusing _GemmHParamsT_1 = decltype(make_gemm_hparams(2));\nstruct _H2 : public _GemmHParamsT_1 \x7b\n  using _GemmHParamsT_1::_GemmHParamsT_1;\n\x7d;\nusing GemmHParamsT_1 = _H2;\nusing KernelBuilder_1 = GemmV2ReduceScatter_Kernel<GemmMetaT, GemmHParamsT_1>;\nusing GemmKernel_1 = decltype(KernelBuilder_1().gemm_kernel());\nstruct flux_M1_H2: public GemmKernel_1 \x7b\x7d;\nusing GemmDevice_1 = GemmV2ReduceScatter_Device<GemmMetaT, GemmHParamsT_1, flux_M1_H2>;\n\n"

/-- The tail of the scenario, with its two registration statements. -/
def scenario_tail : String :=
  "static bool _dummy_reg [[maybe_unused]] = (\n  OpRegistry::instance().register_creator([]() \x7b return std::make_unique<GemmDevice_0>(); \x7d, GemmMetaT\x7b\x7d,GemmHParamsT_0\x7b\x7d,0),\n  OpRegistry::instance().register_creator([]() \x7b return std::make_unique<GemmDevice_1>(); \x7d, GemmMetaT\x7b\x7d,GemmHParamsT_1\x7b\x7d,1),\ntrue);"

/-- A system in which the manifest is the entry `generated_ops.txt` of the output
directory. -/
def sys_inside : Sys :=
  Sys.mk (fun _ => true) (fun _ => some "/out") (fun _ => true) (fun _ => true)
    (fun _ => true) (fun _ => false) (fun _ => false) true
    (fun _ _ => some "generated_ops.txt") (fun text => text)

/-- Options that put the manifest into the output directory. -/
def options_inside : Options :=
  Options.mk false "./registers" "9" "./registers/generated_ops.txt"

/-- A system in which the output directory is entered but cannot be listed. -/
def sys_no_list : Sys :=
  Sys.mk (fun _ => true) (fun _ => some "/out") (fun _ => true) (fun _ => true)
    (fun _ => true) (fun _ => false) (fun _ => false) false (fun _ _ => none) (fun text => text)

/-- A system in which the entry `flux_M1.cu` is a directory: its stream opens and the
read throws. -/
def sys_dir_entry : Sys :=
  Sys.mk (fun _ => true) (fun _ => some "/out") (fun n => decide (n ≠ "flux_M1.cu"))
    (fun n => decide (n ≠ "flux_M1.cu")) (fun _ => true) (fun _ => false)
    (fun n => decide (n = "flux_M1.cu")) true (fun _ _ => none) (fun text => text)

/-! ## Lemmas on the file system -/

theorem fs_read_nil (q : String) : fs_read [] q = none := rfl

theorem fs_read_cons (e : String × String) (d : Dir) (q : String) :
    fs_read (e :: d) q = if e.1 = q then some e.2 else fs_read d q := by
  by_cases h : e.1 = q <;> simp [fs_read, List.find?_cons, h]

theorem fs_exists_cons (e : String × String) (d : Dir) (q : String) :
    fs_exists (e :: d) q = (decide (e.1 = q) || fs_exists d q) := by
  simp [fs_exists]

theorem fs_read_eq_none {d : Dir} {p : String} : fs_read d p = none ↔ fs_exists d p = false := by
  induction d with
  | nil => simp [fs_read, fs_exists]
  | cons e d ih =>
    rw [fs_read_cons, fs_exists_cons]
    by_cases h : e.1 = p
    · simp [h]
    · simpa [h] using ih

theorem fs_exists_of_read {d : Dir} {p c : String} (h : fs_read d p = some c) :
    fs_exists d p = true := by
  cases hx : fs_exists d p with
  | true => rfl
  | false => rw [fs_read_eq_none.2 hx] at h; cases h

theorem fs_exists_iff_mem_names {d : Dir} {p : String} :
    fs_exists d p = true ↔ p ∈ d.names := by
  simp [fs_exists, Dir.names]

theorem fs_read_map_same (d : Dir) (p c : String) (h : fs_exists d p = true) :
    fs_read (d.map (fun e => if e.1 = p then (p, c) else e)) p = some c := by
  induction d with
  | nil => simp [fs_exists] at h
  | cons e d ih =>
    rw [List.map_cons, fs_read_cons]
    by_cases he : e.1 = p
    · simp [he]
    · have hd : fs_exists d p = true := by simpa [fs_exists_cons, he] using h
      simp [he, ih hd]

theorem fs_read_map_other (d : Dir) (p c q : String) (hq : q ≠ p) :
    fs_read (d.map (fun e => if e.1 = p then (p, c) else e)) q = fs_read d q := by
  induction d with
  | nil => rfl
  | cons e d ih =>
    rw [List.map_cons, fs_read_cons, fs_read_cons, ih]
    by_cases he : e.1 = p
    · have h1 : ¬ p = q := fun h => hq h.symm
      have h2 : ¬ e.1 = q := by rw [he]; exact h1
      simp [he, h1]
    · simp [he]

theorem fs_read_append_new (d : Dir) (p c q : String) :
    fs_read (d ++ [(p, c)]) q =
      (fs_read d q).or (if p = q then some c else none) := by
  induction d with
  | nil => by_cases h : p = q <;> simp [fs_read_cons, fs_read_nil, h]
  | cons e d ih =>
    rw [List.cons_append, fs_read_cons, fs_read_cons, ih]
    by_cases he : e.1 = q <;> simp [he]

theorem fs_read_write_same (d : Dir) (p c : String) : fs_read (fs_write d p c) p = some c := by
  unfold fs_write
  by_cases h : fs_exists d p = true
  · rw [if_pos h]; exact fs_read_map_same d p c h
  · rw [if_neg h, fs_read_append_new]
    have : fs_read d p = none := fs_read_eq_none.2 (by simpa using h)
    simp [this]

theorem fs_read_write_other (d : Dir) (p c q : String) (hq : q ≠ p) :
    fs_read (fs_write d p c) q = fs_read d q := by
  unfold fs_write
  by_cases h : fs_exists d p = true
  · rw [if_pos h]; exact fs_read_map_other d p c q hq
  · rw [if_neg h, fs_read_append_new]
    have h1 : ¬ p = q := fun h => hq h.symm
    simp [h1]

theorem fs_remove_write (d : Dir) (p c : String) :
    fs_remove (fs_write d p c) p = fs_remove d p := by
  unfold fs_write fs_remove
  by_cases h : fs_exists d p = true
  · rw [if_pos h]
    clear h
    induction d with
    | nil => rfl
    | cons e d ih =>
      by_cases he : e.1 = p
      · simpa [List.filter_cons, he] using ih
      · simpa [List.filter_cons, he] using ih
  · rw [if_neg h]
    simp [List.filter_append]

/-! ## `write_if_changed` -/

theorem write_if_changed_same {sys : Sys} {d : Dir} {p c : String}
    (hc : fs_read d p = some c) (hr : sys.can_read p = true) :
    write_if_changed sys p c d = (d, []) := by
  simp [write_if_changed, fs_exists_of_read hc, hr, hc]

/-- In every case `write_if_changed` either leaves the directory alone, or stores the new
content, or records that the file could not be opened for writing. -/
theorem write_if_changed_cases (sys : Sys) (d : Dir) (p c : String) :
    (write_if_changed sys p c d = (d, []) ∧ fs_read d p = some c ∧ sys.can_read p = true) ∨
    (write_if_changed sys p c d = (fs_write d p c, [Event.wrote p c]) ∧
      sys.can_write p = true ∧ (fs_read d p ≠ some c ∨ sys.can_read p = false)) ∨
    (write_if_changed sys p c d = (d, [Event.write_failed p]) ∧ sys.can_write p = false ∧
      (fs_read d p ≠ some c ∨ sys.can_read p = false)) := by
  by_cases hc : fs_read d p = some c
  · by_cases hr : sys.can_read p = true
    · exact Or.inl ⟨write_if_changed_same hc hr, hc, hr⟩
    · have hr2 : sys.can_read p = false := by simpa using hr
      by_cases hw : sys.can_write p = true
      · refine Or.inr (Or.inl ⟨?_, hw, Or.inr hr2⟩)
        simp [write_if_changed, hr2, hw]
      · have hw2 : sys.can_write p = false := by simpa using hw
        refine Or.inr (Or.inr ⟨?_, hw2, Or.inr hr2⟩)
        simp [write_if_changed, hr2, hw2]
  · have hsame : (if fs_exists d p = true then
          if sys.can_read p = true then
            match fs_read d p with
            | some existing_content => decide (existing_content = c)
            | none => false
          else false
        else false) = false := by
      cases hx : fs_read d p with
      | none => simp
      | some c2 =>
        have : c2 ≠ c := fun h => hc (by rw [hx, h])
        simp [this]
    by_cases hw : sys.can_write p = true
    · refine Or.inr (Or.inl ⟨?_, hw, Or.inl hc⟩)
      simp only [write_if_changed, hsame, hw]
      simp
    · have hw2 : sys.can_write p = false := by simpa using hw
      refine Or.inr (Or.inr ⟨?_, hw2, Or.inl hc⟩)
      simp only [write_if_changed, hsame, hw2]
      simp

/-- C1. When a readable file exists at `path` and already holds `content`,
`write_if_changed` performs no write (its list of effects is empty) and returns the
directory exactly as it was: the file at `path` and every other entry. -/
theorem write_if_changed_identical_is_noop (sys : Sys) (d : Dir) (path content : String)
    (hfile : fs_exists d path = true ∧ fs_read d path = some content)
    (hreadable : sys.can_read path = true) :
    write_if_changed sys path content d = (d, []) :=
  write_if_changed_same hfile.2 hreadable

/-- Witness of C1 on a directory holding `flux_A.cu` with content `old`. -/
theorem write_if_changed_identical_is_noop_witness :
    write_if_changed sys_ok "flux_A.cu" "old" dir_one = (dir_one, []) :=
  write_if_changed_identical_is_noop sys_ok dir_one "flux_A.cu" "old"
    ⟨by decide, by decide⟩ (by decide)

/-- C2. When no file exists at `path`, or the file there holds something else than
`content`, and the open for writing succeeds, then after `write_if_changed` the file at
`path` holds exactly `content`, the entries of every other name are what they were (same
entries, same order, so every other file reads as before), and the one effect is that
write. -/
theorem write_if_changed_stores_content (sys : Sys) (d : Dir) (path content : String)
    (hdiff : fs_exists d path = false ∨ ∃ c, fs_read d path = some c ∧ c ≠ content)
    (hopen : sys.can_write path = true) :
    fs_read (write_if_changed sys path content d).1 path = some content ∧
    fs_remove (write_if_changed sys path content d).1 path = fs_remove d path ∧
    (∀ q, q ≠ path → fs_read (write_if_changed sys path content d).1 q = fs_read d q) ∧
    (write_if_changed sys path content d).2 = [Event.wrote path content] := by
  have hne : fs_read d path ≠ some content := by
    rcases hdiff with h | ⟨c, hc, hcne⟩
    · rw [fs_read_eq_none.2 h]; simp
    · rw [hc]; intro h; exact hcne (Option.some.inj h)
  rcases write_if_changed_cases sys d path content with h | h | h
  · exact absurd h.2.1 hne
  · rw [h.1]
    exact ⟨fs_read_write_same d path content, fs_remove_write d path content,
      fun q hq => fs_read_write_other d path content q hq, rfl⟩
  · rw [h.2.1] at hopen; cases hopen

/-- Witness of C2: `flux_A.cu` holds `old` and is given `new`. -/
theorem write_if_changed_stores_content_witness :
    fs_read (write_if_changed sys_ok "flux_A.cu" "new" dir_one).1 "flux_A.cu" = some "new" ∧
    fs_remove (write_if_changed sys_ok "flux_A.cu" "new" dir_one).1 "flux_A.cu"
      = fs_remove dir_one "flux_A.cu" ∧
    (∀ q, q ≠ "flux_A.cu" →
      fs_read (write_if_changed sys_ok "flux_A.cu" "new" dir_one).1 q = fs_read dir_one q) ∧
    (write_if_changed sys_ok "flux_A.cu" "new" dir_one).2 = [Event.wrote "flux_A.cu" "new"] :=
  write_if_changed_stores_content sys_ok dir_one "flux_A.cu" "new"
    (Or.inr ⟨"old", by decide, by decide⟩) (by decide)

/-! ## `clear_old_files` -/

theorem clear_fold (sys : Sys) (live : List String) (l : Dir) (acc : Dir × List Event) :
    l.foldl (clear_step sys live) acc =
      (acc.1.filter (fun e =>
          !(decide (e.1 ∈ l.names) && (decide (e.1 ∉ live) && sys.can_remove e.1))),
        acc.2 ++ (l.filter (fun e => decide (e.1 ∉ live))).map
          (fun e => clear_event sys e.1)) := by
  induction l generalizing acc with
  | nil => simp [Dir.names]
  | cons e l ih =>
    rw [List.foldl_cons, ih]
    by_cases hl : e.1 ∈ live
    · have hstep : clear_step sys live acc e = acc := by simp [clear_step, hl]
      rw [hstep]
      refine Prod.ext ?_ ?_
      · apply List.filter_congr
        intro x _
        by_cases hx : x.1 = e.1
        · have hlx : x.1 ∈ live := by rw [hx]; exact hl
          simp [hlx]
        · have hb : (x.1 == e.1) = false := by simpa using hx
          simp [Dir.names, hx, hb]
      · simp [List.filter_cons, hl]
    · by_cases hr : sys.can_remove e.1 = true
      · have hstep : clear_step sys live acc e
            = (fs_remove acc.1 e.1, acc.2 ++ [Event.removed e.1]) := by
          simp [clear_step, hl, hr]
        rw [hstep]
        refine Prod.ext ?_ ?_
        · show List.filter _ (fs_remove acc.1 e.1) = _
          rw [fs_remove, List.filter_filter]
          apply List.filter_congr
          intro x _
          by_cases hx : x.1 = e.1
          · have h1 : x.1 ∉ live := by rw [hx]; exact hl
            have h2 : sys.can_remove x.1 = true := by rw [hx]; exact hr
            simp [Dir.names, hx, hl, hr]
          · have hb : (x.1 == e.1) = false := by simpa using hx
            simp [Dir.names, hx, hb]
        · simp [List.filter_cons, hl, clear_event, hr]
      · have hr2 : sys.can_remove e.1 = false := by simpa using hr
        have hstep : clear_step sys live acc e
            = (acc.1, acc.2 ++ [Event.remove_failed e.1]) := by
          simp [clear_step, hl, hr2]
        rw [hstep]
        refine Prod.ext ?_ ?_
        · apply List.filter_congr
          intro x _
          by_cases hx : x.1 = e.1
          · have h2 : sys.can_remove x.1 = false := by rw [hx]; exact hr2
            simp [h2]
          · have hb : (x.1 == e.1) = false := by simpa using hx
            simp [Dir.names, hx, hb]
        · simp [List.filter_cons, hl, clear_event, hr2]

/-- Closed form of `clear_old_files`: an entry goes exactly when its name is not live and
its removal succeeds; one line is printed per entry whose name is not live. -/
theorem clear_old_files_eq (sys : Sys) (live : List String) (d : Dir) :
    clear_old_files sys live d =
      (d.filter (fun e => decide (e.1 ∈ live) || !sys.can_remove e.1),
        (d.filter (fun e => decide (e.1 ∉ live))).map (fun e => clear_event sys e.1)) := by
  rw [clear_old_files, clear_fold]
  refine Prod.ext ?_ ?_
  · apply List.filter_congr
    intro x hx
    have hmem : x.1 ∈ d.names := List.mem_map_of_mem Prod.fst hx
    by_cases h1 : x.1 ∈ live <;> cases h2 : sys.can_remove x.1 <;> simp [hmem, h1]
  · simp

theorem fs_read_filter_of_keep (d : Dir) (keep : String × String → Bool) (n : String)
    (hk : ∀ e ∈ d, e.1 = n → keep e = true) :
    fs_read (d.filter keep) n = fs_read d n := by
  induction d with
  | nil => rfl
  | cons e d ih =>
    have ih2 := ih (fun x hx => hk x (List.mem_cons_of_mem _ hx))
    by_cases he : e.1 = n
    · have : keep e = true := hk e (List.mem_cons_self _ _) he
      simp [List.filter_cons, this, fs_read_cons, he]
    · cases hke : keep e
      · simp [List.filter_cons, hke, fs_read_cons, he, ih2]
      · simp [List.filter_cons, hke, fs_read_cons, he, ih2]

/-- C3. When every deletion succeeds (no effect of `clear_old_files` is a failure), the
directory after `clear_old_files(live_names)` is the list of the prior entries whose name
is in `live_names`, each as it was and in the same order: the entries outside
`live_names` are gone and no entry inside has been deleted or modified. -/
theorem clear_old_files_keeps_exactly_live (sys : Sys) (live_names : List String) (d : Dir)
    (hdel : ∀ ev ∈ (clear_old_files sys live_names d).2, ev.is_failure = false) :
    (clear_old_files sys live_names d).1 = d.filter (fun e => decide (e.1 ∈ live_names)) := by
  rw [clear_old_files_eq] at hdel ⊢
  apply List.filter_congr
  intro x hx
  by_cases h1 : x.1 ∈ live_names
  · simp [h1]
  · cases h2 : sys.can_remove x.1 with
    | true => simp
    | false =>
      exfalso
      have hmem : Event.remove_failed x.1 ∈
          (d.filter (fun e => decide (e.1 ∉ live_names))).map (fun e => clear_event sys e.1) := by
        simp only [List.mem_map, List.mem_filter]
        exact ⟨x, ⟨hx, by simp [h1]⟩, by simp [clear_event, h2]⟩
      have := hdel _ hmem
      simp [Event.is_failure] at this

/-- Witness of C3: of `flux_A.cu` and `notes.txt` only the live `flux_A.cu` stays. -/
theorem clear_old_files_keeps_exactly_live_witness :
    (clear_old_files sys_ok ["flux_A.cu"] dir_one).1
      = dir_one.filter (fun e => decide (e.1 ∈ ["flux_A.cu"])) ∧
    (clear_old_files sys_ok ["flux_A.cu"] dir_one).1 = [("flux_A.cu", "old")] :=
  ⟨clear_old_files_keeps_exactly_live sys_ok ["flux_A.cu"] dir_one (by decide), by decide⟩

/-! ## The order of `std::set<std::string>` -/

theorem char_eq_of_toNat_eq {a b : Char} (h : a.toNat = b.toNat) : a = b := by
  apply Char.ext
  exact UInt32.ext (by simpa [Char.toNat] using h)

theorem chars_lt_irrefl (a : List Char) : chars_lt a a = false := by
  induction a with
  | nil => rfl
  | cons c a ih => simp [chars_lt, ih]

theorem chars_lt_trans : ∀ (a b c : List Char),
    chars_lt a b = true → chars_lt b c = true → chars_lt a c = true
  | [], [], _, h, _ => by simp [chars_lt] at h
  | [], _ :: _, [], _, h => by simp [chars_lt] at h
  | [], _ :: _, _ :: _, _, _ => by simp [chars_lt]
  | _ :: _, [], _, h, _ => by simp [chars_lt] at h
  | _ :: _, _ :: _, [], _, h => by simp [chars_lt] at h
  | x :: a, y :: b, z :: c, h1, h2 => by
    simp only [chars_lt] at h1 h2 ⊢
    by_cases hxy : x.toNat < y.toNat
    · by_cases hyz : y.toNat < z.toNat
      · have : x.toNat < z.toNat := by omega
        simp [this]
      · by_cases hzy : z.toNat < y.toNat
        · simp [hyz, hzy] at h2
        · have : x.toNat < z.toNat := by omega
          simp [this]
    · by_cases hyx : y.toNat < x.toNat
      · simp [hxy, hyx] at h1
      · simp only [hxy, hyx, if_false] at h1
        by_cases hyz : y.toNat < z.toNat
        · have : x.toNat < z.toNat := by omega
          simp [this]
        · by_cases hzy : z.toNat < y.toNat
          · simp [hyz, hzy] at h2
          · simp only [hyz, hzy, if_false] at h2
            have h3 : ¬ x.toNat < z.toNat := by omega
            have h4 : ¬ z.toNat < x.toNat := by omega
            simp only [h3, h4, if_false]
            exact chars_lt_trans a b c h1 h2

theorem chars_eq_of_not_lt : ∀ (a b : List Char),
    chars_lt a b = false → chars_lt b a = false → a = b
  | [], [], _, _ => rfl
  | [], _ :: _, h, _ => by simp [chars_lt] at h
  | _ :: _, [], _, h => by simp [chars_lt] at h
  | x :: a, y :: b, h1, h2 => by
    simp only [chars_lt] at h1 h2
    by_cases hxy : x.toNat < y.toNat
    · simp [hxy] at h1
    · by_cases hyx : y.toNat < x.toNat
      · simp [hyx] at h2
      · simp only [hxy, hyx, if_false] at h1 h2
        have hc : x = y := char_eq_of_toNat_eq (by omega)
        rw [hc, chars_eq_of_not_lt a b h1 h2]

theorem string_lt_irrefl (a : String) : string_lt a a = false := chars_lt_irrefl a.data

theorem string_lt_trans {a b c : String} (h1 : string_lt a b = true)
    (h2 : string_lt b c = true) : string_lt a c = true :=
  chars_lt_trans a.data b.data c.data h1 h2

theorem string_eq_of_not_lt {a b : String} (h1 : string_lt a b = false)
    (h2 : string_lt b a = false) : a = b := by
  have := chars_eq_of_not_lt a.data b.data h1 h2
  cases a; cases b; simp_all

theorem set_emplace_cons_lt {x y : String} {ys : List String} (h : string_lt x y = true) :
    set_emplace x (y :: ys) = x :: y :: ys := by
  simp [set_emplace, h]

theorem set_emplace_cons_gt {x y : String} {ys : List String} (h1 : string_lt x y = false)
    (h2 : string_lt y x = true) : set_emplace x (y :: ys) = y :: set_emplace x ys := by
  simp [set_emplace, h1, h2]

theorem set_emplace_cons_eq {x y : String} {ys : List String} (h1 : string_lt x y = false)
    (h2 : string_lt y x = false) : set_emplace x (y :: ys) = y :: ys := by
  simp [set_emplace, h1, h2]

theorem mem_set_emplace {x a : String} {l : List String} :
    a ∈ set_emplace x l ↔ a = x ∨ a ∈ l := by
  induction l with
  | nil => simp [set_emplace]
  | cons y ys ih =>
    cases h1 : string_lt x y with
    | true => rw [set_emplace_cons_lt h1]; simp
    | false =>
      cases h2 : string_lt y x with
      | true =>
        rw [set_emplace_cons_gt h1 h2, List.mem_cons, ih, List.mem_cons]
        tauto
      | false =>
        rw [set_emplace_cons_eq h1 h2, List.mem_cons]
        have hxy : x = y := string_eq_of_not_lt h1 h2
        rw [hxy]
        tauto

/-- The invariant of a `std::set<std::string>`: strictly increasing. -/
theorem pairwise_set_emplace {x : String} {l : List String}
    (h : l.Pairwise (fun a b => string_lt a b = true)) :
    (set_emplace x l).Pairwise (fun a b => string_lt a b = true) := by
  induction l with
  | nil => simp [set_emplace]
  | cons y ys ih =>
    have hy := (List.pairwise_cons.1 h).1
    have hys := (List.pairwise_cons.1 h).2
    cases h1 : string_lt x y with
    | true =>
      rw [set_emplace_cons_lt h1]
      refine List.pairwise_cons.2 ⟨?_, h⟩
      intro a ha
      rcases List.mem_cons.1 ha with rfl | ha
      · exact h1
      · exact string_lt_trans h1 (hy a ha)
    | false =>
      cases h2 : string_lt y x with
      | true =>
        rw [set_emplace_cons_gt h1 h2]
        refine List.pairwise_cons.2 ⟨?_, ih hys⟩
        intro a ha
        rcases mem_set_emplace.1 ha with rfl | ha
        · exact h2
        · exact hy a ha
      | false => rw [set_emplace_cons_eq h1 h2]; exact h

theorem nodup_of_increasing {l : List String}
    (h : l.Pairwise (fun a b => string_lt a b = true)) : l.Nodup := by
  refine List.Pairwise.imp ?_ h
  intro a b hab heq
  rw [heq, string_lt_irrefl] at hab
  cases hab

/-! ## The generation loop -/

theorem gen_item_eq (sys : Sys) (archs : List ArchEnum) (impl_header impl_name : String)
    (acc : GenState × Option Exception)
    (meta_item : UnifiedGemmMeta × List UnifiedGemmHParams) :
    gen_item sys archs impl_header impl_name acc meta_item =
      if meta_item.1.arch ∈ archs then
        persist_checked sys acc (render impl_header impl_name meta_item)
      else acc := by
  obtain ⟨st, o⟩ := acc
  cases o with
  | some e =>
    by_cases h : meta_item.1.arch ∈ archs
    · simp only [gen_item, persist_checked, h, if_true]
    · simp only [gen_item, h, if_false]
  | none =>
    by_cases h : meta_item.1.arch ∈ archs
    · have hc : ¬ List.count meta_item.1.arch archs ≤ 0 := by
        have := List.count_pos_iff.2 h
        omega
      simp only [gen_item, persist_checked, hc, h, if_true, if_false, persist, render,
        CodeGen.get_filename, CodeGen.create]
    · have hc : List.count meta_item.1.arch archs ≤ 0 := by
        rw [List.count_eq_zero.2 h]
      simp only [gen_item, hc, h, if_true, if_false]

theorem gen_space_eq (sys : Sys) (archs : List ArchEnum) (acc : GenState × Option Exception)
    (space : Space) :
    gen_space sys archs acc space =
      ((space.1.filter (fun meta_item => decide (meta_item.1.arch ∈ archs))).map
        (render space.2.1 space.2.2)).foldl (persist_checked sys) acc := by
  unfold gen_space
  generalize space.1 = items
  induction items generalizing acc with
  | nil => rfl
  | cons m items ih =>
    rw [List.foldl_cons, gen_item_eq, ih]
    by_cases h : m.1.arch ∈ archs
    · simp [List.filter_cons, h]
    · simp [List.filter_cons, h]

/-- The generation loop of `main_template` persists the selected entries, in order, until
an exception leaves it, and does nothing else. -/
theorem gen_fold_eq (sys : Sys) (archs : List ArchEnum) (spaces : List Space)
    (acc : GenState × Option Exception) :
    spaces.foldl (gen_space sys archs) acc =
      (selected archs spaces).foldl (persist_checked sys) acc := by
  induction spaces generalizing acc with
  | nil => rfl
  | cons space spaces ih =>
    have hsel : selected archs (space :: spaces) =
        (space.1.filter (fun meta_item => decide (meta_item.1.arch ∈ archs))).map
          (render space.2.1 space.2.2) ++ selected archs spaces := by
      simp [selected, List.flatMap_cons]
    rw [List.foldl_cons, ih, gen_space_eq, hsel, List.foldl_append]

theorem checked_fold_some (sys : Sys) (sel : List (String × String)) (st : GenState)
    (e : Exception) : sel.foldl (persist_checked sys) (st, some e) = (st, some e) := by
  induction sel with
  | nil => rfl
  | cons f sel ih => rw [List.foldl_cons]; exact ih

/-- When no call of `write_if_changed` throws, the loop is the plain generation. -/
theorem checked_fold_ok (sys : Sys) (sel : List (String × String)) (st : GenState)
    (h : ∀ f ∈ sel, ∀ d, write_if_changed_throws sys f.1 d = none) :
    sel.foldl (persist_checked sys) (st, none) = (sel.foldl (persist sys) st, none) := by
  induction sel generalizing st with
  | nil => rfl
  | cons f sel ih =>
    rw [List.foldl_cons, List.foldl_cons]
    have hf : persist_checked sys (st, none) f = (persist sys st f, none) := by
      simp only [persist_checked, h f (List.mem_cons_self _ _) st.dir]
    rw [hf]
    exact ih _ (fun g hg => h g (List.mem_cons_of_mem _ hg))

/-- A loop that no exception has left is the plain generation, and `fs::exists` has
thrown for no selected name. -/
theorem checked_fold_none (sys : Sys) (sel : List (String × String)) (st : GenState)
    (h : (sel.foldl (persist_checked sys) (st, none)).2 = none) :
    sel.foldl (persist_checked sys) (st, none) = (sel.foldl (persist sys) st, none) ∧
      ∀ f ∈ sel, sys.exists_throws f.1 = false := by
  induction sel generalizing st with
  | nil => exact ⟨rfl, fun f hf => absurd hf (List.not_mem_nil f)⟩
  | cons f sel ih =>
    rw [List.foldl_cons] at h ⊢
    cases ht : write_if_changed_throws sys f.1 st.dir with
    | some e =>
      have hf : persist_checked sys (st, none) f =
          (GenState.mk (set_emplace f.1 st.all_file_paths) st.dir st.trace, some e) := by
        simp only [persist_checked, ht]
      rw [hf, checked_fold_some] at h
      cases h
    | none =>
      have hf : persist_checked sys (st, none) f = (persist sys st f, none) := by
        simp only [persist_checked, ht]
      rw [hf] at h ⊢
      obtain ⟨h1, h2⟩ := ih _ h
      refine ⟨h1, ?_⟩
      intro g hg
      rcases List.mem_cons.1 hg with rfl | hg
      · unfold write_if_changed_throws at ht
        cases hx : sys.exists_throws g.1 with
        | false => rfl
        | true => simp [hx] at ht
      · exact h2 g hg

/-- The loop either gets through, or is left by the exception of the first call that
throws, with the name of that call already in `all_file_paths`. -/
theorem checked_fold_cases (sys : Sys) (sel : List (String × String)) (st : GenState) :
    (sel.foldl (persist_checked sys) (st, none) = (sel.foldl (persist sys) st, none) ∧
      ∀ f ∈ sel, sys.exists_throws f.1 = false) ∨
    ∃ pre f post e, sel = pre ++ f :: post ∧
      (∀ g ∈ pre, sys.exists_throws g.1 = false) ∧
      write_if_changed_throws sys f.1 (pre.foldl (persist sys) st).dir = some e ∧
      sel.foldl (persist_checked sys) (st, none) =
        (GenState.mk (set_emplace f.1 (pre.foldl (persist sys) st).all_file_paths)
          (pre.foldl (persist sys) st).dir (pre.foldl (persist sys) st).trace, some e) := by
  induction sel generalizing st with
  | nil => exact Or.inl ⟨rfl, fun f hf => absurd hf (List.not_mem_nil f)⟩
  | cons f sel ih =>
    cases ht : write_if_changed_throws sys f.1 st.dir with
    | some e =>
      refine Or.inr ⟨[], f, sel, e, rfl, fun g hg => absurd hg (List.not_mem_nil g), ht, ?_⟩
      have hf : persist_checked sys (st, none) f =
          (GenState.mk (set_emplace f.1 st.all_file_paths) st.dir st.trace, some e) := by
        simp only [persist_checked, ht]
      rw [List.foldl_cons, hf, checked_fold_some]
      rfl
    | none =>
      have hf : persist_checked sys (st, none) f = (persist sys st f, none) := by
        simp only [persist_checked, ht]
      have hxf : sys.exists_throws f.1 = false := by
        unfold write_if_changed_throws at ht
        cases hx : sys.exists_throws f.1 with
        | false => rfl
        | true => simp [hx] at ht
      rcases ih (persist sys st f) with ⟨h1, h2⟩ | ⟨pre, g, post, e, hs, hp, hg, hr⟩
      · refine Or.inl ⟨?_, ?_⟩
        · rw [List.foldl_cons, hf, h1]
          rfl
        · intro g hg
          rcases List.mem_cons.1 hg with rfl | hg
          · exact hxf
          · exact h2 g hg
      · refine Or.inr ⟨f :: pre, g, post, e, by rw [hs]; rfl, ?_, hg, ?_⟩
        · intro x hx
          rcases List.mem_cons.1 hx with rfl | hx
          · exact hxf
          · exact hp x hx
        · rw [List.foldl_cons, hf, hr]
          rfl

/-- A call on a name that is looked up and can be read does not throw. -/
theorem write_if_changed_throws_readable (sys : Sys) (p : String) (d : Dir)
    (hx : sys.exists_throws p = false) (hr : sys.can_read p = true) :
    write_if_changed_throws sys p d = none := by
  simp [write_if_changed_throws, hx, hr]

theorem persist_fold_paths (sys : Sys) (sel : List (String × String)) (st : GenState) :
    (sel.foldl (persist sys) st).all_file_paths =
      sel.foldl (fun acc f => set_emplace f.1 acc) st.all_file_paths := by
  induction sel generalizing st with
  | nil => rfl
  | cons f sel ih => rw [List.foldl_cons, List.foldl_cons, ih]; rfl

theorem mem_emplace_fold (sel : List (String × String)) (init : List String) (n : String) :
    n ∈ sel.foldl (fun acc f => set_emplace f.1 acc) init ↔
      n ∈ init ∨ n ∈ sel.map Prod.fst := by
  induction sel generalizing init with
  | nil => simp
  | cons f sel ih =>
    rw [List.foldl_cons, ih, mem_set_emplace, List.map_cons, List.mem_cons]
    tauto

theorem pairwise_emplace_fold (sel : List (String × String)) (init : List String)
    (h : init.Pairwise (fun a b => string_lt a b = true)) :
    (sel.foldl (fun acc f => set_emplace f.1 acc) init).Pairwise
      (fun a b => string_lt a b = true) := by
  induction sel generalizing init with
  | nil => exact h
  | cons f sel ih => rw [List.foldl_cons]; exact ih _ (pairwise_set_emplace h)

theorem persist_fold_snoc (sys : Sys) (sel : List (String × String)) (f : String × String)
    (st : GenState) :
    (sel ++ [f]).foldl (persist sys) st = persist sys (sel.foldl (persist sys) st) f := by
  rw [List.foldl_append]; rfl

theorem last_rendering_snoc (sel : List (String × String)) (f : String × String) (n : String) :
    last_rendering (sel ++ [f]) n = if f.1 = n then some f.2 else last_rendering sel n := by
  unfold last_rendering
  rw [List.reverse_append]
  by_cases h : f.1 = n <;> simp [List.find?_cons, h]

theorem last_rendering_isSome {sel : List (String × String)} {n : String}
    (h : n ∈ sel.map Prod.fst) : ∃ c, last_rendering sel n = some c ∧ (n, c) ∈ sel := by
  induction sel using List.reverseRecOn with
  | nil => simp at h
  | append_singleton sel f ih =>
    rw [last_rendering_snoc]
    by_cases hf : f.1 = n
    · refine ⟨f.2, by simp [hf], ?_⟩
      rw [← hf]; simp
    · have h2 : n ∈ sel.map Prod.fst := by
        rw [List.map_append, List.mem_append] at h
        rcases h with h | h
        · exact h
        · simp at h; exact absurd h.symm hf
      obtain ⟨c, hc, hm⟩ := ih h2
      exact ⟨c, by simp [hf, hc], List.mem_append_left _ hm⟩

theorem last_rendering_none {sel : List (String × String)} {n : String}
    (h : n ∉ sel.map Prod.fst) : last_rendering sel n = none := by
  induction sel using List.reverseRecOn with
  | nil => rfl
  | append_singleton sel f ih =>
    rw [last_rendering_snoc]
    rw [List.map_append, List.mem_append, not_or] at h
    have hf : ¬ f.1 = n := by
      intro hf; apply h.2; simp [hf]
    simp [hf, ih h.1]

/-! ## Normal form of a run -/

theorem main_template_parse_error (sys : Sys) (options : Options) (spaces : List Space)
    (disk : Disk) (e : Exception) (ha : allowed_archs options.archs = Except.error e) :
    main_template sys options spaces disk = Run.mk (Outcome.threw e) disk [] [] := by
  unfold allowed_archs at ha
  simp only [main_template, ha]

theorem main_template_no_manifest (sys : Sys) (options : Options) (spaces : List Space)
    (disk : Disk) (archs : List ArchEnum)
    (ha : allowed_archs options.archs = Except.ok archs)
    (ho : sys.open_output_file options.output_file = false) :
    main_template sys options spaces disk = Run.mk (Outcome.returned 1) disk [] [] := by
  unfold allowed_archs at ha
  simp [main_template, ha, ho]

theorem main_template_no_dir (sys : Sys) (options : Options) (spaces : List Space)
    (disk : Disk) (archs : List ArchEnum)
    (ha : allowed_archs options.archs = Except.ok archs)
    (ho : sys.open_output_file options.output_file = true)
    (hc : sys.current_path options.dir = none) :
    main_template sys options spaces disk =
      Run.mk (Outcome.threw Exception.filesystem_error)
        (open_manifest (sys.output_file_entry options.dir options.output_file) disk) [] [] := by
  unfold allowed_archs at ha
  simp [main_template, ha, ho, hc]

/-- A run in which a call of `write_if_changed` throws ends with that exception, with
what the generation has done so far and an untouched manifest. -/
theorem main_template_gen_throw (sys : Sys) (options : Options) (spaces : List Space)
    (disk : Disk) (archs : List ArchEnum) (cwd : String) (e : Exception) (stx : GenState)
    (ha : allowed_archs options.archs = Except.ok archs)
    (ho : sys.open_output_file options.output_file = true)
    (hc : sys.current_path options.dir = some cwd)
    (hg : (selected archs spaces).foldl (persist_checked sys)
      (GenState.mk []
        (open_manifest (sys.output_file_entry options.dir options.output_file) disk).dir [],
        none) = (stx, some e)) :
    main_template sys options spaces disk =
      Run.mk (Outcome.threw e)
        (close_manifest (sys.output_file_entry options.dir options.output_file) "" stx.dir)
        stx.trace stx.all_file_paths := by
  unfold allowed_archs at ha
  simp only [main_template, ha, ho, hc, gen_fold_eq, hg]
  rfl

/-- A run in which the directory cannot be listed ends with `filesystem_error`, after the
generation. -/
theorem main_template_no_list (sys : Sys) (options : Options) (spaces : List Space)
    (disk : Disk) (archs : List ArchEnum) (cwd : String) (stx : GenState)
    (ha : allowed_archs options.archs = Except.ok archs)
    (ho : sys.open_output_file options.output_file = true)
    (hc : sys.current_path options.dir = some cwd)
    (hg : (selected archs spaces).foldl (persist_checked sys)
      (GenState.mk []
        (open_manifest (sys.output_file_entry options.dir options.output_file) disk).dir [],
        none) = (stx, none))
    (hl : sys.can_list = false) :
    main_template sys options spaces disk =
      Run.mk (Outcome.threw Exception.filesystem_error)
        (close_manifest (sys.output_file_entry options.dir options.output_file)
          (sys.flushed (manifest_text cwd stx.all_file_paths)) stx.dir)
        stx.trace stx.all_file_paths := by
  unfold allowed_archs at ha
  simp only [main_template, ha, ho, hc, gen_fold_eq, hg, hl]
  rfl

/-- A run that gets to its end is the run of the specification. -/
theorem main_template_run (sys : Sys) (options : Options) (spaces : List Space)
    (disk : Disk) (archs : List ArchEnum) (cwd : String)
    (ha : allowed_archs options.archs = Except.ok archs)
    (ho : sys.open_output_file options.output_file = true)
    (hc : sys.current_path options.dir = some cwd)
    (hg : ((selected archs spaces).foldl (persist_checked sys)
      (GenState.mk []
        (open_manifest (sys.output_file_entry options.dir options.output_file) disk).dir [],
        none)).2 = none)
    (hl : sys.can_list = true) :
    main_template sys options spaces disk =
      run_with sys (sys.output_file_entry options.dir options.output_file) cwd archs spaces
        disk := by
  have hfold := (checked_fold_none sys _ _ hg).1
  unfold allowed_archs at ha
  simp only [main_template, ha, ho, hc, gen_fold_eq, hfold, hl, run_with, run_of, generate]
  rfl

theorem run_with_none (sys : Sys) (cwd : String) (archs : List ArchEnum)
    (spaces : List Space) (disk : Disk) :
    run_with sys none cwd archs spaces disk = run_of sys cwd archs spaces disk := rfl

/-- A run with the manifest outside the directory, a directory that can be listed and
no call of `write_if_changed` that throws. -/
theorem main_template_ok (sys : Sys) (options : Options) (spaces : List Space) (disk : Disk)
    (archs : List ArchEnum) (cwd : String)
    (ha : allowed_archs options.archs = Except.ok archs)
    (ho : sys.open_output_file options.output_file = true)
    (hc : sys.current_path options.dir = some cwd)
    (hout : sys.output_file_entry options.dir options.output_file = none)
    (hl : sys.can_list = true)
    (hcalls : ∀ f ∈ selected archs spaces, ∀ d, write_if_changed_throws sys f.1 d = none) :
    main_template sys options spaces disk = run_of sys cwd archs spaces disk := by
  have hg := checked_fold_ok sys (selected archs spaces)
    (GenState.mk []
      (open_manifest (sys.output_file_entry options.dir options.output_file) disk).dir [])
    hcalls
  rw [main_template_run sys options spaces disk archs cwd ha ho hc (by rw [hg]) hl, hout,
    run_with_none]

/-- A run returns 0 only when the allow-list parses, the manifest opens, the directory is
entered and listed and no call of `write_if_changed` throws; it is then the run of the
specification. -/
theorem main_template_returned_zero {sys : Sys} {options : Options} {spaces : List Space}
    {disk : Disk}
    (h : (main_template sys options spaces disk).outcome = Outcome.returned 0) :
    ∃ archs cwd, allowed_archs options.archs = Except.ok archs ∧
      sys.open_output_file options.output_file = true ∧
      sys.current_path options.dir = some cwd ∧ sys.can_list = true ∧
      (∀ f ∈ selected archs spaces, sys.exists_throws f.1 = false) ∧
      main_template sys options spaces disk =
        run_with sys (sys.output_file_entry options.dir options.output_file) cwd archs
          spaces disk := by
  cases ha : allowed_archs options.archs with
  | error e => rw [main_template_parse_error sys options spaces disk e ha] at h; cases h
  | ok archs =>
    cases ho : sys.open_output_file options.output_file with
    | false =>
      rw [main_template_no_manifest sys options spaces disk archs ha ho] at h
      simp at h
    | true =>
      cases hc : sys.current_path options.dir with
      | none => rw [main_template_no_dir sys options spaces disk archs ha ho hc] at h; cases h
      | some cwd =>
        cases hfold : (selected archs spaces).foldl (persist_checked sys)
          (GenState.mk []
            (open_manifest (sys.output_file_entry options.dir options.output_file) disk).dir
            [], none) with
        | mk stx o =>
          cases o with
          | some e =>
            rw [main_template_gen_throw sys options spaces disk archs cwd e stx ha ho hc
              hfold] at h
            cases h
          | none =>
            have hg : ((selected archs spaces).foldl (persist_checked sys)
                (GenState.mk []
                  (open_manifest (sys.output_file_entry options.dir options.output_file)
                    disk).dir [], none)).2 = none := by
              rw [hfold]
            cases hl : sys.can_list with
            | false =>
              rw [main_template_no_list sys options spaces disk archs cwd stx ha ho hc hfold
                hl] at h
              cases h
            | true =>
              exact ⟨archs, cwd, rfl, rfl, rfl, rfl, (checked_fold_none sys _ _ hg).2,
                main_template_run sys options spaces disk archs cwd ha ho hc hg hl⟩

/-- A run that returns 0 with the manifest outside the directory. -/
theorem main_template_zero_outside {sys : Sys} {options : Options} {spaces : List Space}
    {disk : Disk}
    (h : (main_template sys options spaces disk).outcome = Outcome.returned 0)
    (hout : sys.output_file_entry options.dir options.output_file = none) :
    ∃ archs cwd, allowed_archs options.archs = Except.ok archs ∧
      sys.open_output_file options.output_file = true ∧
      sys.current_path options.dir = some cwd ∧ sys.can_list = true ∧
      (∀ f ∈ selected archs spaces, sys.exists_throws f.1 = false) ∧
      main_template sys options spaces disk = run_of sys cwd archs spaces disk := by
  obtain ⟨archs, cwd, ha, ho, hc, hl, hx, hrun⟩ := main_template_returned_zero h
  refine ⟨archs, cwd, ha, ho, hc, hl, hx, ?_⟩
  rw [hrun, hout, run_with_none]

/-! ## What the generation leaves in the directory -/

theorem not_write_failed_of_not_failure {ev : Event} (h : ev.is_failure = false) :
    ev.is_write_failed = false := by
  cases ev <;> simp_all [Event.is_failure, Event.is_write_failed]

theorem persist_trace (sys : Sys) (st : GenState) (f : String × String) :
    (persist sys st f).trace = st.trace ++ (write_if_changed sys f.1 f.2 st.dir).2 := rfl

theorem persist_dir (sys : Sys) (st : GenState) (f : String × String) :
    (persist sys st f).dir = (write_if_changed sys f.1 f.2 st.dir).1 := rfl

theorem write_if_changed_read_ok (sys : Sys) (d : Dir) (p c : String)
    (hok : ∀ ev ∈ (write_if_changed sys p c d).2, ev.is_write_failed = false) :
    fs_read (write_if_changed sys p c d).1 p = some c ∧
      ∀ q, q ≠ p → fs_read (write_if_changed sys p c d).1 q = fs_read d q := by
  rcases write_if_changed_cases sys d p c with h | h | h
  · rw [h.1]; exact ⟨h.2.1, fun _ _ => rfl⟩
  · rw [h.1]; exact ⟨fs_read_write_same d p c, fun q hq => fs_read_write_other d p c q hq⟩
  · rw [h.1] at hok
    have := hok (Event.write_failed p) (by simp)
    simp [Event.is_write_failed] at this

theorem write_if_changed_read_other (sys : Sys) (d : Dir) (p c q : String) (hq : q ≠ p) :
    fs_read (write_if_changed sys p c d).1 q = fs_read d q := by
  rcases write_if_changed_cases sys d p c with h | h | h
  · rw [h.1]
  · rw [h.1]; exact fs_read_write_other d p c q hq
  · rw [h.1]

/-- The generation leaves alone every file whose name is not selected. -/
theorem persist_fold_read_other (sys : Sys) (sel : List (String × String)) (st : GenState)
    (n : String) (hn : n ∉ sel.map Prod.fst) :
    fs_read (sel.foldl (persist sys) st).dir n = fs_read st.dir n := by
  induction sel using List.reverseRecOn with
  | nil => rfl
  | append_singleton sel f ih =>
    rw [List.map_append, List.mem_append, not_or] at hn
    have hf : n ≠ f.1 := fun h => hn.2 (by simp [h])
    rw [persist_fold_snoc, persist_dir, write_if_changed_read_other sys _ f.1 f.2 n hf]
    exact ih hn.1

/-- When no write fails, every selected name reads back its last rendering and every
other name reads as before. -/
theorem persist_fold_read (sys : Sys) (sel : List (String × String)) (st : GenState)
    (hok : ∀ ev ∈ (sel.foldl (persist sys) st).trace, ev.is_write_failed = false)
    (n : String) :
    fs_read (sel.foldl (persist sys) st).dir n =
      (last_rendering sel n).or (fs_read st.dir n) := by
  induction sel using List.reverseRecOn with
  | nil => simp [last_rendering]
  | append_singleton sel f ih =>
    rw [persist_fold_snoc] at hok ⊢
    rw [persist_trace] at hok
    have h1 : ∀ ev ∈ (sel.foldl (persist sys) st).trace, ev.is_write_failed = false :=
      fun ev hev => hok ev (List.mem_append_left _ hev)
    have h2 := write_if_changed_read_ok sys (sel.foldl (persist sys) st).dir f.1 f.2
      (fun ev hev => hok ev (List.mem_append_right _ hev))
    rw [persist_dir, last_rendering_snoc]
    by_cases hf : f.1 = n
    · rw [← hf, h2.1]; simp
    · rw [h2.2 n (fun h => hf h.symm), ih h1]; simp [hf]

/-! ## The directory and the manifest after a run -/

theorem mem_selected_names (archs : List ArchEnum) (spaces : List Space) (n : String) :
    n ∈ (selected archs spaces).map Prod.fst ↔
      ∃ space ∈ spaces, ∃ meta_item ∈ space.1, meta_item.1.arch ∈ archs ∧
        n = "flux_" ++ meta_item.1.to_kernel_name ++ ".cu" := by
  simp only [selected, List.mem_map, List.mem_flatMap, List.mem_filter, decide_eq_true_eq]
  constructor
  · rintro ⟨f, ⟨space, hs, m, ⟨hm, ha⟩, rfl⟩, rfl⟩
    exact ⟨space, hs, m, hm, ha, rfl⟩
  · rintro ⟨space, hs, m, hm, ha, rfl⟩
    exact ⟨render space.2.1 space.2.2 m, ⟨space, hs, m, ⟨hm, ha⟩, rfl⟩, rfl⟩

theorem mem_generate_paths (sys : Sys) (archs : List ArchEnum) (spaces : List Space) (d : Dir)
    (n : String) :
    n ∈ (generate sys archs spaces d).all_file_paths ↔
      n ∈ (selected archs spaces).map Prod.fst := by
  rw [generate, persist_fold_paths, mem_emplace_fold]
  simp

theorem nodup_generate_paths (sys : Sys) (archs : List ArchEnum) (spaces : List Space)
    (d : Dir) : (generate sys archs spaces d).all_file_paths.Nodup := by
  rw [generate, persist_fold_paths]
  exact nodup_of_increasing (pairwise_emplace_fold _ _ List.Pairwise.nil)

/-- The live-file set depends on the allow-list and the groups only. -/
theorem generate_paths_indep (sys1 sys2 : Sys) (archs : List ArchEnum) (spaces : List Space)
    (d1 d2 : Dir) :
    (generate sys1 archs spaces d1).all_file_paths =
      (generate sys2 archs spaces d2).all_file_paths := by
  rw [generate, generate, persist_fold_paths, persist_fold_paths]

/-- Names left by `clear_old_files` when no removal fails. -/
theorem clear_old_files_names_ok (sys : Sys) (live : List String) (d : Dir)
    (hdel : ∀ ev ∈ (clear_old_files sys live d).2, ev.is_failure = false) (n : String) :
    n ∈ (clear_old_files sys live d).1.names ↔ n ∈ d.names ∧ n ∈ live := by
  rw [clear_old_files_eq] at hdel ⊢
  simp only [Dir.names, List.mem_map, List.mem_filter]
  constructor
  · rintro ⟨e, ⟨he, hk⟩, rfl⟩
    refine ⟨⟨e, he, rfl⟩, ?_⟩
    by_contra hl
    have hr : sys.can_remove e.1 = false := by simpa [hl] using hk
    have hmem : clear_event sys e.1 ∈
        (d.filter (fun e => decide (e.1 ∉ live))).map (fun e => clear_event sys e.1) := by
      simp only [List.mem_map, List.mem_filter]
      exact ⟨e, ⟨he, by simp [hl]⟩, rfl⟩
    have := hdel _ hmem
    simp [clear_event, hr, Event.is_failure] at this
  · rintro ⟨⟨e, he, rfl⟩, hl⟩
    exact ⟨e, ⟨he, by simp [hl]⟩, rfl⟩

theorem names_fs_write_of_exists (d : Dir) (p c : String) (h : fs_exists d p = true) :
    (fs_write d p c).names = d.names := by
  unfold fs_write
  rw [if_pos h]
  unfold Dir.names
  rw [List.map_map]
  apply List.map_congr_left
  intro e _
  by_cases he : e.1 = p <;> simp [he]

theorem overlay_empty (text : String) : overlay text "" = text := by
  apply String.ext
  simp [overlay]

/-- Closing the manifest adds no name to the directory and takes none away. -/
theorem close_manifest_names (entry : Option String) (text : String) (d : Dir) :
    (close_manifest entry text d).dir.names = d.names := by
  cases entry with
  | none => rfl
  | some m =>
    cases h : fs_read d m with
    | none => simp only [close_manifest, h]
    | some old =>
      simp only [close_manifest, h]
      exact names_fs_write_of_exists d m _ (fs_exists_of_read h)

/-- Closing the manifest changes the bytes of the manifest only. -/
theorem close_manifest_read (entry : Option String) (text : String) (d : Dir) (n : String) :
    fs_read (close_manifest entry text d).dir n =
      if entry = some n then (fs_read d n).map (overlay text) else fs_read d n := by
  cases entry with
  | none => simp [close_manifest]
  | some m =>
    cases h : fs_read d m with
    | none =>
      simp only [close_manifest, h]
      by_cases hm : m = n
      · rw [← hm, h]; simp
      · simp [hm]
    | some old =>
      simp only [close_manifest, h]
      by_cases hm : m = n
      · rw [← hm, fs_read_write_same, h]; simp
      · rw [fs_read_write_other d m _ n (fun hx => hm hx.symm)]; simp [hm]

theorem close_manifest_output_file (entry : Option String) (text : String) (d : Dir) :
    (close_manifest entry text d).output_file =
      match entry with
      | none => some text
      | some m => (fs_read d m).map (overlay text) := by
  cases entry with
  | none => rfl
  | some m =>
    cases h : fs_read d m with
    | none => simp only [close_manifest, h]; rfl
    | some old => simp only [close_manifest, h]; rfl

/-- After a specification run without failed write or removal the names in the directory
are the live-file set. -/
theorem run_of_names (sys : Sys) (cwd : String) (archs : List ArchEnum) (spaces : List Space)
    (disk : Disk)
    (hok : ∀ ev ∈ (run_of sys cwd archs spaces disk).trace, ev.is_failure = false)
    (n : String) :
    n ∈ (run_of sys cwd archs spaces disk).disk.dir.names ↔
      n ∈ (run_of sys cwd archs spaces disk).all_file_paths := by
  simp only [run_of] at hok ⊢
  have hgen : ∀ ev ∈ (generate sys archs spaces disk.dir).trace,
      ev.is_write_failed = false :=
    fun ev hev => not_write_failed_of_not_failure (hok ev (List.mem_append_left _ hev))
  rw [clear_old_files_names_ok sys (generate sys archs spaces disk.dir).all_file_paths
    (generate sys archs spaces disk.dir).dir
    (fun ev hev => hok ev (List.mem_append_right _ hev)) n]
  constructor
  · exact fun h => h.2
  · intro hn
    refine ⟨?_, hn⟩
    have hsel := (mem_generate_paths sys archs spaces disk.dir n).1 hn
    obtain ⟨c, hc2, _⟩ := last_rendering_isSome hsel
    have hread := persist_fold_read sys (selected archs spaces) (GenState.mk [] disk.dir [])
      hgen n
    rw [hc2] at hread
    exact fs_exists_iff_mem_names.1 (fs_exists_of_read (by simpa using hread))

/-- C4. After a run of `main_template` that returns 0 with every write and every
deletion succeeding, a name is present in the output directory exactly when it is in the
run's live-file set, and it is in the live-file set exactly when it is
`"flux_" + to_kernel_name(meta) + ".cu"` for an entry of some group whose architecture is
in the parsed allow-list. -/
theorem main_template_directory_is_live_set (sys : Sys) (options : Options)
    (spaces : List Space) (disk : Disk)
    (hret : (main_template sys options spaces disk).outcome = Outcome.returned 0)
    (hok : ∀ ev ∈ (main_template sys options spaces disk).trace, ev.is_failure = false) :
    ∃ archs, allowed_archs options.archs = Except.ok archs ∧
      (∀ n, n ∈ (main_template sys options spaces disk).disk.dir.names ↔
        n ∈ (main_template sys options spaces disk).all_file_paths) ∧
      (∀ n, n ∈ (main_template sys options spaces disk).all_file_paths ↔
        ∃ space ∈ spaces, ∃ meta_item ∈ space.1, meta_item.1.arch ∈ archs ∧
          n = "flux_" ++ meta_item.1.to_kernel_name ++ ".cu") := by
  obtain ⟨archs, cwd, ha, ho, hc, hl, hx, hrun⟩ := main_template_returned_zero hret
  rw [hrun] at hok ⊢
  refine ⟨archs, ha, ?_, ?_⟩
  · intro n
    show n ∈ (close_manifest _ _ _).dir.names ↔ _
    rw [close_manifest_names]
    exact run_of_names sys cwd archs spaces _ hok n
  · intro n
    simp only [run_with, run_of]
    rw [mem_generate_paths, mem_selected_names]

/-- Witness of C4, the pruning scenario: the directory holds `flux_A.cu`, `flux_B.cu` and
`stale.cu`, the live-file set of the run is `flux_A.cu`, `flux_C.cu`, and the directory
ends with exactly these two names. -/
theorem main_template_directory_is_live_set_witness :
    (∃ archs, allowed_archs options_80_89.archs = Except.ok archs ∧
      (∀ n, n ∈ (main_template sys_ok options_80_89 spaces_ABC disk_stale).disk.dir.names ↔
        n ∈ (main_template sys_ok options_80_89 spaces_ABC disk_stale).all_file_paths) ∧
      (∀ n, n ∈ (main_template sys_ok options_80_89 spaces_ABC disk_stale).all_file_paths ↔
        ∃ space ∈ spaces_ABC, ∃ meta_item ∈ space.1, meta_item.1.arch ∈ archs ∧
          n = "flux_" ++ meta_item.1.to_kernel_name ++ ".cu")) ∧
    (main_template sys_ok options_80_89 spaces_ABC disk_stale).all_file_paths
      = ["flux_A.cu", "flux_C.cu"] ∧
    (main_template sys_ok options_80_89 spaces_ABC disk_stale).disk.dir.names
      = ["flux_A.cu", "flux_C.cu"] :=
  ⟨main_template_directory_is_live_set sys_ok options_80_89 spaces_ABC disk_stale
    (by decide) (by decide), by decide, by decide⟩

/-- C5, as amended. After a run of `main_template` that returns 0, with a manifest that is
no entry of the output directory, the manifest is the concatenation, over the live-file
set, of the absolute path of the file followed by a newline: one line per name; the
live-file set has no repetition and is the set of the file names generated in the run,
so the number of lines is the number of distinct generated names; and the text is the
same whatever the directory held before and whichever files `write_if_changed` rewrote
or left alone. -/
theorem main_template_manifest_lists_live_set (sys : Sys) (options : Options)
    (spaces : List Space) (disk : Disk)
    (hret : (main_template sys options spaces disk).outcome = Outcome.returned 0)
    (hout : sys.output_file_entry options.dir options.output_file = none) :
    ∃ archs cwd, allowed_archs options.archs = Except.ok archs ∧
      sys.current_path options.dir = some cwd ∧
      (main_template sys options spaces disk).disk.output_file =
        some (String.join ((main_template sys options spaces disk).all_file_paths.map
          (fun file_path => fs_absolute cwd file_path ++ "\n"))) ∧
      (main_template sys options spaces disk).all_file_paths.Nodup ∧
      (∀ n, n ∈ (main_template sys options spaces disk).all_file_paths ↔
        n ∈ (selected archs spaces).map Prod.fst) ∧
      (main_template sys options spaces disk).all_file_paths.length =
        ((selected archs spaces).map Prod.fst).dedup.length ∧
      (∀ (sys2 : Sys) (disk2 : Disk),
        (main_template sys2 options spaces disk2).outcome = Outcome.returned 0 →
        sys2.current_path options.dir = some cwd →
        sys2.output_file_entry options.dir options.output_file = none →
        (main_template sys2 options spaces disk2).disk.output_file =
          (main_template sys options spaces disk).disk.output_file) := by
  obtain ⟨archs, cwd, ha, ho, hc, hl, hx, hrun⟩ := main_template_zero_outside hret hout
  rw [hrun]
  refine ⟨archs, cwd, ha, hc, rfl, nodup_generate_paths sys archs spaces disk.dir,
    mem_generate_paths sys archs spaces disk.dir, ?_, ?_⟩
  · apply List.Perm.length_eq
    refine (List.perm_ext_iff_of_nodup (nodup_generate_paths sys archs spaces disk.dir)
      (List.nodup_dedup _)).2 ?_
    intro n
    show n ∈ (generate sys archs spaces disk.dir).all_file_paths ↔ _
    rw [mem_generate_paths, List.mem_dedup]
  · intro sys2 disk2 hret2 hc2 hout2
    obtain ⟨archs2, cwd2, ha2, _, hc3, _, _, hrun2⟩ := main_template_zero_outside hret2 hout2
    rw [ha] at ha2
    cases ha2
    rw [hc2] at hc3
    cases hc3
    rw [hrun2]
    simp only [run_of]
    rw [generate_paths_indep sys2 sys archs spaces disk2.dir disk.dir]

/-- Witness of C5 as amended: the manifest of the pruning scenario has the two lines of
`flux_A.cu` and `flux_C.cu`. -/
theorem main_template_manifest_lists_live_set_witness :
    (∃ archs cwd, allowed_archs options_80_89.archs = Except.ok archs ∧
      sys_ok.current_path options_80_89.dir = some cwd ∧
      (main_template sys_ok options_80_89 spaces_ABC disk_stale).disk.output_file =
        some (String.join ((main_template sys_ok options_80_89 spaces_ABC disk_stale).all_file_paths.map
          (fun file_path => fs_absolute cwd file_path ++ "\n"))) ∧
      (main_template sys_ok options_80_89 spaces_ABC disk_stale).all_file_paths.Nodup ∧
      (∀ n, n ∈ (main_template sys_ok options_80_89 spaces_ABC disk_stale).all_file_paths ↔
        n ∈ (selected archs spaces_ABC).map Prod.fst) ∧
      (main_template sys_ok options_80_89 spaces_ABC disk_stale).all_file_paths.length =
        ((selected archs spaces_ABC).map Prod.fst).dedup.length ∧
      (∀ (sys2 : Sys) (disk2 : Disk),
        (main_template sys2 options_80_89 spaces_ABC disk2).outcome = Outcome.returned 0 →
        sys2.current_path options_80_89.dir = some cwd →
        sys2.output_file_entry options_80_89.dir options_80_89.output_file = none →
        (main_template sys2 options_80_89 spaces_ABC disk2).disk.output_file =
          (main_template sys_ok options_80_89 spaces_ABC disk_stale).disk.output_file)) ∧
    (main_template sys_ok options_80_89 spaces_ABC disk_stale).disk.output_file
      = some "/out/flux_A.cu\n/out/flux_C.cu\n" :=
  ⟨main_template_manifest_lists_live_set sys_ok options_80_89 spaces_ABC disk_stale
    (by decide) rfl, by decide⟩

/-- Counterexample to C5 as stated, a manifest inside the output directory: with
`--dir ./registers --output_file ./registers/generated_ops.txt` the manifest is an entry
of the directory that `clear_old_files` lists; its name is not live, so it is removed
before `ofile.close()`.  The run returns 0 with `flux_M1.cu` in the live-file set, and no
manifest is left: the directory holds `flux_M1.cu` alone. -/
theorem main_template_manifest_lists_live_set_counterexample :
    sys_inside.output_file_entry options_inside.dir options_inside.output_file
      = some "generated_ops.txt" ∧
    (main_template sys_inside options_inside spaces_M1 (Disk.mk none [])).outcome
      = Outcome.returned 0 ∧
    (main_template sys_inside options_inside spaces_M1 (Disk.mk none [])).all_file_paths
      = ["flux_M1.cu"] ∧
    (main_template sys_inside options_inside spaces_M1 (Disk.mk none [])).disk.output_file
      = none ∧
    (main_template sys_inside options_inside spaces_M1 (Disk.mk none [])).disk.dir.names
      = ["flux_M1.cu"] ∧
    Event.removed "generated_ops.txt" ∈
      (main_template sys_inside options_inside spaces_M1 (Disk.mk none [])).trace := by
  decide

/-! ## Selection by architecture -/

theorem write_if_changed_events (sys : Sys) (d : Dir) (p c : String) :
    ∀ ev ∈ (write_if_changed sys p c d).2, ev = Event.wrote p c ∨ ev = Event.write_failed p := by
  intro ev hev
  rcases write_if_changed_cases sys d p c with h | h | h
  · rw [h.1] at hev; simp at hev
  · rw [h.1] at hev; simp at hev; exact Or.inl hev
  · rw [h.1] at hev; simp at hev; exact Or.inr hev

theorem persist_fold_events (sys : Sys) (sel : List (String × String)) (st : GenState) :
    ∀ ev ∈ (sel.foldl (persist sys) st).trace,
      ev ∈ st.trace ∨ ∃ f ∈ sel, ev = Event.wrote f.1 f.2 ∨ ev = Event.write_failed f.1 := by
  induction sel using List.reverseRecOn with
  | nil => intro ev hev; exact Or.inl hev
  | append_singleton sel f ih =>
    intro ev hev
    rw [persist_fold_snoc, persist_trace, List.mem_append] at hev
    rcases hev with hev | hev
    · rcases ih ev hev with h | ⟨g, hg, h⟩
      · exact Or.inl h
      · exact Or.inr ⟨g, List.mem_append_left _ hg, h⟩
    · exact Or.inr ⟨f, by simp, write_if_changed_events sys _ f.1 f.2 ev hev⟩

theorem clear_old_files_events (sys : Sys) (live : List String) (d : Dir) :
    ∀ ev ∈ (clear_old_files sys live d).2,
      ∃ n, n ∉ live ∧ n ∈ d.names ∧ (ev = Event.removed n ∨ ev = Event.remove_failed n) := by
  intro ev hev
  rw [clear_old_files_eq] at hev
  simp only [List.mem_map, List.mem_filter, decide_eq_true_eq] at hev
  obtain ⟨e, ⟨he, hl⟩, rfl⟩ := hev
  refine ⟨e.1, hl, List.mem_map_of_mem Prod.fst he, ?_⟩
  unfold clear_event
  cases sys.can_remove e.1 <;> simp

theorem mem_selected (archs : List ArchEnum) (spaces : List Space) (f : String × String) :
    f ∈ selected archs spaces ↔
      ∃ space ∈ spaces, ∃ meta_item ∈ space.1, meta_item.1.arch ∈ archs ∧
        f = ("flux_" ++ meta_item.1.to_kernel_name ++ ".cu",
          (CodeGen.create meta_item.1 meta_item.2 space.2.1 space.2.2).gen_code) := by
  simp only [selected, List.mem_map, List.mem_flatMap, List.mem_filter, decide_eq_true_eq]
  constructor
  · rintro ⟨space, hs, m, ⟨hm, ha⟩, rfl⟩
    exact ⟨space, hs, m, hm, ha, rfl⟩
  · rintro ⟨space, hs, m, hm, ha, rfl⟩
    exact ⟨space, hs, m, ⟨hm, ha⟩, rfl⟩

/-- C6. For every list of groups and every allow-list.  When `stoi` reads every token,
with `archs` the architectures parsed, a pair of file name and rendered text is selected
if and only if it comes from an entry whose architecture is in `archs`, and in a run
that returns 0: the run is the run of the specification, which persists the selected
pairs with `write_if_changed` in enumeration order; the live-file set holds exactly the
names of the entries whose architecture is in `archs`; a manifest that is no entry of
the output directory holds exactly the lines of the live-file set; and every write or
failed write of the run is the one of a selected pair, every other effect being a
removal of a name outside the live-file set.  When `stoi` rejects a token no
architecture is parsed and no entry contributes anything. -/
theorem main_template_generates_allowed_only (sys : Sys) (options : Options)
    (spaces : List Space) (disk : Disk) :
    (∀ archs, allowed_archs options.archs = Except.ok archs →
      (∀ f, f ∈ selected archs spaces ↔
        ∃ space ∈ spaces, ∃ meta_item ∈ space.1, meta_item.1.arch ∈ archs ∧
          f = ("flux_" ++ meta_item.1.to_kernel_name ++ ".cu",
            (CodeGen.create meta_item.1 meta_item.2 space.2.1 space.2.2).gen_code)) ∧
      ((main_template sys options spaces disk).outcome = Outcome.returned 0 →
        (∃ cwd, sys.current_path options.dir = some cwd ∧
          main_template sys options spaces disk =
            run_with sys (sys.output_file_entry options.dir options.output_file) cwd archs
              spaces disk ∧
          (sys.output_file_entry options.dir options.output_file = none →
            main_template sys options spaces disk = run_of sys cwd archs spaces disk ∧
            (main_template sys options spaces disk).disk.output_file =
              some (manifest_text cwd
                (main_template sys options spaces disk).all_file_paths))) ∧
        (∀ n, n ∈ (main_template sys options spaces disk).all_file_paths ↔
          ∃ space ∈ spaces, ∃ meta_item ∈ space.1, meta_item.1.arch ∈ archs ∧
            n = "flux_" ++ meta_item.1.to_kernel_name ++ ".cu") ∧
        (∀ ev ∈ (main_template sys options spaces disk).trace,
          (∃ f ∈ selected archs spaces,
            ev = Event.wrote f.1 f.2 ∨ ev = Event.write_failed f.1) ∨
          (∃ n, n ∉ (main_template sys options spaces disk).all_file_paths ∧
            (ev = Event.removed n ∨ ev = Event.remove_failed n))))) ∧
    (∀ e, allowed_archs options.archs = Except.error e →
      main_template sys options spaces disk = Run.mk (Outcome.threw e) disk [] []) := by
  refine ⟨?_, fun e he => main_template_parse_error sys options spaces disk e he⟩
  intro archs hparse
  refine ⟨mem_selected archs spaces, ?_⟩
  intro hret
  obtain ⟨archs2, cwd, ha, ho, hc, hl, hx, hrun⟩ := main_template_returned_zero hret
  rw [hparse] at ha
  cases ha
  refine ⟨⟨cwd, hc, hrun, ?_⟩, ?_, ?_⟩
  · intro hout
    have hrun2 : main_template sys options spaces disk = run_of sys cwd archs spaces disk := by
      rw [hrun, hout, run_with_none]
    exact ⟨hrun2, by rw [hrun2]; rfl⟩
  · intro n
    rw [hrun]
    simp only [run_with, run_of]
    rw [mem_generate_paths, mem_selected_names]
  · intro ev hev
    rw [hrun] at hev ⊢
    simp only [run_with, run_of, List.mem_append] at hev ⊢
    rcases hev with hev | hev
    · rcases persist_fold_events sys (selected archs spaces) (GenState.mk [] _ []) ev hev
        with h | h
      · simp at h
      · exact Or.inl h
    · obtain ⟨n, hn, _, h⟩ := clear_old_files_events sys _ _ ev hev
      exact Or.inr ⟨n, hn, h⟩

/-- Witness of C6, the scenario of the specification: one Meta of architecture 9 and the
allow-list `8` give an empty live-file set, an empty manifest and no write, and the
`flux_M1.cu` of an earlier run is pruned. -/
theorem main_template_generates_allowed_only_witness :
    ((∀ archs, allowed_archs options_8.archs = Except.ok archs →
      (∀ f, f ∈ selected archs spaces_M1 ↔
        ∃ space ∈ spaces_M1, ∃ meta_item ∈ space.1, meta_item.1.arch ∈ archs ∧
          f = ("flux_" ++ meta_item.1.to_kernel_name ++ ".cu",
            (CodeGen.create meta_item.1 meta_item.2 space.2.1 space.2.2).gen_code)) ∧
      ((main_template sys_ok options_8 spaces_M1 disk_M1).outcome = Outcome.returned 0 →
        (∃ cwd, sys_ok.current_path options_8.dir = some cwd ∧
          main_template sys_ok options_8 spaces_M1 disk_M1 =
            run_with sys_ok (sys_ok.output_file_entry options_8.dir options_8.output_file)
              cwd archs spaces_M1 disk_M1 ∧
          (sys_ok.output_file_entry options_8.dir options_8.output_file = none →
            main_template sys_ok options_8 spaces_M1 disk_M1
              = run_of sys_ok cwd archs spaces_M1 disk_M1 ∧
            (main_template sys_ok options_8 spaces_M1 disk_M1).disk.output_file =
              some (manifest_text cwd
                (main_template sys_ok options_8 spaces_M1 disk_M1).all_file_paths))) ∧
        (∀ n, n ∈ (main_template sys_ok options_8 spaces_M1 disk_M1).all_file_paths ↔
          ∃ space ∈ spaces_M1, ∃ meta_item ∈ space.1, meta_item.1.arch ∈ archs ∧
            n = "flux_" ++ meta_item.1.to_kernel_name ++ ".cu") ∧
        (∀ ev ∈ (main_template sys_ok options_8 spaces_M1 disk_M1).trace,
          (∃ f ∈ selected archs spaces_M1,
            ev = Event.wrote f.1 f.2 ∨ ev = Event.write_failed f.1) ∨
          (∃ n, n ∉ (main_template sys_ok options_8 spaces_M1 disk_M1).all_file_paths ∧
            (ev = Event.removed n ∨ ev = Event.remove_failed n))))) ∧
    (∀ e, allowed_archs options_8.archs = Except.error e →
      main_template sys_ok options_8 spaces_M1 disk_M1
        = Run.mk (Outcome.threw e) disk_M1 [] [])) ∧
    allowed_archs options_8.archs = Except.ok [8] ∧
    selected [8] spaces_M1 = [] ∧
    main_template sys_ok options_8 spaces_M1 disk_M1 =
      Run.mk (Outcome.returned 0) (Disk.mk (some "") []) [Event.removed "flux_M1.cu"] [] ∧
    (main_template sys_ok options_9 spaces_M1 disk_M1).all_file_paths = ["flux_M1.cu"] :=
  ⟨main_template_generates_allowed_only sys_ok options_8 spaces_M1 disk_M1,
    by decide, by decide, by decide, by decide⟩

/-! ## The empty allow-list -/

/-- The content of a live file after a run in which no write failed. -/
theorem run_of_read_live (sys : Sys) (cwd : String) (archs : List ArchEnum)
    (spaces : List Space) (disk : Disk)
    (hw : ∀ ev ∈ (run_of sys cwd archs spaces disk).trace, ev.is_write_failed = false)
    (n : String) (hn : n ∈ (run_of sys cwd archs spaces disk).all_file_paths) :
    ∃ c, last_rendering (selected archs spaces) n = some c ∧
      fs_read (run_of sys cwd archs spaces disk).disk.dir n = some c := by
  simp only [run_of] at hw hn ⊢
  have hsel := (mem_generate_paths sys archs spaces disk.dir n).1 hn
  obtain ⟨c, hc, _⟩ := last_rendering_isSome hsel
  refine ⟨c, hc, ?_⟩
  rw [clear_old_files_eq]
  simp only
  rw [fs_read_filter_of_keep]
  · have hread := persist_fold_read sys (selected archs spaces) (GenState.mk [] disk.dir [])
      (fun ev hev => hw ev (List.mem_append_left _ hev)) n
    rw [hc] at hread
    simpa [generate] using hread
  · intro e _ he
    rw [he]
    simp [hn]

theorem fs_read_filter_drop (d : Dir) (keep : String × String → Bool) (n : String)
    (hk : ∀ e ∈ d, e.1 = n → keep e = false) :
    fs_read (d.filter keep) n = none := by
  induction d with
  | nil => rfl
  | cons e d ih =>
    have ih2 := ih (fun x hx => hk x (List.mem_cons_of_mem _ hx))
    by_cases he : e.1 = n
    · have : keep e = false := hk e (List.mem_cons_self _ _) he
      simp [List.filter_cons, this, ih2]
    · cases hke : keep e
      · simp [List.filter_cons, hke, ih2]
      · simp [List.filter_cons, hke, fs_read_cons, he, ih2]

/-- The content of a name outside the live-file set after a specification run: gone when
its removal succeeds, and otherwise as it was. -/
theorem run_of_read_stale (sys : Sys) (cwd : String) (archs : List ArchEnum)
    (spaces : List Space) (disk : Disk) (n : String)
    (hn : n ∉ (run_of sys cwd archs spaces disk).all_file_paths) :
    fs_read (run_of sys cwd archs spaces disk).disk.dir n =
      if sys.can_remove n = true then none else fs_read disk.dir n := by
  simp only [run_of] at hn ⊢
  have hsel : n ∉ (selected archs spaces).map Prod.fst :=
    fun h => hn ((mem_generate_paths sys archs spaces disk.dir n).2 h)
  rw [clear_old_files_eq]
  simp only
  by_cases hr : sys.can_remove n = true
  · rw [if_pos hr, fs_read_filter_drop]
    intro e _ he
    rw [he]
    simp [hn, hr]
  · rw [if_neg hr, fs_read_filter_of_keep]
    · exact persist_fold_read_other sys (selected archs spaces) (GenState.mk [] disk.dir [])
        n hsel
    · intro e _ he
      rw [he]
      simp [hr]

/-- C9. Determinism: two runs of `main_template` with the same options and groups, the
same absolute path of the output directory and the same place of the manifest, started
from any two directory contents (and under any two sets of answers of the system), that
both succeed, that is return 0 without a failed write, have the same live-file set and,
for every name of the live-file set, byte-identical file content; and they have
byte-identical manifests, provided that, when the manifest is an entry of the output
directory outside the live-file set, its removal by the pruning has the same success in
both runs (both runs remove it, or neither does). -/
theorem main_template_deterministic (sys1 sys2 : Sys) (options : Options)
    (spaces : List Space) (disk1 disk2 : Disk)
    (hcwd : sys1.current_path options.dir = sys2.current_path options.dir)
    (hentry : sys1.output_file_entry options.dir options.output_file =
      sys2.output_file_entry options.dir options.output_file)
    (hret1 : (main_template sys1 options spaces disk1).outcome = Outcome.returned 0)
    (hret2 : (main_template sys2 options spaces disk2).outcome = Outcome.returned 0)
    (hw1 : ∀ ev ∈ (main_template sys1 options spaces disk1).trace, ev.is_write_failed = false)
    (hw2 : ∀ ev ∈ (main_template sys2 options spaces disk2).trace, ev.is_write_failed = false) :
    (main_template sys1 options spaces disk1).all_file_paths =
      (main_template sys2 options spaces disk2).all_file_paths ∧
    ((∀ m, sys1.output_file_entry options.dir options.output_file = some m →
        m ∉ (main_template sys1 options spaces disk1).all_file_paths →
        sys1.can_remove m = sys2.can_remove m) →
      (main_template sys1 options spaces disk1).disk.output_file =
        (main_template sys2 options spaces disk2).disk.output_file) ∧
    ∀ n ∈ (main_template sys1 options spaces disk1).all_file_paths,
      ∃ c, fs_read (main_template sys1 options spaces disk1).disk.dir n = some c ∧
        fs_read (main_template sys2 options spaces disk2).disk.dir n = some c := by
  obtain ⟨archs, cwd, ha, ho1, hc1, hl1, hx1, hrun1⟩ := main_template_returned_zero hret1
  obtain ⟨archs2, cwd2, ha2, ho2, hc2, hl2, hx2, hrun2⟩ := main_template_returned_zero hret2
  rw [ha] at ha2
  cases ha2
  rw [← hcwd, hc1] at hc2
  cases hc2
  rw [← hentry] at hrun2
  rw [hrun1] at hw1 ⊢
  rw [hrun2] at hw2 ⊢
  generalize sys1.output_file_entry options.dir options.output_file = entry at *
  have hp : (run_of sys1 cwd archs spaces (open_manifest entry disk1)).all_file_paths =
      (run_of sys2 cwd archs spaces (open_manifest entry disk2)).all_file_paths :=
    generate_paths_indep sys1 sys2 archs spaces _ _
  have hlive : ∀ n ∈ (run_of sys1 cwd archs spaces (open_manifest entry disk1)).all_file_paths,
      ∃ c, fs_read (run_of sys1 cwd archs spaces (open_manifest entry disk1)).disk.dir n
          = some c ∧
        fs_read (run_of sys2 cwd archs spaces (open_manifest entry disk2)).disk.dir n
          = some c := by
    intro n hn
    obtain ⟨c, hc, hr1⟩ := run_of_read_live sys1 cwd archs spaces _ hw1 n hn
    obtain ⟨c2, hc2, hr2⟩ := run_of_read_live sys2 cwd archs spaces _ hw2 n (hp ▸ hn)
    rw [hc] at hc2
    cases hc2
    exact ⟨c, hr1, hr2⟩
  refine ⟨hp, ?_, ?_⟩
  · intro hrm
    show (close_manifest entry _ _).output_file = (close_manifest entry _ _).output_file
    rw [close_manifest_output_file, close_manifest_output_file, hp]
    cases entry with
    | none => rfl
    | some m =>
      simp only
      by_cases hm : m ∈ (run_of sys1 cwd archs spaces (open_manifest (some m) disk1)).all_file_paths
      · obtain ⟨c, hr1, hr2⟩ := hlive m hm
        rw [hr1, hr2]
      · have hm2 : m ∉
            (run_of sys2 cwd archs spaces (open_manifest (some m) disk2)).all_file_paths := by
          rw [← hp]; exact hm
        rw [run_of_read_stale sys1 cwd archs spaces _ m hm,
          run_of_read_stale sys2 cwd archs spaces _ m hm2, hrm m rfl hm]
        simp only [open_manifest, fs_read_write_same]
  · intro n hn
    obtain ⟨c, hr1, hr2⟩ := hlive n hn
    refine ⟨if entry = some n then
        overlay (manifest_text cwd
          (run_of sys1 cwd archs spaces (open_manifest entry disk1)).all_file_paths) c
      else c, ?_, ?_⟩
    · show fs_read (close_manifest entry _ _).dir n = _
      rw [close_manifest_read, hr1]
      by_cases he : entry = some n <;> simp [he]
    · show fs_read (close_manifest entry _ _).dir n = _
      rw [close_manifest_read, hr2, hp]
      by_cases he : entry = some n <;> simp [he]

/-- Witness of C9: the same options and groups, run on a directory with three files and
on an empty directory. -/
theorem main_template_deterministic_witness :
    (main_template sys_ok options_80_89 spaces_ABC disk_stale).all_file_paths =
      (main_template sys_ok options_80_89 spaces_ABC (Disk.mk none [])).all_file_paths ∧
    ((∀ m, sys_ok.output_file_entry options_80_89.dir options_80_89.output_file = some m →
        m ∉ (main_template sys_ok options_80_89 spaces_ABC disk_stale).all_file_paths →
        sys_ok.can_remove m = sys_ok.can_remove m) →
      (main_template sys_ok options_80_89 spaces_ABC disk_stale).disk.output_file =
        (main_template sys_ok options_80_89 spaces_ABC (Disk.mk none [])).disk.output_file) ∧
    ∀ n ∈ (main_template sys_ok options_80_89 spaces_ABC disk_stale).all_file_paths,
      ∃ c, fs_read (main_template sys_ok options_80_89 spaces_ABC disk_stale).disk.dir n
          = some c ∧
        fs_read (main_template sys_ok options_80_89 spaces_ABC (Disk.mk none [])).disk.dir n
          = some c :=
  main_template_deterministic sys_ok sys_ok options_80_89 spaces_ABC disk_stale
    (Disk.mk none []) rfl rfl (by decide) (by decide) (by decide) (by decide)

/-! ## Failing fast -/

/-- C10, as amended. For an allow-list every token of which `stoi` reads: when the
manifest cannot be opened the run returns 1 and the disk is as it was; when it opens but
the output directory cannot be entered the run ends with an uncaught `filesystem_error`,
the manifest having been created or emptied by the open and nothing else having
happened; in both cases the run has written no generated file and removed nothing.  When
the manifest opens, the directory is entered and can be listed, and no call of
`write_if_changed` throws, the run returns 0.  For an allow-list with a token that
`stoi` rejects the run ends with the exception of `stoi`, the disk being as it was. -/
theorem main_template_fail_fast (sys : Sys) (options : Options) (spaces : List Space)
    (disk : Disk) :
    (∀ archs, allowed_archs options.archs = Except.ok archs →
      (sys.open_output_file options.output_file = false →
        main_template sys options spaces disk = Run.mk (Outcome.returned 1) disk [] []) ∧
      (sys.open_output_file options.output_file = true →
        sys.current_path options.dir = none →
        main_template sys options spaces disk =
          Run.mk (Outcome.threw Exception.filesystem_error)
            (open_manifest (sys.output_file_entry options.dir options.output_file) disk)
            [] [] ∧
        (sys.output_file_entry options.dir options.output_file = none →
          main_template sys options spaces disk =
            Run.mk (Outcome.threw Exception.filesystem_error) (Disk.mk (some "") disk.dir)
              [] [])) ∧
      (sys.open_output_file options.output_file = true →
        sys.current_path options.dir ≠ none → sys.can_list = true →
        (∀ f ∈ selected archs spaces, ∀ d, write_if_changed_throws sys f.1 d = none) →
        (main_template sys options spaces disk).outcome = Outcome.returned 0)) ∧
    (∀ e, allowed_archs options.archs = Except.error e →
      main_template sys options spaces disk = Run.mk (Outcome.threw e) disk [] []) := by
  refine ⟨?_, fun e he => main_template_parse_error sys options spaces disk e he⟩
  intro archs hparse
  refine ⟨?_, ?_, ?_⟩
  · exact fun ho => main_template_no_manifest sys options spaces disk archs hparse ho
  · intro ho hc
    have h := main_template_no_dir sys options spaces disk archs hparse ho hc
    refine ⟨h, ?_⟩
    intro hout
    rw [h, hout]
    rfl
  · intro ho hc hl hcalls
    cases hcp : sys.current_path options.dir with
    | none => exact absurd hcp hc
    | some cwd =>
      have hg := checked_fold_ok sys (selected archs spaces)
        (GenState.mk []
          (open_manifest (sys.output_file_entry options.dir options.output_file) disk).dir [])
        hcalls
      rw [main_template_run sys options spaces disk archs cwd hparse ho hcp (by rw [hg]) hl]
      rfl

/-- Witness of C10 as amended, with the allow-list `80;89`: a manifest that cannot be
opened, the run returns 1 and the three files are still there; a directory that cannot
be entered, the run throws and the three files are still there; and a system in which
all goes well, the run returns 0. -/
theorem main_template_fail_fast_witness :
    ((∀ archs, allowed_archs options_80_89.archs = Except.ok archs →
      (sys_no_manifest.open_output_file options_80_89.output_file = false →
        main_template sys_no_manifest options_80_89 spaces_ABC disk_stale
          = Run.mk (Outcome.returned 1) disk_stale [] []) ∧
      (sys_no_manifest.open_output_file options_80_89.output_file = true →
        sys_no_manifest.current_path options_80_89.dir = none →
        main_template sys_no_manifest options_80_89 spaces_ABC disk_stale =
          Run.mk (Outcome.threw Exception.filesystem_error)
            (open_manifest
              (sys_no_manifest.output_file_entry options_80_89.dir options_80_89.output_file)
              disk_stale) [] [] ∧
        (sys_no_manifest.output_file_entry options_80_89.dir options_80_89.output_file = none →
          main_template sys_no_manifest options_80_89 spaces_ABC disk_stale =
            Run.mk (Outcome.threw Exception.filesystem_error)
              (Disk.mk (some "") disk_stale.dir) [] [])) ∧
      (sys_no_manifest.open_output_file options_80_89.output_file = true →
        sys_no_manifest.current_path options_80_89.dir ≠ none →
        sys_no_manifest.can_list = true →
        (∀ f ∈ selected archs spaces_ABC, ∀ d,
          write_if_changed_throws sys_no_manifest f.1 d = none) →
        (main_template sys_no_manifest options_80_89 spaces_ABC disk_stale).outcome
          = Outcome.returned 0)) ∧
    (∀ e, allowed_archs options_80_89.archs = Except.error e →
      main_template sys_no_manifest options_80_89 spaces_ABC disk_stale
        = Run.mk (Outcome.threw e) disk_stale [] [])) ∧
    allowed_archs options_80_89.archs = Except.ok [89, 80] ∧
    main_template sys_no_manifest options_80_89 spaces_ABC disk_stale
      = Run.mk (Outcome.returned 1) disk_stale [] [] ∧
    main_template sys_no_dir options_80_89 spaces_ABC disk_stale
      = Run.mk (Outcome.threw Exception.filesystem_error)
          (Disk.mk (some "") disk_stale.dir) [] [] ∧
    (main_template sys_ok options_80_89 spaces_ABC disk_stale).outcome = Outcome.returned 0 :=
  ⟨main_template_fail_fast sys_no_manifest options_80_89 spaces_ABC disk_stale,
    by decide, by decide, by decide, by decide⟩

/-- Counterexample to C10 as stated.  The allow-list `abc`: with a manifest that cannot be
opened the run does not return 1, and with a manifest that opens and a directory that is
entered it does not return 0; in both `stoi` throws `invalid_argument` before the
manifest is opened.  A directory that is entered but cannot be listed: the run writes
`flux_M1.cu` and then ends with the `filesystem_error` of the listing.  A live name that
is a directory (an entry without bytes whose stream opens and whose read throws): the
run ends with the `ios_base::failure` of the read. -/
theorem main_template_fail_fast_counterexample :
    (sys_no_manifest.open_output_file options_abc.output_file = false ∧
      (main_template sys_no_manifest options_abc spaces_M1 disk_M1).outcome
        ≠ Outcome.returned 1 ∧
      (main_template sys_no_manifest options_abc spaces_M1 disk_M1).outcome
        = Outcome.threw Exception.invalid_argument) ∧
    (sys_ok.open_output_file options_abc.output_file = true ∧
      sys_ok.current_path options_abc.dir = some "/out" ∧
      (main_template sys_ok options_abc spaces_M1 disk_M1).outcome ≠ Outcome.returned 0 ∧
      (main_template sys_ok options_abc spaces_M1 disk_M1).outcome
        = Outcome.threw Exception.invalid_argument) ∧
    (sys_no_list.open_output_file options_9.output_file = true ∧
      sys_no_list.current_path options_9.dir = some "/out" ∧
      (main_template sys_no_list options_9 spaces_M1 (Disk.mk none [])).outcome
        = Outcome.threw Exception.filesystem_error ∧
      (main_template sys_no_list options_9 spaces_M1 (Disk.mk none [])).disk.dir.names
        = ["flux_M1.cu"]) ∧
    (sys_dir_entry.open_output_file options_9.output_file = true ∧
      sys_dir_entry.current_path options_9.dir = some "/out" ∧
      sys_dir_entry.can_list = true ∧
      (main_template sys_dir_entry options_9 spaces_M1
          (Disk.mk none [("flux_M1.cu", "")])).outcome
        = Outcome.threw Exception.ios_failure) := by
  decide

/-! ## Running twice -/

theorem write_if_changed_read_writable (sys : Sys) (d : Dir) (p c : String)
    (hw : sys.can_write p = true) : fs_read (write_if_changed sys p c d).1 p = some c := by
  rcases write_if_changed_cases sys d p c with h | h | h
  · rw [h.1]; exact h.2.1
  · rw [h.1]; exact fs_read_write_same d p c
  · rw [h.2.1] at hw; cases hw

/-- After the generation, every selected file that can be opened for writing holds its
text, provided entries of one name agree on the text. -/
theorem persist_fold_settles (sys : Sys) (l : List (String × String)) (st : GenState)
    (hcons : ∀ f ∈ l, ∀ g ∈ l, f.1 = g.1 → f.2 = g.2) :
    ∀ f ∈ l, sys.can_write f.1 = true →
      fs_read (l.foldl (persist sys) st).dir f.1 = some f.2 := by
  induction l using List.reverseRecOn with
  | nil => intro f hf; cases hf
  | append_singleton l g ih =>
    intro f hf hw
    rw [persist_fold_snoc, persist_dir]
    by_cases hfg : f.1 = g.1
    · have h2 : f.2 = g.2 := hcons f hf g (by simp) hfg
      rw [hfg, h2]
      exact write_if_changed_read_writable sys _ g.1 g.2 (hfg ▸ hw)
    · rw [write_if_changed_read_other sys _ g.1 g.2 f.1 hfg]
      have hfl : f ∈ l := by
        rcases List.mem_append.1 hf with h | h
        · exact h
        · simp at h; rw [h] at hfg; exact absurd rfl hfg
      exact ih (fun a ha b hb => hcons a (List.mem_append_left _ ha) b
        (List.mem_append_left _ hb)) f hfl hw

/-- A generation over a directory in which every writable selected file already holds its
text, and can be read, changes nothing. -/
theorem persist_fold_idle (sys : Sys) (l : List (String × String)) (st : GenState)
    (hread : ∀ f ∈ l, sys.can_read f.1 = true)
    (hset : ∀ f ∈ l, sys.can_write f.1 = true → fs_read st.dir f.1 = some f.2) :
    (l.foldl (persist sys) st).dir = st.dir ∧
      (l.foldl (persist sys) st).all_file_paths =
        l.foldl (fun acc f => set_emplace f.1 acc) st.all_file_paths ∧
      ∀ ev ∈ (l.foldl (persist sys) st).trace, ev ∈ st.trace ∨ ev.is_effect = false := by
  induction l using List.reverseRecOn with
  | nil => exact ⟨rfl, rfl, fun ev hev => Or.inl hev⟩
  | append_singleton l g ih =>
    have ih2 := ih (fun f hf => hread f (List.mem_append_left _ hf))
      (fun f hf => hset f (List.mem_append_left _ hf))
    have hg : g ∈ l ++ [g] := by simp
    refine ⟨?_, persist_fold_paths sys _ st, ?_⟩
    · rw [persist_fold_snoc, persist_dir, ih2.1]
      rcases write_if_changed_cases sys st.dir g.1 g.2 with h | h | h
      · rw [h.1]
      · exfalso
        rcases h.2.2 with h3 | h3
        · exact h3 (hset g hg h.2.1)
        · rw [hread g hg] at h3; cases h3
      · rw [h.1]
    · intro ev hev
      rw [persist_fold_snoc, persist_trace, List.mem_append] at hev
      rcases hev with hev | hev
      · exact ih2.2.2 ev hev
      · rw [ih2.1] at hev
        rcases write_if_changed_cases sys st.dir g.1 g.2 with h | h | h
        · rw [h.1] at hev; simp at hev
        · exfalso
          rcases h.2.2 with h3 | h3
          · exact h3 (hset g hg h.2.1)
          · rw [hread g hg] at h3; cases h3
        · rw [h.1] at hev
          simp at hev
          right; rw [hev]; rfl

theorem filter_keep_idem (d : Dir) (keep : String × String → Bool) :
    (d.filter keep).filter keep = d.filter keep := by
  rw [List.filter_filter]
  apply List.filter_congr
  intro x _
  cases keep x <;> rfl

/-- A second run over the state the first one left: no effect and the same state. -/
theorem run_of_twice (sys : Sys) (cwd : String) (archs : List ArchEnum) (spaces : List Space)
    (disk : Disk)
    (hcons : ∀ f ∈ selected archs spaces, ∀ g ∈ selected archs spaces, f.1 = g.1 → f.2 = g.2)
    (hread : ∀ f ∈ selected archs spaces, sys.can_read f.1 = true) :
    (∀ ev ∈ (run_of sys cwd archs spaces (run_of sys cwd archs spaces disk).disk).trace,
        ev.is_effect = false) ∧
      (run_of sys cwd archs spaces (run_of sys cwd archs spaces disk).disk).disk =
        (run_of sys cwd archs spaces disk).disk := by
  have hlive : ∀ f ∈ selected archs spaces,
      f.1 ∈ (generate sys archs spaces disk.dir).all_file_paths := fun f hf =>
    (mem_generate_paths sys archs spaces disk.dir f.1).2 (List.mem_map_of_mem Prod.fst hf)
  have hset1 := persist_fold_settles sys (selected archs spaces) (GenState.mk [] disk.dir [])
    hcons
  have hd1 : (run_of sys cwd archs spaces disk).disk.dir =
      (generate sys archs spaces disk.dir).dir.filter (fun e =>
        decide (e.1 ∈ (generate sys archs spaces disk.dir).all_file_paths)
          || !sys.can_remove e.1) := by
    simp only [run_of, clear_old_files_eq]
  have hset2 : ∀ f ∈ selected archs spaces, sys.can_write f.1 = true →
      fs_read (run_of sys cwd archs spaces disk).disk.dir f.1 = some f.2 := by
    intro f hf hw
    rw [hd1, fs_read_filter_of_keep]
    · exact hset1 f hf hw
    · intro e _ he
      rw [he]
      simp [hlive f hf]
  have hidle := persist_fold_idle sys (selected archs spaces)
    (GenState.mk [] (run_of sys cwd archs spaces disk).disk.dir []) hread hset2
  have hgd : (generate sys archs spaces (run_of sys cwd archs spaces disk).disk.dir).dir =
      (run_of sys cwd archs spaces disk).disk.dir := hidle.1
  have hgp : (generate sys archs spaces (run_of sys cwd archs spaces disk).disk.dir).all_file_paths
      = (generate sys archs spaces disk.dir).all_file_paths :=
    generate_paths_indep sys sys archs spaces _ _
  have hclr : clear_old_files sys (generate sys archs spaces disk.dir).all_file_paths
      (run_of sys cwd archs spaces disk).disk.dir =
      ((run_of sys cwd archs spaces disk).disk.dir,
        ((run_of sys cwd archs spaces disk).disk.dir.filter (fun e =>
          decide (e.1 ∉ (generate sys archs spaces disk.dir).all_file_paths))).map
          (fun e => clear_event sys e.1)) := by
    rw [clear_old_files_eq]
    refine Prod.ext ?_ rfl
    show List.filter _ (run_of sys cwd archs spaces disk).disk.dir = _
    rw [hd1]
    exact filter_keep_idem _ _
  constructor
  · intro ev hev
    have hev2 : ev ∈ (generate sys archs spaces (run_of sys cwd archs spaces disk).disk.dir).trace
        ++ (clear_old_files sys (generate sys archs spaces disk.dir).all_file_paths
          (run_of sys cwd archs spaces disk).disk.dir).2 := by
      have : (run_of sys cwd archs spaces (run_of sys cwd archs spaces disk).disk).trace =
          (generate sys archs spaces (run_of sys cwd archs spaces disk).disk.dir).trace
          ++ (clear_old_files sys (generate sys archs spaces disk.dir).all_file_paths
            (run_of sys cwd archs spaces disk).disk.dir).2 := by
        show _ ++ _ = _
        rw [hgp, hgd]
      rw [← this]; exact hev
    rcases List.mem_append.1 hev2 with h | h
    · rcases hidle.2.2 ev h with h2 | h2
      · simp at h2
      · exact h2
    · rw [hclr] at h
      simp only [List.mem_map, List.mem_filter, decide_eq_true_eq] at h
      obtain ⟨e, ⟨he, hl⟩, rfl⟩ := h
      rw [hd1] at he
      have hk := (List.mem_filter.1 he).2
      have hr : sys.can_remove e.1 = false := by simpa [hl] using hk
      simp [clear_event, hr, Event.is_effect]
  · show Disk.mk _ _ = Disk.mk _ _
    rw [hgp, hgd, hclr]
    rfl

/-- Generating twice in a row: the second generation changes nothing. -/
theorem persist_fold_twice (sys : Sys) (l : List (String × String)) (d : Dir)
    (hcons : ∀ f ∈ l, ∀ g ∈ l, f.1 = g.1 → f.2 = g.2)
    (hread : ∀ f ∈ l, sys.can_read f.1 = true) :
    (l.foldl (persist sys)
        (GenState.mk [] (l.foldl (persist sys) (GenState.mk [] d [])).dir [])).dir =
      (l.foldl (persist sys) (GenState.mk [] d [])).dir ∧
    (l.foldl (persist sys)
        (GenState.mk [] (l.foldl (persist sys) (GenState.mk [] d [])).dir [])).all_file_paths =
      (l.foldl (persist sys) (GenState.mk [] d [])).all_file_paths ∧
    ∀ ev ∈ (l.foldl (persist sys)
        (GenState.mk [] (l.foldl (persist sys) (GenState.mk [] d [])).dir [])).trace,
      ev.is_effect = false := by
  have hset := persist_fold_settles sys l (GenState.mk [] d []) hcons
  have hidle := persist_fold_idle sys l
    (GenState.mk [] (l.foldl (persist sys) (GenState.mk [] d [])).dir []) hread hset
  refine ⟨hidle.1, ?_, ?_⟩
  · rw [persist_fold_paths, persist_fold_paths]
  · intro ev hev
    rcases hidle.2.2 ev hev with h | h
    · simp at h
    · exact h

/-- A generation that an exception may end, run again over the directory it left: it ends
the same way and changes nothing. -/
theorem checked_fold_twice (sys : Sys) (sel : List (String × String)) (d : Dir)
    (hcons : ∀ f ∈ sel, ∀ g ∈ sel, f.1 = g.1 → f.2 = g.2)
    (hread : ∀ n ∈ (sel.foldl (persist_checked sys) (GenState.mk [] d [], none)).1.all_file_paths,
      sys.can_read n = true) :
    (sel.foldl (persist_checked sys)
      (GenState.mk [] (sel.foldl (persist_checked sys) (GenState.mk [] d [], none)).1.dir [],
        none)).2 = (sel.foldl (persist_checked sys) (GenState.mk [] d [], none)).2 ∧
    (sel.foldl (persist_checked sys)
      (GenState.mk [] (sel.foldl (persist_checked sys) (GenState.mk [] d [], none)).1.dir [],
        none)).1.dir = (sel.foldl (persist_checked sys) (GenState.mk [] d [], none)).1.dir ∧
    (sel.foldl (persist_checked sys)
      (GenState.mk [] (sel.foldl (persist_checked sys) (GenState.mk [] d [], none)).1.dir [],
        none)).1.all_file_paths =
      (sel.foldl (persist_checked sys) (GenState.mk [] d [], none)).1.all_file_paths ∧
    ∀ ev ∈ (sel.foldl (persist_checked sys)
      (GenState.mk [] (sel.foldl (persist_checked sys) (GenState.mk [] d [], none)).1.dir [],
        none)).1.trace, ev.is_effect = false := by
  rcases checked_fold_cases sys sel (GenState.mk [] d []) with
    ⟨h1, h2⟩ | ⟨pre, f, post, e, hs, hp, hthrow, hr⟩
  · rw [h1] at hread ⊢
    have hread2 : ∀ f ∈ sel, sys.can_read f.1 = true := by
      intro f hf
      apply hread
      show f.1 ∈ (sel.foldl (persist sys) (GenState.mk [] d [])).all_file_paths
      rw [persist_fold_paths, mem_emplace_fold]
      exact Or.inr (List.mem_map_of_mem Prod.fst hf)
    have hcalls : ∀ f ∈ sel, ∀ d2, write_if_changed_throws sys f.1 d2 = none :=
      fun f hf d2 => write_if_changed_throws_readable sys f.1 d2 (h2 f hf) (hread2 f hf)
    rw [checked_fold_ok sys sel _ hcalls]
    have h3 := persist_fold_twice sys sel d hcons hread2
    exact ⟨rfl, h3.1, h3.2.1, h3.2.2⟩
  · rw [hr] at hread ⊢
    simp only at hread ⊢
    have hpre : ∀ g ∈ pre, g ∈ sel := fun g hg => by rw [hs]; exact List.mem_append_left _ hg
    have hreadf : sys.can_read f.1 = true := hread f.1 (mem_set_emplace.2 (Or.inl rfl))
    have hread2 : ∀ g ∈ pre, sys.can_read g.1 = true := by
      intro g hg
      apply hread
      refine mem_set_emplace.2 (Or.inr ?_)
      rw [persist_fold_paths, mem_emplace_fold]
      exact Or.inr (List.mem_map_of_mem Prod.fst hg)
    have hxf : sys.exists_throws f.1 = true ∧ e = Exception.filesystem_error := by
      unfold write_if_changed_throws at hthrow
      cases hx : sys.exists_throws f.1 with
      | true =>
        rw [hx] at hthrow
        simp only [if_true] at hthrow
        exact ⟨rfl, (Option.some.inj hthrow).symm⟩
      | false => simp [hx, hreadf] at hthrow
    have hcalls : ∀ g ∈ pre, ∀ d2, write_if_changed_throws sys g.1 d2 = none :=
      fun g hg d2 => write_if_changed_throws_readable sys g.1 d2 (hp g hg) (hread2 g hg)
    have h3 := persist_fold_twice sys pre d
      (fun a ha b hb => hcons a (hpre a ha) b (hpre b hb)) hread2
    have hf2 : ∀ st2 : GenState, persist_checked sys (st2, none) f =
        (GenState.mk (set_emplace f.1 st2.all_file_paths) st2.dir st2.trace, some e) := by
      intro st2
      have : write_if_changed_throws sys f.1 st2.dir = some e := by
        simp [write_if_changed_throws, hxf.1, hxf.2]
      simp only [persist_checked, this]
    have hsecond : sel.foldl (persist_checked sys)
        (GenState.mk [] (pre.foldl (persist sys) (GenState.mk [] d [])).dir [], none) =
        (GenState.mk
          (set_emplace f.1 (pre.foldl (persist sys)
            (GenState.mk [] (pre.foldl (persist sys) (GenState.mk [] d [])).dir [])).all_file_paths)
          (pre.foldl (persist sys)
            (GenState.mk [] (pre.foldl (persist sys) (GenState.mk [] d [])).dir [])).dir
          (pre.foldl (persist sys)
            (GenState.mk [] (pre.foldl (persist sys) (GenState.mk [] d [])).dir [])).trace,
          some e) := by
      rw [hs, List.foldl_append, checked_fold_ok sys pre _ hcalls, List.foldl_cons, hf2,
        checked_fold_some]
    rw [hsecond]
    exact ⟨rfl, h3.1, by rw [h3.2.1], h3.2.2⟩

/-- C8, as amended. When `main_template` is run twice in succession with the same options,
groups and answers of the system, and the manifest is no entry of the output directory,
and the selected entries that share a file name share their rendered text, and every
file of the live-file set can be opened for reading, the second run ends as the first
did and has no effect on the output directory (nothing is written, nothing is removed),
and the state after the second run equals the state after the first. -/
theorem main_template_second_run_idle (sys : Sys) (options : Options) (spaces : List Space)
    (disk : Disk)
    (hout : sys.output_file_entry options.dir options.output_file = none)
    (hcons : ∀ archs, allowed_archs options.archs = Except.ok archs →
      ∀ f ∈ selected archs spaces, ∀ g ∈ selected archs spaces, f.1 = g.1 → f.2 = g.2)
    (hread : ∀ n ∈ (main_template sys options spaces disk).all_file_paths,
      sys.can_read n = true) :
    (main_template sys options spaces (main_template sys options spaces disk).disk).outcome
      = (main_template sys options spaces disk).outcome ∧
    (∀ ev ∈ (main_template sys options spaces
        (main_template sys options spaces disk).disk).trace, ev.is_effect = false) ∧
    (main_template sys options spaces (main_template sys options spaces disk).disk).disk =
      (main_template sys options spaces disk).disk := by
  cases ha : allowed_archs options.archs with
  | error e =>
    simp only [main_template_parse_error sys options spaces _ e ha]
    exact ⟨trivial, fun ev hev => absurd hev (List.not_mem_nil ev), trivial⟩
  | ok archs =>
    cases ho : sys.open_output_file options.output_file with
    | false =>
      simp only [main_template_no_manifest sys options spaces _ archs ha ho]
      exact ⟨trivial, fun ev hev => absurd hev (List.not_mem_nil ev), trivial⟩
    | true =>
      cases hc : sys.current_path options.dir with
      | none =>
        simp only [main_template_no_dir sys options spaces _ archs ha ho hc, hout]
        exact ⟨trivial, fun ev hev => absurd hev (List.not_mem_nil ev), rfl⟩
      | some cwd =>
        have hopen : ∀ dk : Disk,
            (open_manifest (sys.output_file_entry options.dir options.output_file) dk).dir
              = dk.dir := by
          intro dk; rw [hout]; rfl
        cases hfold : (selected archs spaces).foldl (persist_checked sys)
            (GenState.mk [] disk.dir [], none) with
        | mk stx o =>
          have h2 := checked_fold_twice sys (selected archs spaces) disk.dir (hcons archs ha)
          rw [hfold] at h2
          simp only at h2
          cases o with
          | some e =>
            have hfirst := main_template_gen_throw sys options spaces disk archs cwd e stx
              ha ho hc (by rw [hopen]; exact hfold)
            rw [hfirst] at hread ⊢
            simp only at hread
            obtain ⟨h21, h22, h23, h24⟩ := h2 hread
            cases hfold2 : (selected archs spaces).foldl (persist_checked sys)
                (GenState.mk [] stx.dir [], none) with
            | mk sty o2 =>
              rw [hfold2] at h21 h22 h23 h24
              simp only at h21 h22 h23 h24
              rw [h21] at hfold2
              have hsecond := main_template_gen_throw sys options spaces
                (close_manifest (sys.output_file_entry options.dir options.output_file) ""
                  stx.dir) archs cwd e sty ha ho hc
                (by rw [hopen, hout]; exact hfold2)
              rw [hsecond]
              refine ⟨rfl, h24, ?_⟩
              rw [hout]
              show Disk.mk (some "") sty.dir = Disk.mk (some "") stx.dir
              rw [h22]
          | none =>
            cases hl : sys.can_list with
            | false =>
              have hfirst := main_template_no_list sys options spaces disk archs cwd stx
                ha ho hc (by rw [hopen]; exact hfold) hl
              rw [hfirst] at hread ⊢
              simp only at hread
              obtain ⟨h21, h22, h23, h24⟩ := h2 hread
              cases hfold2 : (selected archs spaces).foldl (persist_checked sys)
                  (GenState.mk [] stx.dir [], none) with
              | mk sty o2 =>
                rw [hfold2] at h21 h22 h23 h24
                simp only at h21 h22 h23 h24
                rw [h21] at hfold2
                have hsecond := main_template_no_list sys options spaces
                  (close_manifest (sys.output_file_entry options.dir options.output_file)
                    (sys.flushed (manifest_text cwd stx.all_file_paths)) stx.dir)
                  archs cwd sty ha ho hc (by rw [hopen, hout]; exact hfold2) hl
                rw [hsecond]
                refine ⟨rfl, h24, ?_⟩
                rw [hout]
                show Disk.mk (some _) sty.dir = Disk.mk (some _) stx.dir
                rw [h22, h23]
            | true =>
              have hg : ((selected archs spaces).foldl (persist_checked sys)
                  (GenState.mk []
                    (open_manifest (sys.output_file_entry options.dir options.output_file)
                      disk).dir [], none)).2 = none := by
                rw [hopen, hfold]
              have hx := (checked_fold_none sys _ _ hg).2
              have hrun : main_template sys options spaces disk
                  = run_of sys cwd archs spaces disk := by
                rw [main_template_run sys options spaces disk archs cwd ha ho hc hg hl, hout,
                  run_with_none]
              rw [hrun] at hread
              have hread2 : ∀ f ∈ selected archs spaces, sys.can_read f.1 = true := by
                intro f hf
                apply hread
                exact (mem_generate_paths sys archs spaces disk.dir f.1).2
                  (List.mem_map_of_mem Prod.fst hf)
              have hcalls : ∀ f ∈ selected archs spaces, ∀ d,
                  write_if_changed_throws sys f.1 d = none :=
                fun f hf d =>
                  write_if_changed_throws_readable sys f.1 d (hx f hf) (hread2 f hf)
              simp only [main_template_ok sys options spaces _ archs cwd ha ho hc hout hl
                hcalls]
              have h3 := run_of_twice sys cwd archs spaces disk (hcons archs ha) hread2
              exact ⟨rfl, h3.1, h3.2⟩

/-- Witness of C8 as amended: the pruning scenario, run twice. -/
theorem main_template_second_run_idle_witness :
    (sys_ok.output_file_entry options_80_89.dir options_80_89.output_file = none ∧
      (∀ n ∈ (main_template sys_ok options_80_89 spaces_ABC disk_stale).all_file_paths,
        sys_ok.can_read n = true)) ∧
    ((main_template sys_ok options_80_89 spaces_ABC
        (main_template sys_ok options_80_89 spaces_ABC disk_stale).disk).outcome
      = (main_template sys_ok options_80_89 spaces_ABC disk_stale).outcome ∧
    (∀ ev ∈ (main_template sys_ok options_80_89 spaces_ABC
        (main_template sys_ok options_80_89 spaces_ABC disk_stale).disk).trace,
        ev.is_effect = false) ∧
    (main_template sys_ok options_80_89 spaces_ABC
        (main_template sys_ok options_80_89 spaces_ABC disk_stale).disk).disk =
      (main_template sys_ok options_80_89 spaces_ABC disk_stale).disk) ∧
    (main_template sys_ok options_80_89 spaces_ABC disk_stale).outcome = Outcome.returned 0 :=
  ⟨⟨rfl, by decide⟩,
    main_template_second_run_idle sys_ok options_80_89 spaces_ABC disk_stale rfl
      (by
        intro archs ha
        have h2 : allowed_archs options_80_89.archs = Except.ok [89, 80] := by decide
        rw [h2] at ha
        cases ha
        intro f hf g hg hfg
        have hnd : ((selected [89, 80] spaces_ABC).map Prod.fst).Nodup := by decide
        rw [List.inj_on_of_nodup_map hnd hf hg hfg])
      (by decide),
    by decide⟩

/-- Counterexample to C8 as stated. Two selected entries named `flux_A.cu` with different
texts: the second run, started from the state the first one left, writes the file twice
again. A file that cannot be opened for reading: the second run writes it again although
it holds the very text. And a manifest inside the output directory: each run creates it
there and `clear_old_files` removes it, so the second run removes an entry again. -/
theorem main_template_second_run_idle_counterexample :
    (main_template sys_ok options_80 spaces_dup
        (main_template sys_ok options_80 spaces_dup (Disk.mk none [])).disk).trace.map
          Event.is_effect = [true, true] ∧
    (main_template sys_unreadable options_9 spaces_M1
        (main_template sys_unreadable options_9 spaces_M1 (Disk.mk none [])).disk).trace.map
          Event.is_effect = [true] ∧
    (main_template sys_inside options_inside spaces_M1 (Disk.mk none [])).outcome
      = Outcome.returned 0 ∧
    (main_template sys_inside options_inside spaces_M1
        (main_template sys_inside options_inside spaces_M1 (Disk.mk none [])).disk).trace
      = [Event.removed "generated_ops.txt"] := by
  refine ⟨by decide, by decide, by decide, ?_⟩
  decide!

/-! ## Malformed allow-lists -/

theorem collect_archs_error (toks : List String) (acc : List ArchEnum)
    (hbad : ∃ tok ∈ toks, ∃ e, stoi tok = Except.error e) :
    ∃ e, collect_archs toks acc = Except.error e ∧ ∃ tok ∈ toks, stoi tok = Except.error e := by
  induction toks generalizing acc with
  | nil => obtain ⟨tok, h, _⟩ := hbad; cases h
  | cons t toks ih =>
    cases ht : stoi t with
    | error e => exact ⟨e, by simp [collect_archs, ht], t, by simp, ht⟩
    | ok v =>
      obtain ⟨tok, hmem, e, he⟩ := hbad
      have hmem2 : tok ∈ toks := by
        rcases List.mem_cons.1 hmem with h | h
        · rw [h, ht] at he; cases he
        · exact h
      obtain ⟨e2, h1, tok2, h2, h3⟩ := ih (acc.insert v) ⟨tok, hmem2, e, he⟩
      exact ⟨e2, by simpa [collect_archs, ht] using h1, tok2, List.mem_cons_of_mem _ h2, h3⟩

/-- C11, as amended. For every allow-list with a token from which `stoi` reads no number
(no decimal digit after the optional white space and sign, or a value outside `int`),
`main_template` ends with the exception `stoi` throws for such a token, before the
manifest is opened and with nothing written or pruned: the disk is as it was and the run
has no effect. -/
theorem main_template_rejects_unread_token (sys : Sys) (options : Options)
    (spaces : List Space) (disk : Disk)
    (hbad : ∃ tok ∈ parse_semicolon_seperated options.archs, ∃ e, stoi tok = Except.error e) :
    ∃ e, main_template sys options spaces disk = Run.mk (Outcome.threw e) disk [] [] ∧
      ∃ tok ∈ parse_semicolon_seperated options.archs, stoi tok = Except.error e := by
  obtain ⟨e, h1, h2⟩ := collect_archs_error (parse_semicolon_seperated options.archs) [] hbad
  exact ⟨e, main_template_parse_error sys options spaces disk e h1, h2⟩

/-- Witness of C11 as amended: the allow-list `abc`. -/
theorem main_template_rejects_unread_token_witness :
    ∃ e, main_template sys_ok options_abc spaces_M1 disk_M1
        = Run.mk (Outcome.threw e) disk_M1 [] [] ∧
      ∃ tok ∈ parse_semicolon_seperated options_abc.archs, stoi tok = Except.error e :=
  main_template_rejects_unread_token sys_ok options_abc spaces_M1 disk_M1
    ⟨"abc", by decide, Exception.invalid_argument, by decide⟩

/-- Counterexample to C11 as stated, the allow-list `9x`: its one token is not entirely a
decimal number, yet `stoi` reads 9 from it, the run returns 0, takes 9 as an architecture
and writes `flux_M1.cu` for the entry of architecture 9. -/
theorem main_template_rejects_unread_token_counterexample :
    parse_semicolon_seperated options_9x.archs = ["9x"] ∧
    stoi "9x" = Except.ok 9 ∧
    (main_template sys_ok options_9x spaces_M1 disk_M1).outcome = Outcome.returned 0 ∧
    (main_template sys_ok options_9x spaces_M1 disk_M1).all_file_paths = ["flux_M1.cu"] ∧
    (main_template sys_ok options_9x spaces_M1 disk_M1).trace.map Event.is_effect = [true] ∧
    (main_template sys_ok options_9x spaces_M1 disk_M1).disk.output_file
      = some "/out/flux_M1.cu\n" := by
  decide

/-! ## Merging spaces -/

theorem merge_inner (space merged : List (UnifiedGemmMeta × List UnifiedGemmHParams)) :
    space.foldl (fun merged val => merged ++ [val]) merged = merged ++ space := by
  induction space generalizing merged with
  | nil => simp
  | cons v space ih => rw [List.foldl_cons, ih]; simp

theorem merge_outer (spaces : List (List (UnifiedGemmMeta × List UnifiedGemmHParams)))
    (merged : List (UnifiedGemmMeta × List UnifiedGemmHParams)) :
    spaces.foldl (fun merged space => space.foldl (fun merged val => merged ++ [val]) merged)
      merged = merged ++ spaces.flatten := by
  induction spaces generalizing merged with
  | nil => simp
  | cons space spaces ih => rw [List.foldl_cons, ih, merge_inner]; simp

/-- C12. For every list of input spaces, `merge_gen_space` returns the concatenation of the
inputs in input order, each input in its own order, with no entry dropped, reordered or
altered; so its length is the sum of the input lengths, and the number of entries of a
given Meta in the result is the sum of their numbers in the inputs (a Meta that occurs
in two inputs occurs twice: nothing is deduplicated). -/
theorem merge_gen_space_is_concatenation
    (spaces : List (List (UnifiedGemmMeta × List UnifiedGemmHParams))) :
    merge_gen_space spaces = spaces.flatten ∧
    (merge_gen_space spaces).length = (spaces.map List.length).sum ∧
    (∀ m : UnifiedGemmMeta,
      (merge_gen_space spaces).countP (fun val => decide (val.1 = m)) =
        (spaces.map (fun space => space.countP (fun val => decide (val.1 = m)))).sum) ∧
    merge_gen_space [[(meta_A, [hparams_1])], [(meta_A, [hparams_2])]]
      = [(meta_A, [hparams_1]), (meta_A, [hparams_2])] := by
  have h : merge_gen_space spaces = spaces.flatten := by
    rw [merge_gen_space, merge_outer]; simp
  refine ⟨h, ?_, ?_, by decide⟩
  · rw [h, List.length_flatten]
  · intro m
    rw [h, List.countP_flatten]

/-! ## Operation names -/

theorem op_name_of_data (m : UnifiedGemmMeta) (h : UnifiedGemmHParams) :
    (op_name_of m h).data =
      "flux_".data ++ (m.to_kernel_name.data ++ '_' :: h.to_kernel_name.data) := by
  simp [op_name_of, String.data_append]

theorem op_name_of_inj_of_length (m1 m2 : UnifiedGemmMeta) (h1 h2 : UnifiedGemmHParams)
    (hlen : m1.to_kernel_name.length = m2.to_kernel_name.length ∨
      h1.to_kernel_name.length = h2.to_kernel_name.length)
    (heq : op_name_of m1 h1 = op_name_of m2 h2) :
    m1.to_kernel_name = m2.to_kernel_name ∧ h1.to_kernel_name = h2.to_kernel_name := by
  have hd := congrArg String.data heq
  rw [op_name_of_data, op_name_of_data] at hd
  have hd2 := List.append_cancel_left hd
  have key : m1.to_kernel_name.data = m2.to_kernel_name.data ∧
      '_' :: h1.to_kernel_name.data = '_' :: h2.to_kernel_name.data := by
    rcases hlen with hl | hl
    · exact List.append_inj hd2 hl
    · have hl2 : h1.to_kernel_name.data.length = h2.to_kernel_name.data.length := hl
      exact List.append_inj' hd2 (by rw [List.length_cons, List.length_cons, hl2])
  exact ⟨String.ext key.1, String.ext (List.cons.inj key.2).2⟩

/-- The operation name the body gives to the variant of index `i` is
`"flux_" + to_kernel_name(meta) + "_" + to_kernel_name(hparams_i)`.  Two (Meta, HParams)
pairs whose encoded names differ in some component get different operation names
whenever the two encoded Meta names have the same length (in particular when they are
equal, as for two variants of one file) or the two encoded HParams names have the same
length (in particular when they are equal).  Whether the names that `to_kernel_name`
really returns can collide is not decided here: `to_kernel_name` is not part of the
sources at hand. -/
theorem op_name_of_unique_at_equal_length :
    (∀ (m : UnifiedGemmMeta) (hs : List UnifiedGemmHParams) (impl_header impl_name : String)
      (i : Nat) (hi : i < hs.length),
      (CodeGen.create m hs impl_header impl_name).op_name i = op_name_of m (hs.get ⟨i, hi⟩)) ∧
    (∀ (g : CodeGen) (i : Nat),
      g.body_block i =
        regex_replace
          (regex_replace
            (regex_replace
              (regex_replace (regex_replace body_tpl "@REG_IDX@" (toString i))
                "@MAKE_HPARAMS_STR@" (g.make_hparams_str_list.getD i ""))
              "@GEMM_HPARAMS_ALIAS@" ("_" ++ g.hparams_kernel_name_list.getD i ""))
            "@IMPL_NAME@" g.impl_name)
          "@OP_NAME@" (g.op_name i)) ∧
    (∀ (m1 m2 : UnifiedGemmMeta) (h1 h2 : UnifiedGemmHParams),
      (m1.to_kernel_name.length = m2.to_kernel_name.length ∨
        h1.to_kernel_name.length = h2.to_kernel_name.length) →
      (m1.to_kernel_name ≠ m2.to_kernel_name ∨ h1.to_kernel_name ≠ h2.to_kernel_name) →
      op_name_of m1 h1 ≠ op_name_of m2 h2) := by
  refine ⟨?_, fun g i => rfl, ?_⟩
  · intro m hs impl_header impl_name i hi
    simp [CodeGen.op_name, CodeGen.create, op_name_of, List.getD, hi]
  · intro m1 m2 h1 h2 hlen hne heq
    have := op_name_of_inj_of_length m1 m2 h1 h2 hlen heq
    rcases hne with h | h
    · exact h this.1
    · exact h this.2

/-- Two variants of one Meta have different operation names. -/
theorem op_name_of_variants_differ :
    op_name_of meta_A hparams_1 ≠ op_name_of meta_A hparams_2 :=
  op_name_of_unique_at_equal_length.2.2 meta_A meta_A hparams_1 hparams_2
    (Or.inl rfl) (Or.inr (by decide))

/-- The concatenation alone does not separate the pairs: were `a_b` and `a` encoded Meta
names and `c` and `b_c` encoded HParams names, both pairs would get the operation name
`flux_a_b_c`. -/
theorem op_name_of_joins_ambiguously :
    (UnifiedGemmMeta.mk 80 "x" "a_b").to_kernel_name
      ≠ (UnifiedGemmMeta.mk 80 "y" "a").to_kernel_name ∧
    (UnifiedGemmHParams.mk "u" "c").to_kernel_name
      ≠ (UnifiedGemmHParams.mk "v" "b_c").to_kernel_name ∧
    op_name_of (UnifiedGemmMeta.mk 80 "x" "a_b") (UnifiedGemmHParams.mk "u" "c")
      = op_name_of (UnifiedGemmMeta.mk 80 "y" "a") (UnifiedGemmHParams.mk "v" "b_c") ∧
    (CodeGen.create (UnifiedGemmMeta.mk 80 "x" "a_b") [UnifiedGemmHParams.mk "u" "c"]
        "h.hpp" "Impl").op_name 0 = "flux_a_b_c" ∧
    (CodeGen.create (UnifiedGemmMeta.mk 80 "y" "a") [UnifiedGemmHParams.mk "v" "b_c"]
        "h.hpp" "Impl").op_name 0 = "flux_a_b_c" := by
  decide

/-! ## Building a space -/

theorem build_hparams_fold {M H0 H UH : Type} (materialize_hparams : M → H0 → H)
    (filter_smem : M → H → Bool) (unify_hparams : H → UH) (cmeta : M)
    (hparams_space : List H0) (acc : List UH) :
    hparams_space.foldl
        (build_hparams_step materialize_hparams filter_smem unify_hparams cmeta) acc =
      acc ++ ((hparams_space.map (materialize_hparams cmeta)).filter
        (filter_smem cmeta)).map unify_hparams := by
  induction hparams_space generalizing acc with
  | nil => simp
  | cons h0 hs ih =>
    rw [List.foldl_cons, ih]
    cases hf : filter_smem cmeta (materialize_hparams cmeta h0) <;>
      simp [build_hparams_step, hf, List.filter_cons]

theorem build_meta_fold {M UM UH : Type} (entry : M → UM × List UH) (meta_space : List M)
    (acc : List (UM × List UH)) :
    meta_space.foldl (fun gen_space cmeta => gen_space ++ [entry cmeta]) acc =
      acc ++ meta_space.map entry := by
  induction meta_space generalizing acc with
  | nil => simp
  | cons m ms ih => rw [List.foldl_cons, ih]; simp

/-- C15. For every `meta_space` and `hparams_space`, `build_gen_space` returns one entry per
element of `meta_space`, in that order; the HParams list of the entry of `cmeta` is the
order-preserving sublist of the elements of `hparams_space`, each materialized against
`cmeta`, that pass `filter_smem(cmeta, ·)`; so its length is `|hparams_space|` minus the
number of rejected elements, and a Meta for which every element is rejected is still
returned, with the empty list. -/
theorem build_gen_space_entries {M H0 H UM UH : Type} (materialize_hparams : M → H0 → H)
    (filter_smem : M → H → Bool) (unify_meta : M → UM) (unify_hparams : H → UH)
    (meta_space : List M) (hparams_space : List H0) :
    build_gen_space materialize_hparams filter_smem unify_meta unify_hparams
        meta_space hparams_space =
      meta_space.map (fun cmeta => (unify_meta cmeta,
        ((hparams_space.map (materialize_hparams cmeta)).filter
          (filter_smem cmeta)).map unify_hparams)) ∧
    (build_gen_space materialize_hparams filter_smem unify_meta unify_hparams
        meta_space hparams_space).map Prod.fst = meta_space.map unify_meta ∧
    (∀ cmeta : M,
      (((hparams_space.map (materialize_hparams cmeta)).filter
          (filter_smem cmeta)).map unify_hparams).length =
        hparams_space.length -
          hparams_space.countP (fun h0 => !filter_smem cmeta (materialize_hparams cmeta h0))) ∧
    (∀ cmeta ∈ meta_space,
      (∀ h0 ∈ hparams_space, filter_smem cmeta (materialize_hparams cmeta h0) = false) →
      (unify_meta cmeta, []) ∈
        build_gen_space materialize_hparams filter_smem unify_meta unify_hparams
          meta_space hparams_space) := by
  have h : build_gen_space materialize_hparams filter_smem unify_meta unify_hparams
        meta_space hparams_space =
      meta_space.map (fun cmeta => (unify_meta cmeta,
        ((hparams_space.map (materialize_hparams cmeta)).filter
          (filter_smem cmeta)).map unify_hparams)) := by
    unfold build_gen_space
    rw [build_meta_fold (fun cmeta => (unify_meta cmeta,
      hparams_space.foldl
        (build_hparams_step materialize_hparams filter_smem unify_hparams cmeta) []))]
    simp [build_hparams_fold]
  refine ⟨h, ?_, ?_, ?_⟩
  · rw [h]; simp [Function.comp_def]
  · intro cmeta
    rw [List.length_map, List.filter_map, List.length_map]
    have hsum := List.length_eq_countP_add_countP
      (fun h0 => filter_smem cmeta (materialize_hparams cmeta h0)) hparams_space
    rw [← List.countP_eq_length_filter]
    have hc : List.countP (filter_smem cmeta ∘ materialize_hparams cmeta) hparams_space =
        List.countP (fun h0 => filter_smem cmeta (materialize_hparams cmeta h0))
          hparams_space := rfl
    have hn : List.countP (fun h0 => !filter_smem cmeta (materialize_hparams cmeta h0))
          hparams_space =
        List.countP (fun a => ¬ filter_smem cmeta (materialize_hparams cmeta a) = true)
          hparams_space := by
      apply List.countP_congr
      intro x _
      cases filter_smem cmeta (materialize_hparams cmeta x) <;> simp
    rw [hc, hn]
    omega
  · intro cmeta hm hall
    rw [h, List.mem_map]
    refine ⟨cmeta, hm, ?_⟩
    have : (hparams_space.map (materialize_hparams cmeta)).filter (filter_smem cmeta) = [] := by
      rw [List.filter_eq_nil_iff]
      intro x hx
      obtain ⟨h0, hh0, rfl⟩ := List.mem_map.1 hx
      simp [hall h0 hh0]
    rw [this]; rfl

/-- Witness of C15: tile sizes 1 to 4 against the budgets 0 and 2; the Meta of budget 0
rejects every tile and is returned with the empty list. -/
theorem build_gen_space_entries_witness :
    (0, ([] : List Nat)) ∈
      build_gen_space (fun (_ : Nat) (h0 : Nat) => h0) (fun m h => decide (h ≤ m))
        (fun m => m) (fun h => h) [0, 2] [1, 2, 3, 4] ∧
    build_gen_space (fun (_ : Nat) (h0 : Nat) => h0) (fun m h => decide (h ≤ m))
        (fun m => m) (fun h => h) [0, 2] [1, 2, 3, 4] = [(0, []), (2, [1, 2])] :=
  ⟨(build_gen_space_entries (fun (_ : Nat) (h0 : Nat) => h0) (fun m h => decide (h ≤ m))
      (fun m => m) (fun h => h) [0, 2] [1, 2, 3, 4]).2.2.2 0 (by decide) (by decide),
    by decide⟩

/-! ## The separator of `--archs` -/

/-- C16, the code at the failing input. The usage text announces a comma separated list;
the allow-list `80,89` has no semicolon, so it is one token, from which `stoi` reads 80
and ignores `,89`: only architecture 80 is selected and the entry of architecture 89 is
not generated, whereas `80;89` selects both. -/
theorem archs_comma_list_selects_first_only :
    "--archs          Comma seperated, only specified SM number will be compiled".data
      <:+: Options.print_usage.data ∧
    parse_semicolon_seperated options_comma.archs = ["80,89"] ∧
    allowed_archs options_comma.archs = Except.ok [80] ∧
    (main_template sys_ok options_comma spaces_ABC disk_stale).outcome = Outcome.returned 0 ∧
    (main_template sys_ok options_comma spaces_ABC disk_stale).all_file_paths
      = ["flux_A.cu"] ∧
    (main_template sys_ok options_comma spaces_ABC disk_stale).disk.dir.names
      = ["flux_A.cu"] ∧
    (main_template sys_ok options_80_89 spaces_ABC disk_stale).all_file_paths
      = ["flux_A.cu", "flux_C.cu"] := by
  refine ⟨?_, by decide, by decide, by decide, by decide, by decide, by decide⟩
  set_option maxRecDepth 10000 in decide

/-! ## Removals that fail -/

/-- C17. For every directory, every `live_names` and every set `F` of names whose removal
fails, `clear_old_files` returns (the `filesystem_error` of `fs::remove` is caught in the
loop), the resulting directory is the list of the prior entries whose name is in
`live_names` or in `F`, each as it was and in order, and one removal is attempted per
entry outside `live_names`: it fails for the names of `F` and succeeds for every
other. -/
theorem clear_old_files_survives_failures (sys : Sys) (live_names : List String) (d : Dir)
    (F : List String) (hF : ∀ n, sys.can_remove n = false ↔ n ∈ F) :
    (clear_old_files sys live_names d).1 =
      d.filter (fun e => decide (e.1 ∈ live_names) || decide (e.1 ∈ F)) ∧
    (clear_old_files sys live_names d).2 =
      (d.filter (fun e => decide (e.1 ∉ live_names))).map
        (fun e => if e.1 ∈ F then Event.remove_failed e.1 else Event.removed e.1) := by
  rw [clear_old_files_eq]
  refine ⟨?_, ?_⟩
  · apply List.filter_congr
    intro x _
    by_cases hx : x.1 ∈ F
    · simp [hx, (hF x.1).2 hx]
    · have : sys.can_remove x.1 = true := by
        cases h : sys.can_remove x.1 with
        | true => rfl
        | false => exact absurd ((hF x.1).1 h) hx
      simp [hx, this]
  · apply List.map_congr_left
    intro x _
    by_cases hx : x.1 ∈ F
    · simp [clear_event, hx, (hF x.1).2 hx]
    · have : sys.can_remove x.1 = true := by
        cases h : sys.can_remove x.1 with
        | true => rfl
        | false => exact absurd ((hF x.1).1 h) hx
      simp [clear_event, hx, this]

/-- Witness of C17: `stale.cu` cannot be removed; `flux_B.cu` is removed all the same and
the directory ends with the live `flux_A.cu` and with `stale.cu`. -/
theorem clear_old_files_survives_failures_witness :
    ((clear_old_files sys_stuck ["flux_A.cu"] disk_stale.dir).1 =
      disk_stale.dir.filter
        (fun e => decide (e.1 ∈ ["flux_A.cu"]) || decide (e.1 ∈ ["stale.cu"])) ∧
    (clear_old_files sys_stuck ["flux_A.cu"] disk_stale.dir).2 =
      (disk_stale.dir.filter (fun e => decide (e.1 ∉ ["flux_A.cu"]))).map
        (fun e => if e.1 ∈ ["stale.cu"] then Event.remove_failed e.1
          else Event.removed e.1)) ∧
    clear_old_files sys_stuck ["flux_A.cu"] disk_stale.dir =
      ([("flux_A.cu", "a"), ("stale.cu", "s")],
        [Event.removed "flux_B.cu", Event.remove_failed "stale.cu"]) :=
  ⟨clear_old_files_survives_failures sys_stuck ["flux_A.cu"] disk_stale.dir ["stale.cu"]
    (by intro n; simp [sys_stuck]), by decide⟩

/-! ## The filter of `AllGemmMeta_FP16` -/

theorem fp16_meta_filter_iff (tup : GemmMetaTuple) :
    fp16_meta_filter tup = true ↔
      ¬ (tup.comm_spec.comm_kind = CommKindEnum.IntraNodePcie ∧
          tup.comm_spec.fuse_reduction = true) ∧
      ¬ (tup.dtype.a = DataTypeEnum.BF16 ∧ tup.comm_spec.fuse_reduction = true) := by
  unfold fp16_meta_filter
  by_cases h1 : tup.comm_spec.comm_kind = CommKindEnum.IntraNodePcie ∧
      tup.comm_spec.fuse_reduction = true
  · simp [h1]
  · by_cases h2 : tup.dtype.a = DataTypeEnum.BF16 ∧ tup.comm_spec.fuse_reduction = true
    · simp only [h1, h2, if_true, if_false]
      simp
    · simp only [h1, h2, if_false, not_false_eq_true, and_self]

/-- C19. An element of the raw cartesian product of `AllGemmMeta_FP16` (4 dtype
configurations, 2 architectures, 2 layouts, 6 reduce-scatter metas: 96 elements) survives
the filter if and only if it is neither (IntraNodePcie with fused reduction) nor (input A
of kind BF16 with fused reduction); so no surviving Meta combines PCI-e with fused
reduction, none combines BF16 input with fused reduction, every other combination of the
axes is kept, and 64 elements survive. -/
theorem all_gemm_meta_fp16_survivors :
    (∀ tup, tup ∈ AllGemmMeta_FP16 ↔
      tup ∈ fp16_raw_space ∧
      ¬ (tup.comm_spec.comm_kind = CommKindEnum.IntraNodePcie ∧
          tup.comm_spec.fuse_reduction = true) ∧
      ¬ (tup.dtype.a = DataTypeEnum.BF16 ∧ tup.comm_spec.fuse_reduction = true)) ∧
    (∀ tup, tup ∈ fp16_raw_space ↔
      tup.dtype ∈ fp16_dtype_configs ∧ tup.arch ∈ fp16_archs ∧
      tup.gemm_layout ∈ fp16_layouts ∧ tup.comm_spec ∈ fp16_rs_metas) ∧
    fp16_dtype_configs.length = 4 ∧ fp16_rs_metas.length = 6 ∧ fp16_rs_metas.Nodup ∧
    fp16_raw_space.length = 96 ∧ fp16_raw_space.Nodup ∧
    AllGemmMeta_FP16.length = 64 := by
  refine ⟨?_, ?_, by decide, by decide, by decide, by decide, by decide, by decide⟩
  · intro tup
    rw [AllGemmMeta_FP16, tuple_filter, List.mem_filter, fp16_meta_filter_iff]
  · intro tup
    simp only [fp16_raw_space, make_space_gemm_meta, List.mem_flatMap, List.mem_map]
    constructor
    · rintro ⟨dt, hdt, ar, har, lay, hlay, cs, hcs, rfl⟩
      exact ⟨hdt, har, hlay, hcs⟩
    · rintro ⟨hdt, har, hlay, hcs⟩
      exact ⟨tup.dtype, hdt, tup.arch, har, tup.gemm_layout, hlay, tup.comm_spec, hcs, rfl⟩

/-! ## `parse_semicolon_seperated` -/

theorem substr_length (str : List Char) (p n : Nat) (h : p + n ≤ str.length) :
    (substr str p n).length = n := by
  simp [substr]; omega

theorem substr_snoc (str : List Char) (p i : Nat) (hp : p ≤ i) (hi : i < str.length) :
    substr str p (i + 1 - p) = substr str p (i - p) ++ [str.getD i ' '] := by
  have h1 : i + 1 - p = (i - p) + 1 := by omega
  rw [h1, substr, substr, List.take_succ]
  congr 1
  have h2 : (List.drop p str)[i - p]? = str[i]? := by
    rw [List.getElem?_drop]; congr 1; omega
  rw [h2, List.getD_eq_getElem?_getD]
  rw [List.getElem?_eq_getElem hi]
  simp

theorem drop_eq_getD_cons (str : List Char) (i : Nat) (hi : i < str.length) :
    str.drop i = str.getD i ' ' :: str.drop (i + 1) := by
  rw [List.drop_eq_getElem_cons hi, List.getD_eq_getElem?_getD, List.getElem?_eq_getElem hi]
  rfl

theorem substr_eq_nil_iff (str : List Char) (p i : Nat) (hp : p ≤ i) (hi : i ≤ str.length) :
    substr str p (i - p) = [] ↔ ¬ p < i := by
  constructor
  · intro h hlt
    have := substr_length str p (i - p) (by omega)
    rw [h] at this
    simp at this
    omega
  · intro h
    have : i - p = 0 := by omega
    simp [substr, this]

theorem parse_loop_step_hit (str : List Char) (left i p : Nat)
    (vec : List String) (hp : p ≤ i) (h : i = str.length ∨ str.getD i ' ' = ';') :
    parse_loop str str.length (left + 1) i ((p : Int) - 1) vec =
      parse_loop str str.length left (i + 1) (((i + 1 : Nat) : Int) - 1)
        (if p < i then vec ++ [String.mk (substr str p (i - p))] else vec) := by
  have e1 : ((p : Int) - 1 + 1).toNat = p := by
    have : (p : Int) - 1 + 1 = (p : Int) := by omega
    rw [this]; exact Int.toNat_natCast p
  have e2 : ((i : Int) - ((p : Int) - 1) - 1).toNat = i - p := by
    have : (i : Int) - ((p : Int) - 1) - 1 = ((i - p : Nat) : Int) := by omega
    rw [this]; exact Int.toNat_natCast _
  have e3 : ((p : Int) - 1 + 1 < (i : Int)) ↔ p < i := by omega
  have e4 : (i : Int) = ((i + 1 : Nat) : Int) - 1 := by push_cast; omega
  rw [parse_loop]
  simp only [h, if_true, e1, e2, e3]
  rw [← e4]

theorem parse_loop_step_miss (str : List Char) (left i : Nat) (prev : Int)
    (vec : List String) (h : ¬ (i = str.length ∨ str.getD i ' ' = ';')) :
    parse_loop str str.length (left + 1) i prev vec =
      parse_loop str str.length left (i + 1) prev vec := by
  simp only [parse_loop, h, if_false]

theorem runs_from_end (cur : List Char) :
    runs_from cur [] = if cur = [] then [] else [cur] := by
  simp [runs_from]

theorem runs_from_semicolon (cur cs : List Char) :
    runs_from cur (';' :: cs) = (if cur = [] then [] else [cur]) ++ runs_from [] cs := by
  simp [runs_from]

theorem runs_from_other (cur cs : List Char) (c : Char) (hc : c ≠ ';') :
    runs_from cur (c :: cs) = runs_from (cur ++ [c]) cs := by
  simp [runs_from, hc]

theorem parse_loop_spec (str : List Char) :
    ∀ (left i p : Nat) (vec : List String), p ≤ i → i ≤ str.length →
      left = str.length + 1 - i →
      parse_loop str str.length left i ((p : Int) - 1) vec =
        vec ++ (runs_from (substr str p (i - p)) (str.drop i)).map String.mk := by
  intro left
  induction left with
  | zero => intro i p vec _ hi hl; omega
  | succ left ih =>
    intro i p vec hp hi hl
    have hcur : (if p < i then vec ++ [String.mk (substr str p (i - p))] else vec) =
        vec ++ (if substr str p (i - p) = [] then [] else [substr str p (i - p)]).map
          String.mk := by
      by_cases hlt : p < i
      · have hne : substr str p (i - p) ≠ [] := fun h =>
          (substr_eq_nil_iff str p i hp hi).1 h hlt
        simp [hlt, hne]
      · have hnil := (substr_eq_nil_iff str p i hp hi).2 hlt
        simp [hlt, hnil]
    by_cases hend : i = str.length
    · rw [parse_loop_step_hit str left i p vec hp (Or.inl hend), hcur]
      have hleft : left = 0 := by omega
      subst hleft
      have hdrop : str.drop i = [] := by rw [hend]; exact List.drop_length str
      rw [hdrop, runs_from_end]
      rfl
    · have hilt : i < str.length := by omega
      rw [drop_eq_getD_cons str i hilt]
      by_cases hc : str.getD i ' ' = ';'
      · rw [parse_loop_step_hit str left i p vec hp (Or.inr hc), hcur]
        rw [ih (i + 1) (i + 1) _ (le_refl _) (by omega) (by omega)]
        have hsub0 : substr str (i + 1) (i + 1 - (i + 1)) = [] := by simp [substr]
        rw [hsub0, hc, runs_from_semicolon]
        simp
      · rw [parse_loop_step_miss str left i _ vec (by
          intro h; rcases h with h | h
          · exact hend h
          · exact hc h)]
        rw [ih (i + 1) p vec (by omega) (by omega) (by omega)]
        rw [runs_from_other _ _ _ hc, substr_snoc str p i hp hilt]

theorem parse_loop_checked_eq (str : List Char) :
    ∀ (left i p : Nat) (vec : List String), p ≤ i → i ≤ str.length →
      left = str.length + 1 - i →
      parse_loop_checked str str.length left i ((p : Int) - 1) vec =
        some (parse_loop str str.length left i ((p : Int) - 1) vec) := by
  intro left
  induction left with
  | zero => intro i p vec _ hi hl; omega
  | succ left ih =>
    intro i p vec hp hi hl
    have e1 : ((p : Int) - 1 + 1).toNat = p := by
      have : (p : Int) - 1 + 1 = (p : Int) := by omega
      rw [this]; exact Int.toNat_natCast p
    have e0 : (0 : Int) ≤ (p : Int) - 1 + 1 ∧ ((p : Int) - 1 + 1).toNat ≤ str.length := by
      rw [e1]; constructor <;> omega
    have e4 : (i : Int) = ((i + 1 : Nat) : Int) - 1 := by push_cast; omega
    by_cases hend : i = str.length
    · have hleft : left = 0 := by omega
      subst hleft
      have hple : p ≤ str.length := by omega
      simp [parse_loop_checked, parse_loop, hend, e0]
      by_cases hlt : p < str.length <;> simp [hlt, hple]
    · have hilt : i < str.length := by omega
      have hget : str.get? i = some (str.getD i ' ') := by
        rw [List.getD_eq_getElem?_getD, List.get?_eq_getElem?, List.getElem?_eq_getElem hilt]
        rfl
      by_cases hc : str.getD i ' ' = ';'
      · by_cases hlt : (p : Int) - 1 + 1 < (i : Int)
        · have h1 := ih (i + 1) (i + 1)
            (vec ++ [String.mk (substr str ((p : Int) - 1 + 1).toNat
              ((i : Int) - ((p : Int) - 1) - 1).toNat)]) (le_refl _) (by omega) (by omega)
          rw [← e4] at h1
          rw [parse_loop_checked, parse_loop]
          simp only [hend, hget, hc, hlt, e0, if_true, if_false, Option.map_some', decide_True,
            or_true, and_self]
          exact h1
        · have h1 := ih (i + 1) (i + 1) vec (le_refl _) (by omega) (by omega)
          rw [← e4] at h1
          rw [parse_loop_checked, parse_loop]
          simp only [hend, hget, hc, hlt, if_true, if_false, Option.map_some', decide_True,
            or_true]
          exact h1
      · have h1 := ih (i + 1) p vec (by omega) (by omega) (by omega)
        rw [parse_loop_checked, parse_loop]
        simp only [hend, hget, hc, if_false, Option.map_some', decide_False, or_self]
        exact h1

theorem modifyHead_append_nil (l : List (List Char)) :
    l.modifyHead (fun r => [] ++ r) = l := by
  cases l <;> simp [List.modifyHead]

theorem runs_from_eq_splitOn (rest : List Char) :
    ∀ cur, runs_from cur rest =
      ((rest.splitOn ';').modifyHead (fun r => cur ++ r)).filter (fun r => !r.isEmpty) := by
  induction rest with
  | nil =>
    intro cur
    by_cases h : cur = [] <;> simp [runs_from, List.splitOn, List.splitOnP_nil, List.modifyHead, h]
  | cons c cs ih =>
    intro cur
    rw [List.splitOn, List.splitOnP_cons]
    by_cases hc : c = ';'
    · subst hc
      rw [runs_from_semicolon, ih []]
      have hm := modifyHead_append_nil (List.splitOn ';' cs)
      rw [hm]
      by_cases h : cur = [] <;> simp [List.modifyHead, List.splitOn, List.filter_cons, h]
    · rw [runs_from_other _ _ _ hc, ih (cur ++ [c])]
      have hb : (c == ';') = false := by simpa using hc
      simp only [hb, Bool.false_eq_true, if_false, List.splitOn]
      rw [List.modifyHead_modifyHead]
      congr 2
      funext r
      simp

theorem runs_from_tokens (rest : List Char) :
    ∀ cur, ';' ∉ cur → ∀ t ∈ runs_from cur rest, t ≠ [] ∧ ';' ∉ t := by
  induction rest with
  | nil =>
    intro cur hcur t ht
    by_cases h : cur = []
    · simp [runs_from, h] at ht
    · simp [runs_from, h] at ht
      subst ht
      exact ⟨h, hcur⟩
  | cons c cs ih =>
    intro cur hcur t ht
    by_cases hc : c = ';'
    · subst hc
      rw [runs_from_semicolon, List.mem_append] at ht
      rcases ht with ht | ht
      · by_cases h : cur = []
        · simp [h] at ht
        · simp [h] at ht
          subst ht
          exact ⟨h, hcur⟩
      · exact ih [] (by simp) t ht
    · rw [runs_from_other _ _ _ hc] at ht
      refine ih (cur ++ [c]) ?_ t ht
      simp only [List.mem_append, List.mem_singleton, not_or]
      exact ⟨hcur, fun h => hc h.symm⟩

theorem runs_from_append (t : List Char) (ht : ';' ∉ t) :
    ∀ cur rest, runs_from cur (t ++ rest) = runs_from (cur ++ t) rest := by
  induction t with
  | nil => intro cur rest; simp
  | cons c t ih =>
    intro cur rest
    have hc : c ≠ ';' := fun h => ht (by simp [h])
    have ht2 : ';' ∉ t := fun h => ht (List.mem_cons_of_mem _ h)
    rw [List.cons_append, runs_from_other _ _ _ hc, ih ht2]
    simp

theorem runs_from_intercalate (ts : List (List Char))
    (hts : ∀ t ∈ ts, t ≠ [] ∧ ';' ∉ t) :
    runs_from [] (List.intercalate [';'] ts) = ts := by
  induction ts with
  | nil => simp [List.intercalate, runs_from]
  | cons t ts ih =>
    have ht := hts t (by simp)
    have ih2 := ih (fun x hx => hts x (List.mem_cons_of_mem _ hx))
    cases ts with
    | nil =>
      have : List.intercalate [';'] [t] = t ++ [] := by simp [List.intercalate]
      rw [this, runs_from_append t ht.2, runs_from_end]
      simp [ht.1]
    | cons t2 ts =>
      have : List.intercalate [';'] (t :: t2 :: ts) =
          t ++ (';' :: List.intercalate [';'] (t2 :: ts)) := by
        simp [List.intercalate, List.intersperse]
      rw [this, runs_from_append t ht.2, runs_from_semicolon, ih2]
      simp [ht.1]

theorem intercalate_go_data (sep : String) (ts : List String) (acc : String) :
    (String.intercalate.go acc sep ts).data =
      acc.data ++ (ts.map (fun t => sep.data ++ t.data)).flatten := by
  induction ts generalizing acc with
  | nil => simp [String.intercalate.go]
  | cons t ts ih =>
    rw [String.intercalate.go, ih]
    simp [String.data_append]

theorem intercalate_data (ts : List String) :
    (String.intercalate ";" ts).data = List.intercalate [';'] (ts.map String.data) := by
  cases ts with
  | nil => rfl
  | cons t ts =>
    rw [String.intercalate, intercalate_go_data]
    induction ts generalizing t with
    | nil => simp [List.intercalate]
    | cons t2 ts ih =>
      have h := ih t2
      simp only [List.map_cons, List.flatten_cons] at h ⊢
      have e : List.intercalate [';'] (t.data :: t2.data :: List.map String.data ts) =
          t.data ++ (';' :: List.intercalate [';'] (t2.data :: List.map String.data ts)) := by
        simp [List.intercalate, List.intersperse]
      rw [e, ← h]
      simp

theorem parse_semicolon_seperated_eq_runs (s : String) :
    parse_semicolon_seperated s = (runs_from [] s.data).map String.mk := by
  have h := parse_loop_spec s.data (s.data.length + 1) 0 0 [] (le_refl _) (Nat.zero_le _)
    (by omega)
  have e : ((0 : Nat) : Int) - 1 = -1 := by simp
  rw [e] at h
  rw [parse_semicolon_seperated, h]
  simp [substr]

/-- C18. For every string `s`, the loop of `parse_semicolon_seperated` runs its
`size + 1` iterations without reading `str[i]` or calling `substr` out of range, and
returns, from left to right, the non-empty pieces of `s` between semicolons, that is
the maximal non-empty runs of characters other than `;`: every token is non-empty and
free of `;`, the empty string gives the empty list, and for every list of non-empty
tokens free of `;`, parsing the tokens joined by `;` gives that list back. -/
theorem parse_semicolon_seperated_tokens (s : String) :
    parse_loop_checked s.data s.data.length (s.data.length + 1) 0 (-1) []
      = some (parse_semicolon_seperated s) ∧
    (parse_semicolon_seperated s).map String.data =
      (s.data.splitOn ';').filter (fun r => !r.isEmpty) ∧
    (∀ t ∈ parse_semicolon_seperated s, t ≠ "" ∧ ';' ∉ t.data) ∧
    parse_semicolon_seperated "" = [] ∧
    (∀ ts : List String, (∀ t ∈ ts, t ≠ "" ∧ ';' ∉ t.data) →
      parse_semicolon_seperated (String.intercalate ";" ts) = ts) := by
  refine ⟨?_, ?_, ?_, by decide, ?_⟩
  · have h := parse_loop_checked_eq s.data (s.data.length + 1) 0 0 [] (le_refl _)
      (Nat.zero_le _) (by omega)
    have e : ((0 : Nat) : Int) - 1 = -1 := by simp
    rw [e] at h
    exact h
  · rw [parse_semicolon_seperated_eq_runs, runs_from_eq_splitOn, List.map_map]
    have : (String.data ∘ String.mk) = id := by funext x; rfl
    rw [this, List.map_id, modifyHead_append_nil]
  · intro t ht
    rw [parse_semicolon_seperated_eq_runs, List.mem_map] at ht
    obtain ⟨r, hr, rfl⟩ := ht
    have := runs_from_tokens s.data [] (by simp) r hr
    refine ⟨?_, this.2⟩
    intro h
    exact this.1 (congrArg String.data h)
  · intro ts hts
    rw [parse_semicolon_seperated_eq_runs, intercalate_data, runs_from_intercalate]
    · rw [List.map_map]
      have : (String.mk ∘ String.data) = id := by funext x; rfl
      rw [this, List.map_id]
    · intro t ht
      obtain ⟨x, hx, rfl⟩ := List.mem_map.1 ht
      have := hts x hx
      refine ⟨?_, this.2⟩
      intro h
      exact this.1 (String.ext h)

/-- Witness of C18: the tokens `80` and `89` joined by `;`, and a text with leading,
doubled and trailing semicolons. -/
theorem parse_semicolon_seperated_tokens_witness :
    parse_semicolon_seperated (String.intercalate ";" ["80", "89"]) = ["80", "89"] ∧
    parse_semicolon_seperated ";80;;89;" = ["80", "89"] ∧
    parse_loop_checked ";80;;89;".data 8 9 0 (-1) [] = some ["80", "89"] :=
  ⟨(parse_semicolon_seperated_tokens "").2.2.2.2 ["80", "89"] (by decide), by decide,
    by decide⟩

/-! ## Placeholder substitution -/

theorem format_go_plain (m pre suf : List Char) :
    ∀ fmt : List Char, '$' ∉ fmt → format_go m pre suf fmt = fmt
  | [], _ => by simp [format_go]
  | c :: r, h => by
    have hc : c ≠ '$' := fun e => h (by simp [e])
    have hr : '$' ∉ r := fun e => h (List.mem_cons_of_mem _ e)
    rw [format_go.eq_def]
    simp only [hc, ne_eq, not_false_eq_true, if_true]
    rw [format_go_plain m pre suf r hr]

theorem replace_go_eq_substitute (pat fmt : List Char) (hf : '$' ∉ fmt) :
    ∀ (rest : List Char) (skip : Nat) (pre : List Char),
      replace_go pat fmt skip pre rest = substitute pat fmt skip rest := by
  intro rest
  induction rest with
  | nil => intro skip pre; cases skip <;> simp [replace_go, substitute]
  | cons c rest ih =>
    intro skip pre
    cases skip with
    | succ k => simp only [replace_go, substitute]; exact ih k pre
    | zero =>
      simp only [replace_go, substitute]
      by_cases h : pat.isPrefixOf (c :: rest) = true
      · simp only [h, if_true]
        rw [format_go_plain _ _ _ fmt hf, ih]
      · have h2 : pat.isPrefixOf (c :: rest) = false := by
          cases hx : pat.isPrefixOf (c :: rest) with
          | true => exact absurd hx h
          | false => rfl
        simp only [h2, Bool.false_eq_true, if_false]
        rw [ih]

theorem substitute_skip (pat fmt : List Char) :
    ∀ (u v : List Char), substitute pat fmt u.length (u ++ v) = substitute pat fmt 0 v
  | [], v => by simp
  | c :: u, v => by
    simp only [List.length_cons, List.cons_append, substitute]
    exact substitute_skip pat fmt u v

theorem isPrefixOf_append_self (pat v : List Char) : pat.isPrefixOf (pat ++ v) = true := by
  rw [List.isPrefixOf_iff_prefix]; exact List.prefix_append pat v

theorem substitute_match (pat fmt v : List Char) (hne : pat ≠ []) :
    substitute pat fmt 0 (pat ++ v) = fmt ++ substitute pat fmt 0 v := by
  cases pat with
  | nil => exact absurd rfl hne
  | cons p ps =>
    have h := isPrefixOf_append_self (p :: ps) v
    rw [List.cons_append] at h ⊢
    rw [substitute, if_pos h]
    simp only [List.length_cons, Nat.add_sub_cancel]
    rw [substitute_skip]

theorem substitute_miss (pat fmt : List Char) (c : Char) (rest : List Char)
    (h : pat.isPrefixOf (c :: rest) = false) :
    substitute pat fmt 0 (c :: rest) = c :: substitute pat fmt 0 rest := by
  rw [substitute]; simp [h]

theorem safe_go_skip (ms : List Char) (pat : List Char) :
    ∀ (u v : List Char), safe_go ms pat u.length (u ++ v) = safe_go ms pat 0 v
  | [], v => by simp
  | c :: u, v => by
    simp only [List.length_cons, List.cons_append, safe_go]
    exact safe_go_skip ms pat u v

theorem safe_go_match (ms : List Char) (pat v : List Char) (hne : pat ≠ []) :
    safe_go ms pat 0 (pat ++ v) = safe_go ms pat 0 v := by
  cases pat with
  | nil => exact absurd rfl hne
  | cons p ps =>
    have h := isPrefixOf_append_self (p :: ps) v
    rw [List.cons_append] at h ⊢
    rw [safe_go, if_pos h]
    simp only [List.length_cons, Nat.add_sub_cancel]
    rw [safe_go_skip]

theorem lookup_eq_none_of_not_mem (env : List (Char × List Char)) (c : Char)
    (h : (env.map Prod.fst).contains c = false) : env.lookup c = none := by
  induction env with
  | nil => rfl
  | cons e env ih =>
    obtain ⟨k, v⟩ := e
    simp only [List.map_cons, List.contains_cons, Bool.or_eq_false_iff] at h
    simp only [List.lookup, h.1]
    exact ih h.2

theorem expand_nil (env : List (Char × List Char)) : expand env [] = [] := rfl

theorem expand_cons (env : List (Char × List Char)) (c : Char) (s : List Char) :
    expand env (c :: s) = (env.lookup c).getD [c] ++ expand env s := by
  simp [expand, List.flatMap_cons]

theorem expand_append (env : List (Char × List Char)) (a b : List Char) :
    expand env (a ++ b) = expand env a ++ expand env b := by
  simp [expand, List.flatMap_append]

theorem expand_plain (env : List (Char × List Char)) :
    ∀ s : List Char, (∀ c ∈ s, env.lookup c = none) → expand env s = s
  | [], _ => rfl
  | c :: s, h => by
    rw [expand_cons, h c (by simp), expand_plain env s (fun x hx => h x (List.mem_cons_of_mem _ hx))]
    rfl

theorem lookup_cons_ne (env : List (Char × List Char)) (mk c : Char) (fmt : List Char)
    (h : c ≠ mk) : List.lookup c ((mk, fmt) :: env) = List.lookup c env := by
  have hb : (c == mk) = false := by simpa using h
  simp [List.lookup, hb]

theorem lookup_cons_self (env : List (Char × List Char)) (mk : Char) (fmt : List Char) :
    List.lookup mk ((mk, fmt) :: env) = some fmt := by
  simp [List.lookup]

theorem isPrefixOf_cons_ne (h0 x : Char) (ps t : List Char) (h : x ≠ h0) :
    (h0 :: ps).isPrefixOf (x :: t) = false := by
  have hb : (h0 == x) = false := by simpa using fun e => h e.symm
  simp [List.isPrefixOf, hb]

theorem substitute_through (h0 : Char) (ps fmt : List Char) :
    ∀ (X t : List Char), (∀ x ∈ X, x ≠ h0) →
      substitute (h0 :: ps) fmt 0 (X ++ t) = X ++ substitute (h0 :: ps) fmt 0 t
  | [], t, _ => by simp
  | x :: X, t, h => by
    rw [List.cons_append, substitute_miss _ _ _ _ (isPrefixOf_cons_ne h0 x ps _ (h x (by simp))),
      substitute_through h0 ps fmt X t (fun y hy => h y (List.mem_cons_of_mem _ hy))]
    rfl

theorem lookup_isSome_of_mem (env : List (Char × List Char)) (c : Char)
    (h : c ∈ env.map Prod.fst) : (env.lookup c).isSome = true := by
  induction env with
  | nil => cases h
  | cons e env ih =>
    obtain ⟨k, v⟩ := e
    by_cases hk : c = k
    · simp [List.lookup, hk]
    · have hb : (c == k) = false := by simpa using hk
      simp only [List.lookup, hb]
      rcases List.mem_cons.1 h with h1 | h1
      · exact absurd h1 hk
      · exact ih h1

theorem clash_sound (env : List (Char × List Char)) :
    ∀ (pat t : List Char), clash (env.map Prod.fst) pat t = true →
      pat.isPrefixOf (expand env t) = false
  | [], _, h => by simp [clash] at h
  | _ :: _, [], _ => by simp [expand_nil, List.isPrefixOf]
  | p :: ps, c :: ts, h => by
    rw [clash] at h
    cases hm : (env.map Prod.fst).contains c with
    | true => rw [hm] at h; simp at h
    | false =>
      have hl := lookup_eq_none_of_not_mem env c hm
      simp only [hm, Bool.false_eq_true, if_false] at h
      rw [expand_cons, hl]
      show (p :: ps).isPrefixOf (c :: expand env ts) = false
      by_cases hpc : p = c
      · simp only [hpc, if_true] at h
        have := clash_sound env ps ts h
        simp [List.isPrefixOf, hpc, this]
      · have hb : (p == c) = false := by simpa using hpc
        simp [List.isPrefixOf, hb]

theorem substitute_expand_aux (env : List (Char × List Char)) (h0 : Char) (ps fmt : List Char)
    (mk : Char)
    (hpat : ∀ c ∈ h0 :: ps, env.lookup c = none)
    (hhead : ∀ c X, env.lookup c = some X → h0 ∉ X) :
    ∀ (n : Nat) (s : List Char), s.length ≤ n → mk ∉ s →
      safe_go (env.map Prod.fst) (h0 :: ps) 0 s = true →
      substitute (h0 :: ps) fmt 0 (expand env s) =
        expand ((mk, fmt) :: env) (substitute (h0 :: ps) [mk] 0 s) := by
  intro n
  induction n with
  | zero =>
    intro s hs _ _
    have : s = [] := List.length_eq_zero.1 (Nat.le_zero.1 hs)
    subst this
    rfl
  | succ n ih =>
    intro s hs hmk hsafe
    cases s with
    | nil => rfl
    | cons c rest =>
      have hcmk : c ≠ mk := fun e => hmk (by simp [e])
      have hrmk : mk ∉ rest := fun e => hmk (List.mem_cons_of_mem _ e)
      cases hp : (h0 :: ps).isPrefixOf (c :: rest) with
      | true =>
        obtain ⟨v, hv⟩ := List.isPrefixOf_iff_prefix.1 hp
        rw [← hv] at hsafe hs hmk ⊢
        rw [safe_go_match _ _ v (by simp)] at hsafe
        have hvlen : v.length ≤ n := by
          simp only [List.length_append, List.length_cons] at hs; omega
        have hvmk : mk ∉ v := fun e => hmk (List.mem_append_right _ e)
        rw [expand_append, expand_plain env _ hpat, substitute_match _ _ _ (by simp),
          substitute_match _ _ _ (by simp), ih v hvlen hvmk hsafe]
        rw [expand_append]
        congr 1
        rw [expand_cons, lookup_cons_self]
        simp [expand_nil]
      | false =>
        rw [safe_go, hp] at hsafe
        simp only [Bool.false_eq_true, if_false, Bool.and_eq_true, Bool.or_eq_true] at hsafe
        have hrlen : rest.length ≤ n := by simp only [List.length_cons] at hs; omega
        have ihr := ih rest hrlen hrmk hsafe.2
        rw [substitute_miss _ _ _ _ hp, expand_cons, expand_cons,
          lookup_cons_ne env mk c fmt hcmk, ← ihr]
        cases hl : List.lookup c env with
        | some X =>
          simp only [Option.getD_some]
          exact substitute_through h0 ps fmt X _ (fun x hx e => hhead c X hl (e ▸ hx))
        | none =>
          simp only [Option.getD_none]
          have hcl : clash (env.map Prod.fst) (h0 :: ps) (c :: rest) = true := by
            rcases hsafe.1 with h | h
            · have := lookup_isSome_of_mem env c (by simpa using h)
              rw [hl] at this
              cases this
            · exact h
          have := clash_sound env _ _ hcl
          rw [expand_cons, hl] at this
          exact substitute_miss _ _ _ _ this

/-- Substituting in a text with markers: when `check` holds, the substitution on the
expanded text is the expansion of the substitution on the text with markers, the new
marker `mk` standing for `fmt`. -/
theorem substitute_expand (env : List (Char × List Char)) (pat fmt : List Char) (mk : Char)
    (s : List Char) (hchk : check (env.map Prod.fst) pat mk s = true)
    (hhead : ∀ c X, env.lookup c = some X → '@' ∉ X) :
    substitute pat fmt 0 (expand env s) = expand ((mk, fmt) :: env) (substitute pat [mk] 0 s) := by
  simp only [check, Bool.and_eq_true, decide_eq_true_eq, List.all_eq_true,
    Bool.not_eq_true'] at hchk
  obtain ⟨⟨⟨hat, hpat⟩, hmk⟩, hsafe⟩ := hchk
  cases pat with
  | nil => simp at hat
  | cons h0 ps =>
    have h0at : h0 = '@' := by simpa using hat
    refine substitute_expand_aux env h0 ps fmt mk ?_ ?_ s.length s (le_refl _) ?_ hsafe
    · intro c hc; exact lookup_eq_none_of_not_mem env c (hpat c hc)
    · intro c X hl; rw [h0at]; exact hhead c X hl
    · intro hm
      have : s.contains mk = true := by simpa using hm
      rw [this] at hmk
      cases hmk

theorem replace_all_expand :
    ∀ (steps : List (List Char × Char × List Char)) (env : List (Char × List Char))
      (t : List Char),
      check_all (env.map Prod.fst) t (steps.map (fun st => (st.1, st.2.1))) = true →
      (∀ st ∈ steps, '$' ∉ st.2.2 ∧ '@' ∉ st.2.2) →
      (∀ c X, env.lookup c = some X → '@' ∉ X) →
      replace_all (expand env t) (steps.map (fun st => (st.1, st.2.2))) =
        expand (env_all env steps) (mark_all t (steps.map (fun st => (st.1, st.2.1)))) ∧
      (∀ c X, (env_all env steps).lookup c = some X → '@' ∉ X)
  | [], env, t, _, _, henv => ⟨rfl, henv⟩
  | st :: steps, env, t, hchk, hfmt, henv => by
    simp only [List.map_cons, check_all, Bool.and_eq_true] at hchk
    have hst := hfmt st (by simp)
    have henv2 : ∀ c X, List.lookup c ((st.2.1, st.2.2) :: env) = some X → '@' ∉ X := by
      intro c X hl
      by_cases hc : c = st.2.1
      · rw [hc, lookup_cons_self] at hl
        cases hl
        exact hst.2
      · rw [lookup_cons_ne env _ c _ hc] at hl
        exact henv c X hl
    have ih := replace_all_expand steps ((st.2.1, st.2.2) :: env)
      (substitute st.1 [st.2.1] 0 t) hchk.2
      (fun s2 hs2 => hfmt s2 (List.mem_cons_of_mem _ hs2)) henv2
    simp only [List.map_cons, replace_all, mark_all, env_all]
    rw [replace_go_eq_substitute _ _ hst.1, substitute_expand env st.1 st.2.2 st.2.1 t hchk.1 henv]
    exact ih

theorem not_mem_expand (env : List (Char × List Char)) (s : List Char)
    (henv : ∀ c X, env.lookup c = some X → '@' ∉ X) (hs : '@' ∉ s) : '@' ∉ expand env s := by
  induction s with
  | nil => simp [expand]
  | cons c s ih =>
    rw [expand_cons, List.mem_append, not_or]
    refine ⟨?_, ih (fun h => hs (List.mem_cons_of_mem _ h))⟩
    cases hl : List.lookup c env with
    | some X => exact henv c X hl
    | none =>
      simp only [Option.getD_none, List.mem_singleton]
      intro e
      exact hs (List.mem_cons.2 (Or.inl e))

/-- A renderer leaves no `@`: when the conditions hold along the steps, the texts are free
of `@` and `$`, and no `@` is left in the template once the placeholders are marked. -/
theorem replace_all_no_at (t : List Char) (steps : List (List Char × Char × List Char))
    (hchk : check_all [] t (steps.map (fun st => (st.1, st.2.1))) = true)
    (hleft : (mark_all t (steps.map (fun st => (st.1, st.2.1)))).contains '@' = false)
    (hfmt : ∀ st ∈ steps, '$' ∉ st.2.2 ∧ '@' ∉ st.2.2) :
    '@' ∉ replace_all t (steps.map (fun st => (st.1, st.2.2))) := by
  have h := replace_all_expand steps [] t hchk hfmt (by intro c X hl; cases hl)
  have ht : expand [] t = t := expand_plain [] t (fun _ _ => rfl)
  rw [ht] at h
  rw [h.1]
  apply not_mem_expand _ _ h.2
  intro hm
  have : (mark_all t (steps.map (fun st => (st.1, st.2.1)))).contains '@' = true := by
    simpa using hm
  rw [this] at hleft
  cases hleft

theorem header_steps_ok :
    check_all [] header_tpl.data header_steps = true ∧
      (mark_all header_tpl.data header_steps).contains '@' = false := by
  decide!

theorem body_steps_ok :
    check_all [] body_tpl.data body_steps = true ∧
      (mark_all body_tpl.data body_steps).contains '@' = false := by
  decide!

theorem tail_steps_ok :
    check_all [] tail_tpl.data tail_steps = true ∧
      (mark_all tail_tpl.data tail_steps).contains '@' = false := by
  decide!

/-! ## The shape of a generated file -/

theorem digitChar_clean : ∀ d < 10, Nat.digitChar d ≠ '@' ∧ Nat.digitChar d ≠ '$' := by
  decide

theorem toDigitsCore_clean (fuel : Nat) :
    ∀ (n : Nat) (ds : List Char), (∀ c ∈ ds, c ≠ '@' ∧ c ≠ '$') →
      ∀ c ∈ Nat.toDigitsCore 10 fuel n ds, c ≠ '@' ∧ c ≠ '$' := by
  induction fuel with
  | zero => intro n ds h c hc; exact h c (by simpa [Nat.toDigitsCore] using hc)
  | succ fuel ih =>
    intro n ds h c hc
    have hds : ∀ x ∈ Nat.digitChar (n % 10) :: ds, x ≠ '@' ∧ x ≠ '$' := by
      intro x hx
      rcases List.mem_cons.1 hx with rfl | hx
      · exact digitChar_clean _ (Nat.mod_lt _ (by decide))
      · exact h x hx
    rw [Nat.toDigitsCore] at hc
    by_cases hn : n / 10 = 0
    · simp only [hn, if_true] at hc
      exact hds c hc
    · simp only [hn, if_false] at hc
      exact ih (n / 10) _ hds c hc

theorem toString_clean (i : Nat) : '@' ∉ (toString i).data ∧ '$' ∉ (toString i).data := by
  have h : ∀ c ∈ (toString i).data, c ≠ '@' ∧ c ≠ '$' :=
    toDigitsCore_clean (i + 1) i [] (fun c hc => by cases hc)
  exact ⟨fun hm => (h _ hm).1 rfl, fun hm => (h _ hm).2 rfl⟩

theorem join_fold_data (l : List String) (acc : String) :
    (l.foldl (fun r s => r ++ s) acc).data = acc.data ++ (l.map String.data).flatten := by
  induction l generalizing acc with
  | nil => simp
  | cons s l ih => rw [List.foldl_cons, ih]; simp [String.data_append]

theorem join_data (l : List String) : (String.join l).data = (l.map String.data).flatten := by
  rw [String.join, join_fold_data]; rfl

theorem getD_map_of_lt {A : Type} (f : A → String) (l : List A) (i : Nat) (hi : i < l.length) :
    (l.map f).getD i "" = f (l.get ⟨i, hi⟩) := by
  simp [List.getD, hi]

theorem body_block_eq (m : UnifiedGemmMeta) (hs : List UnifiedGemmHParams)
    (impl_header impl_name : String) (i : Nat) (hi : i < hs.length) :
    (CodeGen.create m hs impl_header impl_name).body_block i =
      body_of m impl_name i (hs.get ⟨i, hi⟩) := by
  simp only [CodeGen.body_block, CodeGen.create, body_of, op_name_of,
    getD_map_of_lt _ hs i hi]

theorem gen_body_eq (m : UnifiedGemmMeta) (hs : List UnifiedGemmHParams)
    (impl_header impl_name : String) :
    (CodeGen.create m hs impl_header impl_name).gen_body =
      String.join (hs.enum.map (fun p => body_of m impl_name p.1 p.2)) := by
  unfold CodeGen.gen_body
  congr 1
  apply List.ext_getElem
  · simp [CodeGen.create]
  · intro n h1 h2
    have hn : n < hs.length := by simpa [CodeGen.create] using h1
    rw [List.getElem_map, List.getElem_map, List.getElem_range, List.getElem_enum]
    exact body_block_eq m hs impl_header impl_name n hn

theorem expand_one_plain (mk : Char) (X : List Char) (A : List Char)
    (hA : A.contains mk = false) : expand [(mk, X)] A = A := by
  apply expand_plain
  intro c hc
  have hne : c ≠ mk := by
    intro e
    have : A.contains mk = true := by simpa [e] using hc
    rw [this] at hA
    cases hA
  rw [lookup_cons_ne [] mk c X hne]
  rfl

theorem expand_one_split (mk : Char) (X : List Char) (A rest : List Char)
    (hA : A.contains mk = false) :
    expand [(mk, X)] (A ++ mk :: rest) = A ++ (X ++ expand [(mk, X)] rest) := by
  rw [expand_append, expand_one_plain mk X A hA, expand_cons, lookup_cons_self]
  rfl

theorem tail_marked :
    mark_all tail_tpl.data tail_steps =
      "  OpRegistry::instance().register_creator([]() \x7b return std::make_unique<GemmDevice_".data
        ++ Char.ofNat 1 :: (">(); \x7d, GemmMetaT\x7b\x7d,GemmHParamsT_".data
        ++ Char.ofNat 1 :: ("\x7b\x7d,".data ++ Char.ofNat 1 :: ")".data)) := by
  decide!

theorem regex_replace_data (s pat fmt : String) :
    (regex_replace s pat fmt).data = replace_go pat.data fmt.data 0 [] s.data := rfl

theorem tail_line_eq (i : Nat) : CodeGen.tail_line i = tail_of i ++ ",\n" := by
  have h := (replace_all_expand [("@REG_IDX@".data, Char.ofNat 1, (toString i).data)] []
    tail_tpl.data tail_steps_ok.1
    (fun st hst => by
      rw [List.mem_singleton] at hst
      rw [hst]
      exact ⟨(toString_clean i).2, (toString_clean i).1⟩)
    (by intro c X hl; cases hl)).1
  have ht : expand [] tail_tpl.data = tail_tpl.data := expand_plain [] _ (fun _ _ => rfl)
  rw [ht] at h
  have hm : mark_all tail_tpl.data
      (List.map (fun st => (st.1, st.2.1))
        [("@REG_IDX@".data, Char.ofNat 1, (toString i).data)]) =
      mark_all tail_tpl.data tail_steps := rfl
  rw [hm, tail_marked] at h
  have hr : (regex_replace tail_tpl "@REG_IDX@" (toString i)).data = (tail_of i).data := by
    rw [regex_replace_data]
    have hl : replace_go "@REG_IDX@".data (toString i).data 0 [] tail_tpl.data =
        replace_all tail_tpl.data
          (List.map (fun st => (st.1, st.2.2))
            [("@REG_IDX@".data, Char.ofNat 1, (toString i).data)]) := rfl
    rw [hl, h]
    simp only [env_all]
    rw [expand_one_split _ _ _ _ (by decide), expand_one_split _ _ _ _ (by decide),
      expand_one_split _ _ _ _ (by decide), expand_one_plain _ _ _ (by decide)]
    simp only [tail_of, String.data_append, List.append_assoc]
  rw [CodeGen.tail_line, String.ext hr]

theorem gen_tail_eq (g : CodeGen) :
    g.gen_tail = "static bool _dummy_reg [[maybe_unused]] = (\n"
      ++ String.join ((List.range g.make_hparams_str_list.length).map
        (fun i => tail_of i ++ ",\n")) ++ "true);" := by
  unfold CodeGen.gen_tail
  have h : CodeGen.tail_line = fun i => tail_of i ++ ",\n" := by
    funext i
    exact tail_line_eq i
  rw [h]

theorem gen_code_eq (m : UnifiedGemmMeta) (hs : List UnifiedGemmHParams)
    (impl_header impl_name : String) :
    (CodeGen.create m hs impl_header impl_name).gen_code =
      header_of impl_header m ++
        String.join (hs.enum.map (fun p => body_of m impl_name p.1 p.2)) ++
        ("static bool _dummy_reg [[maybe_unused]] = (\n"
          ++ String.join ((List.range hs.length).map (fun i => tail_of i ++ ",\n"))
          ++ "true);") := by
  rw [CodeGen.gen_code, gen_body_eq, gen_tail_eq]
  have hl : (CodeGen.create m hs impl_header impl_name).make_hparams_str_list.length
      = hs.length := by simp [CodeGen.create]
  rw [hl]
  rfl

/-- C13. For every Meta and every list of `n` HParams, `gen_code` is header, then body,
then tail: the header is rendered once, from the Meta and the implementation header
only; the body is the concatenation of the `n` blocks, the block of index `i` (0-based,
in list order) being the body template instantiated with `i` and the constructor string
and encoded name of the `i`-th HParams; the tail holds, between its opening and closing
lines, the `n` `register_creator` statements of the indices `0` to `n - 1` in order.
For the scenario of two HParams this is one header block, the two body blocks of
indices 0 and 1 and two registration statements. -/
theorem gen_code_shape (m : UnifiedGemmMeta) (hs : List UnifiedGemmHParams)
    (impl_header impl_name : String) :
    (CodeGen.create m hs impl_header impl_name).gen_code =
      header_of impl_header m ++
        String.join (hs.enum.map (fun p => body_of m impl_name p.1 p.2)) ++
        ("static bool _dummy_reg [[maybe_unused]] = (\n"
          ++ String.join ((List.range hs.length).map (fun i => tail_of i ++ ",\n"))
          ++ "true);") ∧
    (hs.enum.map (fun p => body_of m impl_name p.1 p.2)).length = hs.length ∧
    ((List.range hs.length).map (fun i => tail_of i ++ ",\n")).length = hs.length ∧
    (∀ (i : Nat) (hi : i < hs.length),
      (hs.enum.map (fun p => body_of m impl_name p.1 p.2)).get? i =
        some (body_of m impl_name i (hs.get ⟨i, hi⟩)) ∧
      ((List.range hs.length).map (fun i => tail_of i ++ ",\n")).get? i =
        some (tail_of i ++ ",\n")) ∧
    (CodeGen.create meta_M1 [hparams_1, hparams_2] "gemm_rs/gemm_v2_reduce_scatter.hpp"
        "GemmV2ReduceScatter").gen_code =
      scenario_header ++ (scenario_block_0 ++ scenario_block_1) ++ scenario_tail := by
  refine ⟨gen_code_eq m hs impl_header impl_name, by simp, by simp, ?_, by decide!⟩
  intro i hi
  constructor
  · rw [List.get?_eq_getElem?, List.getElem?_map, List.getElem?_eq_getElem (by simpa using hi),
      List.getElem_enum]
    rfl
  · rw [List.get?_eq_getElem?, List.getElem?_map, List.getElem?_eq_getElem (by simpa using hi),
      List.getElem_range]
    rfl

/-! ## No placeholder is left -/

theorem clean_append {a b : String} (ha : clean a) (hb : clean b) : clean (a ++ b) := by
  unfold clean at *
  rw [String.data_append]
  simp only [List.mem_append, not_or]
  exact ⟨⟨ha.1, hb.1⟩, ⟨ha.2, hb.2⟩⟩

theorem clean_toString (i : Nat) : clean (toString i) := toString_clean i

theorem header_of_no_at (impl_header : String) (m : UnifiedGemmMeta)
    (hh : clean impl_header) (hmc : clean m.to_make_constexpr) (hmn : clean m.to_kernel_name) :
    '@' ∉ (header_of impl_header m).data := by
  have hu : clean ("_" ++ m.to_kernel_name) := clean_append (by unfold clean; decide) hmn
  exact replace_all_no_at header_tpl.data
    [("@IMPL_HEADER@".data, Char.ofNat 1, impl_header.data),
     ("@MAKE_META_STR@".data, Char.ofNat 2, m.to_make_constexpr.data),
     ("@GEMM_META_ALIAS@".data, Char.ofNat 3, ("_" ++ m.to_kernel_name).data)]
    header_steps_ok.1 header_steps_ok.2
    (by
      intro st hst
      simp only [List.mem_cons, List.mem_singleton, List.not_mem_nil, or_false] at hst
      rcases hst with rfl | rfl | rfl
      · exact ⟨hh.2, hh.1⟩
      · exact ⟨hmc.2, hmc.1⟩
      · exact ⟨hu.2, hu.1⟩)

theorem body_of_no_at (m : UnifiedGemmMeta) (impl_name : String) (i : Nat)
    (h : UnifiedGemmHParams) (hn : clean impl_name) (hmn : clean m.to_kernel_name)
    (hhc : clean h.to_make_constexpr) (hhn : clean h.to_kernel_name) :
    '@' ∉ (body_of m impl_name i h).data := by
  have hu : clean ("_" ++ h.to_kernel_name) := clean_append (by unfold clean; decide) hhn
  have hop : clean (op_name_of m h) :=
    clean_append (clean_append (clean_append (by unfold clean; decide) hmn)
      (by unfold clean; decide)) hhn
  have hi := clean_toString i
  exact replace_all_no_at body_tpl.data
    [("@REG_IDX@".data, Char.ofNat 1, (toString i).data),
     ("@MAKE_HPARAMS_STR@".data, Char.ofNat 2, h.to_make_constexpr.data),
     ("@GEMM_HPARAMS_ALIAS@".data, Char.ofNat 3, ("_" ++ h.to_kernel_name).data),
     ("@IMPL_NAME@".data, Char.ofNat 4, impl_name.data),
     ("@OP_NAME@".data, Char.ofNat 5, (op_name_of m h).data)]
    body_steps_ok.1 body_steps_ok.2
    (by
      intro st hst
      simp only [List.mem_cons, List.mem_singleton, List.not_mem_nil, or_false] at hst
      rcases hst with rfl | rfl | rfl | rfl | rfl
      · exact ⟨hi.2, hi.1⟩
      · exact ⟨hhc.2, hhc.1⟩
      · exact ⟨hu.2, hu.1⟩
      · exact ⟨hn.2, hn.1⟩
      · exact ⟨hop.2, hop.1⟩)

theorem tail_of_no_at (i : Nat) : '@' ∉ (tail_of i ++ ",\n").data := by
  have hi := clean_toString i
  have hc : clean (tail_of i ++ ",\n") := by
    unfold tail_of
    exact clean_append (clean_append (clean_append (clean_append (clean_append (clean_append
      (clean_append (by unfold clean; decide) hi) (by unfold clean; decide)) hi)
      (by unfold clean; decide)) hi) (by unfold clean; decide)) (by unfold clean; decide)
  exact hc.1

theorem join_no_at (l : List String) (h : ∀ s ∈ l, '@' ∉ s.data) :
    '@' ∉ (String.join l).data := by
  rw [join_data]
  intro hm
  obtain ⟨x, hx, hax⟩ := List.mem_flatten.1 hm
  obtain ⟨s, hs, rfl⟩ := List.mem_map.1 hx
  exact h s hs hax

/-- C20. Placeholder completeness: when `impl_header`, `impl_name`, the constructor string
and the encoded name of the Meta, and the constructor string and encoded name of every
HParams hold neither `@` nor `$`, the text returned by `gen_code` holds no `@`: each of
the eight placeholders of the three templates has been replaced. -/
theorem gen_code_has_no_placeholder (impl_header impl_name : String) (m : UnifiedGemmMeta)
    (hs : List UnifiedGemmHParams)
    (hheader : clean impl_header) (hname : clean impl_name)
    (hmeta : clean m.to_make_constexpr ∧ clean m.to_kernel_name)
    (hhparams : ∀ h ∈ hs, clean h.to_make_constexpr ∧ clean h.to_kernel_name) :
    '@' ∉ (CodeGen.create m hs impl_header impl_name).gen_code.data := by
  rw [gen_code_eq]
  simp only [String.data_append, List.mem_append, not_or]
  refine ⟨⟨header_of_no_at impl_header m hheader hmeta.1 hmeta.2, ?_⟩, ⟨?_, ?_⟩, ?_⟩
  · apply join_no_at
    intro s hs2
    obtain ⟨p, hp, rfl⟩ := List.mem_map.1 hs2
    have hmem := List.snd_mem_of_mem_enum hp
    exact body_of_no_at m impl_name p.1 p.2 hname hmeta.2 (hhparams _ hmem).1
      (hhparams _ hmem).2
  · decide
  · apply join_no_at
    intro s hs2
    obtain ⟨i, _, rfl⟩ := List.mem_map.1 hs2
    exact tail_of_no_at i
  · decide

/-- Witness of C20: the scenario of the specification. -/
theorem gen_code_has_no_placeholder_witness :
    '@' ∉ (CodeGen.create meta_M1 [hparams_1, hparams_2] "gemm_rs/gemm_v2_reduce_scatter.hpp"
        "GemmV2ReduceScatter").gen_code.data :=
  gen_code_has_no_placeholder "gemm_rs/gemm_v2_reduce_scatter.hpp" "GemmV2ReduceScatter"
    meta_M1 [hparams_1, hparams_2] (by unfold clean; decide) (by unfold clean; decide)
    (by unfold clean; decide) (by unfold clean; decide)


/-! ## Entries that share a file name -/

end Generator
